import Mathlib

/-!
# erlang-cnode-v8-wrapper: registry, worker pool and dispatcher

A shallow embedding of `v8runner.cpp` (class `pb::V8Runner`), of
`include/threadpool.h` (class `pb::concurrent::ThreadPool`) and of
`src/cnode.cpp` (class `CNode`), followed by theorems about them.

Conventions of the embedding.

* The V8 engine is an external library. It enters as a record of functions
  (`V8`), one per engine entry point the C++ code calls.
* A C++ operation whose behaviour is undefined on some input (locking a null
  isolate pointer, indexing a vector out of range) returns `none` there.
* Every call into the engine is appended to the field `v8log` of the state, in
  the order in which the source makes the calls.
* Wall-clock readings are arguments of the operation that reads the clock.
-/

namespace pb

/-! ## Hash maps as association lists

`std::unordered_map` is modelled as a list of key/value pairs that holds each
key at most once; `size()` is the length of the list. -/

section Map

variable {K V : Type} [DecidableEq K]

/-- The call `m.find(k)`: the value stored under `k`, `none` for `m.end()`. -/
def mfind (k : K) : List (K × V) → Option V
  | [] => none
  | (k', v) :: m => if k' = k then some v else mfind k m

/-- The assignment `m[k] = v`: overwrites the value of an existing key and
inserts the pair otherwise. -/
def massign (k : K) (v : V) : List (K × V) → List (K × V)
  | [] => [(k, v)]
  | (k', v') :: m => if k' = k then (k', v) :: m else (k', v') :: massign k v m

/-- The expression `m[k]` used as a value: the stored value, or, when the key
is missing, the value-initialised `dflt`, which is inserted under `k`. -/
def mindex (k : K) (dflt : V) (m : List (K × V)) : V × List (K × V) :=
  match mfind k m with
  | some v => (v, m)
  | none => (dflt, massign k dflt m)

/-- The call `m.erase(k)`: the number of removed elements and the new map. -/
def merase (k : K) : List (K × V) → Nat × List (K × V)
  | [] => (0, [])
  | (k', v) :: m =>
    if k' = k then (1, m) else ((merase k m).1, (k', v) :: (merase k m).2)

/-- How the list of keys of a map changes when `k` is assigned to: `l'` is
`l` when `k` is in `l`, and `l` with `k` added at its end otherwise. -/
def Grown (l l' : List K) (k : K) : Prop :=
  (k ∈ l ∧ l' = l) ∨ (k ∉ l ∧ l' = l ++ [k])

end Map

/-! ## The engine interface -/

/-- A `v8::Isolate*`, as an address. -/
abbrev Isolate := Nat

/-- The null isolate pointer. -/
def nullIsolate : Isolate := 0

/-- Outcome of `compiled_script->Run(context)`. -/
inductive ScriptResult (Val Heap : Type) where
  /-- `ToLocal` succeeded with the value the script evaluated to. -/
  | value (v : Val) (h : Heap)
  /-- `ToLocal` failed; `msg` is the text `_makeTryCatchError` builds. -/
  | threw (msg : String) (h : Heap)

/-- Outcome of `func->Call(context->Global(), 1, args)` as seen through the
surrounding `v8::TryCatch`. -/
inductive CallResult (Val Heap : Type) where
  /-- Nothing was caught; `v` is the returned value. -/
  | returned (v : Val) (h : Heap)
  /-- `HasCaught()` and not `HasTerminated()`. -/
  | threw (msg : String) (h : Heap)
  /-- `HasCaught()` and `HasTerminated()`. -/
  | terminated (h : Heap)

/-- The V8 entry points used by `V8Runner`. `Val` is the type of JavaScript
values, `Heap` the state of one isolate together with its context. The require
cache is passed to the entry points that execute JavaScript, because the native
`require` hook reads it. -/
structure V8 (Val Heap : Type) where
  /-- The context `makeNewIsolate` builds: a fresh isolate whose global object
  has `print` and `require`. -/
  newContext : Heap
  /-- `v8::Script::Compile`: `some msg` when `ToLocal` fails. -/
  scriptCompile : String → Option String
  /-- `compiled_script->Run(context)` for the script compiled from the text. -/
  scriptRun : List (String × String) → Heap → String → ScriptResult Val Heap
  /-- `v8::JSON::Parse` followed by `ToObject()`: `none` when the result of
  `JSON::Parse` is empty. -/
  jsonParse : String → Option Val
  /-- `func->Call(context->Global(), 1, args)`. -/
  functionCall : List (String × String) → Heap → Val → Val → CallResult Val Heap
  /-- The function `V8Runner::_jsonStr` on a non-empty value. -/
  jsonStr : Heap → Val → String

/-- One call into the engine. -/
inductive V8Call (Val : Type) where
  | scriptCompile (isolate : Isolate) (src : String)
  | scriptRun (isolate : Isolate) (src : String)
  | jsonParse (isolate : Isolate) (data : String)
  | functionCall (isolate : Isolate) (f : Val) (arg : Val)
  | terminateExecution (isolate : Isolate)
  | discardThreadSpecificMetadata (isolate : Isolate)
  /-- `v8::Isolate::New` in `makeNewIsolate`, called from `_checkCode`. -/
  | isolateNew
  /-- `Script::Compile` on the isolate `_checkCode` created. -/
  | checkCompile (src : String)
  /-- `Run` on the isolate `_checkCode` created. -/
  | checkRun (src : String)
  /-- `Dispose` of the isolate `_checkCode` created. -/
  | isolateDispose
  deriving DecidableEq

/-! ## `V8Runner` -/

/-- The enumeration `V8Runner::STATUS`. -/
inductive STATUS where
  | NO_ERR
  | ERR
  | COMPILE_ERR
  | NOT_FOUND_PAIR_ERR
  | NOT_FUNCTION_ERR
  | BAD_INPUT_ERR
  | SCRIPT_RUNTIME_ERR
  | SCRIPT_TERMINATED_ERR
  | CACHED_REQUIRE_FILE_ERR
  deriving DecidableEq, Repr

/-- The integer value of a `STATUS` enumerator. -/
def STATUS.code : STATUS → Int
  | .NO_ERR => 0
  | .ERR => 1
  | .COMPILE_ERR => 2
  | .NOT_FOUND_PAIR_ERR => 3
  | .NOT_FUNCTION_ERR => 4
  | .BAD_INPUT_ERR => 5
  | .SCRIPT_RUNTIME_ERR => 6
  | .SCRIPT_TERMINATED_ERR => 7
  | .CACHED_REQUIRE_FILE_ERR => 8

abbrev Conv := String
abbrev Node := String
abbrev ConvNodePair := Conv × Node

/-- The value `std::tuple<int, std::string>` the operations return:
`ERR_CODE` first, `DATA` second. A value-initialised tuple is `(NO_ERR, "")`. -/
abbrev Ret := STATUS × String

/-- A `PersistentFunction`: `none` is the empty handle (`IsEmpty()`), and
`some (isolate, f)` the handle `PersistentFunction(isolate, f)`. -/
abbrev PersistentFunction (Val : Type) := Option (Isolate × Val)

/-- The record `V8Runner::ScriptWorkTime`. -/
structure ScriptWorkTime where
  isWorking : Bool
  isolate : Isolate
  started : Int
  deriving DecidableEq, Repr

/-- The data members of `V8Runner` that the operations read or write, the
function-local static `nextIsolate` of `getIsolate`, and the log of engine
calls. `_isolatesData` maps an isolate to the state of its context. `_timing`
holds one slot per worker; `none` is the null `shared_ptr`. -/
structure V8Runner (Val Heap : Type) where
  _pathToLibs : String
  _requireCache : List (String × String)
  _isolates : List Isolate
  _isolatesData : List (Isolate × Heap)
  _convs : List (Conv × Isolate)
  _functions : List (ConvNodePair × PersistentFunction Val)
  _timing : List (Option ScriptWorkTime)
  nextIsolate : Nat
  _maxExecutionTime : Nat
  _timeCheckerSleepTime : Nat
  v8log : List (V8Call Val)

namespace V8Runner

variable {Val Heap : Type}

/-- The method `isolates_count`. -/
def isolates_count (s : V8Runner Val Heap) : Nat := s._isolates.length

/-- The method `convs_count`. -/
def convs_count (s : V8Runner Val Heap) : Nat := s._convs.length

/-- The method `nodes_count`. -/
def nodes_count (s : V8Runner Val Heap) : Nat := s._functions.length

/-- Appends one engine call to the log. -/
def logCall (s : V8Runner Val Heap) (c : V8Call Val) : V8Runner Val Heap :=
  { s with v8log := s.v8log ++ [c] }

/-- The context state that `v8::Locker locker(isolate)` followed by
`_isolatesData[isolate]->getPContext()` gives access to. `none` when the
pointer is null or is not an isolate of this runner: the behaviour of the C++
code is then undefined. -/
def lockedContext (s : V8Runner Val Heap) (isolate : Isolate) : Option Heap :=
  if isolate = nullIsolate then none else mfind isolate s._isolatesData

/-- Stores the state in which an engine call left the context of `isolate`. -/
def setContext (s : V8Runner Val Heap) (isolate : Isolate) (h : Heap) : V8Runner Val Heap :=
  { s with _isolatesData := massign isolate h s._isolatesData }

/-- The method `getIsolate`: round robin over `_isolates`. `none` when
`_isolates[nextIsolate]` is out of range. -/
def getIsolate (s : V8Runner Val Heap) : Option (Isolate × V8Runner Val Heap) :=
  let next := if s.nextIsolate = s._isolates.length then 0 else s.nextIsolate
  match s._isolates[next]? with
  | none => none
  | some isolate => some (isolate, { s with nextIsolate := next + 1 })

/-- First block of `_compile`: `Reset()` of the handle stored under the pair,
when there is one. -/
def resetIfPresent (s : V8Runner Val Heap) (key : ConvNodePair) : V8Runner Val Heap :=
  match mfind key s._functions with
  | some _ => { s with _functions := massign key none s._functions }
  | none => s

/-- Second block of `_compile`: the isolate of the conversation, taken from
`getIsolate` and recorded in `_convs` when the conversation has none. -/
def isolateForConv (s : V8Runner Val Heap) (conv : Conv) : Option (Isolate × V8Runner Val Heap) :=
  match mfind conv s._convs with
  | none =>
    match getIsolate s with
    | none => none
    | some (isolate, s') => some (isolate, { s' with _convs := massign conv isolate s'._convs })
  | some isolate => some (isolate, s)

/-- The method `V8Runner::_compile`. -/
def _compile (E : V8 Val Heap) (s : V8Runner Val Heap) (conv node src : String) :
    Option (Ret × V8Runner Val Heap) :=
  let s1 := resetIfPresent s (conv, node)
  match isolateForConv s1 conv with
  | none => none
  | some (isolate, s2) =>
    match lockedContext s2 isolate with
    | none => none
    | some heap =>
      let s3 := s2.logCall (.scriptCompile isolate src)
      match E.scriptCompile src with
      | some msg => some ((.COMPILE_ERR, msg), s3)
      | none =>
        let s4 := s3.logCall (.scriptRun isolate src)
        match E.scriptRun s4._requireCache heap src with
        | .threw msg heap' => some ((.COMPILE_ERR, msg), s4.setContext isolate heap')
        | .value v heap' =>
          let s5 := s4.setContext isolate heap'
          some ((.NO_ERR, ""),
            { s5 with _functions := massign (conv, node) (some (isolate, v)) s5._functions })

/-- The method `V8Runner::_remove`. -/
def _remove (s : V8Runner Val Heap) (conv node : String) : Ret × V8Runner Val Heap :=
  ((.NO_ERR, ""), resetIfPresent s (conv, node))

/-- The part of `_run` after the JSON text has been parsed: the handle is
materialised on `isolate`, the slot of the worker is set, the function is
called and the slot is cleared. `none` when the handle belongs to another
isolate or `threadId` is not an index of `_timing`. -/
def invoke (E : V8 Val Heap) (s : V8Runner Val Heap) (isolate : Isolate) (heap : Heap)
    (owner : Isolate) (f obj : Val) (threadId : Nat) (currentTime : Int) :
    Option (Ret × V8Runner Val Heap) :=
  if owner ≠ isolate then none
  else if s._timing.length ≤ threadId then none
  else
    let s1 := { s with _timing := s._timing.set threadId (some ⟨true, isolate, currentTime⟩) }
    let s2 := s1.logCall (.functionCall isolate f obj)
    let done := fun (h : Heap) =>
      { s2.setContext isolate h with
        _timing := s2._timing.set threadId (some ⟨false, isolate, currentTime⟩) }
    match E.functionCall s2._requireCache heap f obj with
    | .terminated h => some ((.SCRIPT_TERMINATED_ERR, "Script has been terminated."), done h)
    | .threw msg h => some ((.SCRIPT_RUNTIME_ERR, msg), done h)
    | .returned v h => some ((.NO_ERR, E.jsonStr h v), done h)

/-- The method `V8Runner::_run`; `currentTime` is the clock reading taken
before the slot is set. -/
def _run (E : V8 Val Heap) (s : V8Runner Val Heap) (conv node data : String)
    (threadId : Nat) (currentTime : Int) : Option (Ret × V8Runner Val Heap) :=
  match mfind (conv, node) s._functions with
  | none => some ((.NOT_FOUND_PAIR_ERR, "Not found pair (" ++ conv ++ ", " ++ node ++ ")"), s)
  | some pFunc =>
    let (isolate, convs) := mindex conv nullIsolate s._convs
    let s1 := { s with _convs := convs }
    match lockedContext s1 isolate with
    | none => none
    | some heap =>
      match pFunc with
      | none =>
        some ((.NOT_FUNCTION_ERR, "Pair (conv, node) does not contain compiled function."), s1)
      | some (owner, f) =>
        let s2 := s1.logCall (.jsonParse isolate data)
        match E.jsonParse data with
        | none => some ((.BAD_INPUT_ERR, "Error during parse JSON."), s2)
        | some obj => invoke E s2 isolate heap owner f obj threadId currentTime

/-- The method `V8Runner::_checkCode`. The isolate it creates is disposed when
the method returns, on every path. -/
def _checkCode (E : V8 Val Heap) (s : V8Runner Val Heap) (src _data : String) (_threadId : Nat) :
    Ret × V8Runner Val Heap :=
  let s1 := (s.logCall .isolateNew).logCall (.checkCompile src)
  match E.scriptCompile src with
  | some msg => ((.COMPILE_ERR, msg), s1.logCall .isolateDispose)
  | none =>
    let s2 := s1.logCall (.checkRun src)
    match E.scriptRun s2._requireCache E.newContext src with
    | .threw msg _ => ((.COMPILE_ERR, msg), s2.logCall .isolateDispose)
    | .value _ _ => ((.NO_ERR, "WE JUST COMPILED THIS CODE!"), s2.logCall .isolateDispose)

/-- The method `V8Runner::cleanData`. -/
def cleanData (s : V8Runner Val Heap) : V8Runner Val Heap :=
  { s with _functions := [], _convs := [] }

/-- The public method `compile`. -/
def compile (E : V8 Val Heap) (s : V8Runner Val Heap) (conv_id node_id src : String) :
    Option (Ret × V8Runner Val Heap) :=
  _compile E s conv_id node_id src

/-- The public method `remove`. -/
def remove (s : V8Runner Val Heap) (conv_id node_id : String) : Ret × V8Runner Val Heap :=
  _remove s conv_id node_id

/-- The public method `run`. -/
def run (E : V8 Val Heap) (s : V8Runner Val Heap) (conv_id node_id data : String)
    (threadId : Nat) (currentTime : Int) : Option (Ret × V8Runner Val Heap) :=
  _run E s conv_id node_id data threadId currentTime

/-- The public method `checkCode`. -/
def checkCode (E : V8 Val Heap) (s : V8Runner Val Heap) (src data : String) (threadId : Nat) :
    Ret × V8Runner Val Heap :=
  _checkCode E s src data threadId

/-- The method `setMaxExecutionTime`. -/
def setMaxExecutionTime (s : V8Runner Val Heap) (maxExecutionTime : Nat) : V8Runner Val Heap :=
  { s with _maxExecutionTime := maxExecutionTime }

/-- The method `getMaxExecutionTime`. -/
def getMaxExecutionTime (s : V8Runner Val Heap) : Nat := s._maxExecutionTime

/-- The method `_getRequireFile`; `readFile` is `_readFile` on the present
file system, `Except.error` carrying the text of the exception it throws. -/
def _getRequireFile (readFile : String → Except String String) (fileName : String) : Ret :=
  match readFile fileName with
  | .ok libContent => (.NO_ERR, libContent)
  | .error what => (.CACHED_REQUIRE_FILE_ERR, what)

/-- The method `getRequireCachedFile`. -/
def getRequireCachedFile (s : V8Runner Val Heap) (fileName : String) : Ret :=
  match mfind fileName s._requireCache with
  | none => (.CACHED_REQUIRE_FILE_ERR, "Don't have cache for " ++ fileName)
  | some content => (.NO_ERR, content)

/-- The path `root / name` of `fs::path`: the separator `/` is put between the
two texts unless the first is empty or ends with a separator, or the second
is empty or starts with one. -/
def pathAppend (root name : String) : String :=
  if root.toList = [] ∨ root.toList.getLast? = some '/' ∨ name.toList = [] ∨
      name.toList.head? = some '/' then root ++ name
  else root ++ "/" ++ name

/-- The method `updateRequireCache`. -/
def updateRequireCache (readFile : String → Except String String) (s : V8Runner Val Heap)
    (fileName : String) : Ret × V8Runner Val Heap :=
  let requireFile := _getRequireFile readFile (pathAppend s._pathToLibs fileName)
  if requireFile.1 ≠ STATUS.NO_ERR then (requireFile, s)
  else ((.NO_ERR, ""), { s with _requireCache := massign fileName requireFile.2 s._requireCache })

/-- The loop of `splitString`: `cur` holds, in reverse, the characters read
since the last separator. Like `getline`, it yields no piece for an end of
input that follows a separator or starts the text. -/
def splitAux (separator : Char) : List Char → List Char → List String
  | cur, [] => if cur = [] then [] else [String.mk cur.reverse]
  | cur, c :: cs =>
    if c = separator then String.mk cur.reverse :: splitAux separator [] cs
    else splitAux separator (c :: cur) cs

/-- The function `splitString`. -/
def splitString (str : String) (separator : Char) : List String :=
  splitAux separator [] str.toList

/-- The value `path.extension()` as a list of characters: the part of the
last component of the path from its last dot on; empty when that component
has no dot or is `.` or `..`. -/
def extension (path : String) : List Char :=
  let name := ((path.toList.reverse).takeWhile (· ≠ '/')).reverse
  if name = ['.'] ∨ name = ['.', '.'] then []
  else if '.' ∈ name then '.' :: ((name.reverse).takeWhile (· ≠ '.')).reverse
  else []

/-- The key `libPath` that `loadLibs` computes from the path of a file: its
last two pieces joined by the separator. `none` when the path has fewer than
two pieces (the index `partsLen - 2` is then out of range). -/
def libPath (path : String) : Option String :=
  let parts := splitString path '/'
  if parts.length < 2 then none
  else
    match parts.get? (parts.length - 2), parts.get? (parts.length - 1) with
    | some dir, some file => some (dir ++ "/" ++ file)
    | _, _ => none

/-- One entry that `fs::recursive_directory_iterator(_pathToLibs)` yields: its
path, and whether `fs::is_directory` holds of it. -/
structure DirEntry where
  path : String
  isDirectory : Bool
  deriving DecidableEq, Repr

/-- The body of the loop of `loadLibs` for one entry, on the cache. -/
def loadEntry (readFile : String → Except String String) (cache : List (String × String))
    (e : DirEntry) : Option (List (String × String)) :=
  if e.isDirectory = false ∧ extension e.path = ".js".toList then
    let requireFile := _getRequireFile readFile e.path
    if requireFile.1 ≠ STATUS.NO_ERR then some cache
    else
      match libPath e.path with
      | none => none
      | some key => some (massign key requireFile.2 cache)
  else some cache

/-- The method `loadLibs`, for the entries the directory iterator yields, in
the order in which it yields them. -/
def loadLibs (readFile : String → Except String String) (entries : List DirEntry)
    (s : V8Runner Val Heap) : Option (V8Runner Val Heap) :=
  (entries.foldlM (loadEntry readFile) s._requireCache).map fun cache =>
    { s with _requireCache := cache }

/-- The state the constructor leaves when the library directory holds the
files of `cache`: `threadsCount` isolates (at the addresses `1, 2, ...`), each
with the context of `makeNewIsolate`, `threadsCount` null slots, no
conversation and no function. -/
def init (E : V8 Val Heap) (pathToLibs : String) (cache : List (String × String))
    (maxExecutionTime timeCheckerSleepTime threadsCount : Nat) : V8Runner Val Heap :=
  { _pathToLibs := pathToLibs
    _requireCache := cache
    _isolates := (List.range threadsCount).map (· + 1)
    _isolatesData := (List.range threadsCount).map fun i => (i + 1, E.newContext)
    _convs := []
    _functions := []
    _timing := List.replicate threadsCount none
    nextIsolate := 0
    _maxExecutionTime := maxExecutionTime
    _timeCheckerSleepTime := timeCheckerSleepTime
    v8log := [] }

/-- A call of one of the public operations of the registry. -/
inductive Op where
  | compile (conv node src : String)
  | remove (conv node : String)
  | run (conv node data : String) (threadId : Nat) (currentTime : Int)
  | checkCode (src data : String) (threadId : Nat)
  | cleanData
  deriving DecidableEq, Repr

/-- The state after one operation; `none` when its behaviour is undefined. -/
def step (E : V8 Val Heap) (s : V8Runner Val Heap) : Op → Option (V8Runner Val Heap)
  | .compile conv node src => (compile E s conv node src).map Prod.snd
  | .remove conv node => some (remove s conv node).2
  | .run conv node data threadId currentTime =>
    (run E s conv node data threadId currentTime).map Prod.snd
  | .checkCode src data threadId => some (checkCode E s src data threadId).2
  | .cleanData => some (cleanData s)

/-- The state after a sequence of operations. -/
def steps (E : V8 Val Heap) (s : V8Runner Val Heap) : List Op → Option (V8Runner Val Heap)
  | [] => some s
  | op :: ops => (step E s op).bind fun s' => steps E s' ops

/-- The conversations named by the compiles of a sequence of operations. -/
def compiledConvs : List Op → List Conv
  | [] => []
  | .compile conv _ _ :: ops => conv :: compiledConvs ops
  | _ :: ops => compiledConvs ops

/-- The pairs named by the compiles of a sequence of operations. -/
def compiledPairs : List Op → List ConvNodePair
  | [] => []
  | .compile conv node _ :: ops => (conv, node) :: compiledPairs ops
  | _ :: ops => compiledPairs ops

/-- The state after a sequence of operations all of whose compiles return
`NO_ERR`; `none` when a compile returns another status or an operation is
undefined. -/
def stepsCompiling (E : V8 Val Heap) (s : V8Runner Val Heap) : List Op → Option (V8Runner Val Heap)
  | [] => some s
  | .compile conv node src :: ops =>
    match compile E s conv node src with
    | some ((.NO_ERR, _), s') => stepsCompiling E s' ops
    | _ => none
  | op :: ops => (step E s op).bind fun s' => stepsCompiling E s' ops

/-- Consistency of the registry: every registered pair belongs to a
conversation that has an isolate, and every isolate recorded for a
conversation or held in `_isolates` is a non-null isolate with a context. -/
def Consistent (s : V8Runner Val Heap) : Prop :=
  (∀ p ∈ s._functions, (mfind p.1.1 s._convs).isSome = true) ∧
  (∀ c ∈ s._convs, c.2 ≠ nullIsolate ∧ (mfind c.2 s._isolatesData).isSome = true) ∧
  (∀ i ∈ s._isolates, i ≠ nullIsolate ∧ (mfind i s._isolatesData).isSome = true)

instance (s : V8Runner Val Heap) : Decidable (Consistent s) :=
  inferInstanceAs (Decidable (_ ∧ _ ∧ _))

/-- Ownership of the callables: every non-empty handle in `_functions` was
made on the isolate that `_convs` records for the conversation of its pair. -/
def Owned (s : V8Runner Val Heap) : Prop :=
  ∀ p ∈ s._functions, ∀ owner f, p.2 = some (owner, f) → mfind p.1.1 s._convs = some owner

/-- The isolate that the call of `getIsolate` in `_compile` yields for the
operation `op` in the state `s`; `none` when `op` is not a compile, or is a
compile for a conversation found in `_convs` (no call of `getIsolate` then). -/
def assignment (s : V8Runner Val Heap) : Op → Option Isolate
  | .compile conv node _ =>
    match mfind conv s._convs with
    | none => (getIsolate (resetIfPresent s (conv, node))).map Prod.fst
    | some _ => none
  | _ => none

/-- The isolates that the calls of `getIsolate` yield in a sequence of
operations, in the order of the calls. -/
def assignments (E : V8 Val Heap) (s : V8Runner Val Heap) : List Op → List Isolate
  | [] => []
  | op :: ops =>
    match step E s op with
    | none => []
    | some s' => (assignment s op).toList ++ assignments E s' ops

end V8Runner

/-! ## `ThreadPool`

The queue `jobs` is a `std::priority_queue` over a `std::deque`; the list is
the content of the deque. `push` and `pop` are `push_back` followed by
`std::push_heap`, and `std::pop_heap` followed by `pop_back`, with the sifting
loops of libstdc++ (`__push_heap`, `__adjust_heap`). Each loop runs on a count
of remaining iterations that is at least the number of iterations the loop can
make. -/

/-- Conversion of an integer to `int` (32 bits, two's complement); also the
value an `std::atomic_int` holds after an arithmetic update. -/
def toInt (n : Int) : Int := (n + 2 ^ 31) % 2 ^ 32 - 2 ^ 31

namespace concurrent

variable {F : Type}

/-- The comparison `QueueItemCompare`. -/
def QueueItemCompare (n1 n2 : Int × F) : Bool := decide (n1.1 < n2.1)

/-- The loop of `std::__push_heap` with `topIndex = 0`: the hole moves up
while its parent compares less than `value`; then `value` fills the hole. -/
def pushHeapLoop : Nat → List (Int × F) → Nat → Int × F → List (Int × F)
  | 0, c, holeIndex, value => c.set holeIndex value
  | fuel + 1, c, holeIndex, value =>
    match c.get? ((holeIndex - 1) / 2) with
    | some parent =>
      if 0 < holeIndex ∧ QueueItemCompare parent value = true then
        pushHeapLoop fuel (c.set holeIndex parent) ((holeIndex - 1) / 2) value
      else c.set holeIndex value
    | none => c.set holeIndex value

/-- The call `jobs.push(item)`. -/
def push (c : List (Int × F)) (item : Int × F) : List (Int × F) :=
  pushHeapLoop (c.length) (c ++ [item]) c.length item

/-- The first loop of `std::__adjust_heap`: the hole moves down to the larger
child while the hole has two children. Returns the deque and the hole. -/
def adjustHeapLoop : Nat → List (Int × F) → Nat → Nat → List (Int × F) × Nat
  | 0, c, _, holeIndex => (c, holeIndex)
  | fuel + 1, c, len, holeIndex =>
    if holeIndex < (len - 1) / 2 then
      let right := 2 * (holeIndex + 1)
      match c.get? right, c.get? (right - 1) with
      | some r, some l =>
        let secondChild := if QueueItemCompare r l = true then right - 1 else right
        let child := if QueueItemCompare r l = true then l else r
        adjustHeapLoop fuel (c.set holeIndex child) len secondChild
      | _, _ => (c, holeIndex)
    else (c, holeIndex)

/-- The function `std::__adjust_heap` with `holeIndex = 0`. -/
def adjustHeap (c : List (Int × F)) (len : Nat) (value : Int × F) : List (Int × F) :=
  let (c1, hole1) := adjustHeapLoop len c len 0
  let (c2, hole2) :=
    if len % 2 = 0 ∧ hole1 = (len - 2) / 2 then
      match c1.get? (2 * (hole1 + 1) - 1) with
      | some l => (c1.set hole1 l, 2 * (hole1 + 1) - 1)
      | none => (c1, hole1)
    else (c1, hole1)
  pushHeapLoop hole2 c2 hole2 value

/-- The call `jobs.pop()` on a non-empty queue. -/
def pop (c : List (Int × F)) : List (Int × F) :=
  match c.getLast? with
  | none => []
  | some value => if 1 < c.length then adjustHeap c.dropLast (c.length - 1) value else []

/-- The priority of the item at index `i` of the deque, 0 outside it. -/
def prio (c : List (Int × F)) (i : Nat) : Int :=
  match c.get? i with
  | some x => x.1
  | none => 0

/-- The heap order of `std::priority_queue` with `QueueItemCompare`: no item
compares greater than its parent. -/
def IsHeap (c : List (Int × F)) : Prop :=
  ∀ i, 0 < i → i < c.length → prio c i ≤ prio c ((i - 1) / 2)

/-- The items that `n` rounds of `top()` and `pop()` take off the queue. -/
def drain : Nat → List (Int × F) → List (Int × F)
  | 0, _ => []
  | n + 1, c =>
    match c.head? with
    | none => []
    | some top => top :: drain n (pop c)

/-- The data members of `ThreadPool`; `threads` is the number of worker
threads. -/
structure ThreadPool (F : Type) where
  threads : Nat
  jobs : List (Int × F)
  jobsPerThread : List Int
  maxQueueSize : Nat
  jobsLeft : Int
  jobsDone : Int
  busyThreads : Int
  stop : Bool
  finished : Bool

namespace ThreadPool

/-- The constructor. -/
def new (threadCount maxQueueSize : Nat) : ThreadPool F :=
  { threads := threadCount
    jobs := []
    jobsPerThread := List.replicate threadCount 0
    maxQueueSize := maxQueueSize
    jobsLeft := 0
    jobsDone := 0
    busyThreads := 0
    stop := false
    finished := false }

/-- The method `addJob`. -/
def addJob (p : ThreadPool F) (priority : Int) (job : F) : Bool × ThreadPool F :=
  if toInt p.maxQueueSize ≤ p.jobsLeft then (false, p)
  else (true, { p with jobs := push p.jobs (priority, job), jobsLeft := toInt (p.jobsLeft + 1) })

/-- The method `size`. -/
def size (p : ThreadPool F) : Int := toInt p.threads

/-- The method `getBusyThreads`. -/
def getBusyThreads (p : ThreadPool F) : Int := p.busyThreads

/-- The method `getAmountOfDoneJobs`. -/
def getAmountOfDoneJobs (p : ThreadPool F) : Int := p.jobsDone

/-- The method `getJobsLeft`. -/
def getJobsLeft (p : ThreadPool F) : Int := p.jobsLeft

/-- The method `getJobsPerThread`. -/
def getJobsPerThread (p : ThreadPool F) : List Int := p.jobsPerThread

/-- The method `next_job` once its wait is over: `none` while the queue is
empty and `stop` is not set (the worker keeps waiting). The job `none` is the
empty lambda injected when `stop` is set. -/
def next_job (p : ThreadPool F) : Option (Option F × ThreadPool F) :=
  if p.stop = false then
    match p.jobs.head? with
    | none => none
    | some top => some (some top.2, { p with jobs := pop p.jobs })
  else
    some (none, { p with jobsLeft := toInt (p.jobsLeft + 1), jobsDone := toInt (p.jobsDone - 1) })

/-- The statement `this->busyThreads += 1` of `process`, before the job runs. -/
def beginJob (p : ThreadPool F) : ThreadPool F :=
  { p with busyThreads := toInt (p.busyThreads + 1) }

/-- The statements of `process` after the job has run. `none` when
`threadNum` is not an index of `jobsPerThread`. -/
def endJob (p : ThreadPool F) (threadNum : Nat) : Option (ThreadPool F) :=
  match p.jobsPerThread[threadNum]? with
  | none => none
  | some n =>
    some { p with
      busyThreads := toInt (p.busyThreads - 1)
      jobsPerThread := p.jobsPerThread.set threadNum (toInt (n + 1))
      jobsLeft := toInt (p.jobsLeft - 1)
      jobsDone := toInt (p.jobsDone + 1) }

/-- One iteration of the loop of `process(threadNum)`, for its effect on the
pool: the job taken (to be run by the caller between `beginJob` and `endJob`)
and the pool after the iteration. `none` while the worker waits. -/
def iteration (p : ThreadPool F) (threadNum : Nat) : Option (Option F × ThreadPool F) :=
  match next_job p with
  | none => none
  | some (job, p1) =>
    match endJob (beginJob p1) threadNum with
    | none => none
    | some p2 => some (job, p2)

/-- How the call `job(threadNum)` ends: it returns, or an exception leaves it. -/
inductive JobOutcome where
  | returned
  | threw
  deriving DecidableEq, Repr

/-- What one pass through the loop of `process(threadNum)` comes to. -/
inductive Pass (F : Type) where
  /-- The worker waits in `next_job`. -/
  | waits
  /-- The job returned and the statements after it ran; the worker is back at
  the head of the loop with the pool `p`. -/
  | completed (job : Option F) (p : ThreadPool F)
  /-- An exception left the job. Neither `process` nor the thread function
  catches it, so `std::terminate` is called; `p` is the pool at that point. -/
  | terminated (job : F) (p : ThreadPool F)

/-- One pass through the loop of `process(threadNum)`; `outcome` tells how
each job ends. The injected empty lambda returns. `none` when `threadNum` is
not an index of `jobsPerThread`. -/
def pass (p : ThreadPool F) (threadNum : Nat) (outcome : F → JobOutcome) : Option (Pass F) :=
  match next_job p with
  | none => some .waits
  | some (none, p1) => (endJob (beginJob p1) threadNum).map (.completed none)
  | some (some job, p1) =>
    match outcome job with
    | .returned => (endJob (beginJob p1) threadNum).map (.completed (some job))
    | .threw => some (.terminated job (beginJob p1))

/-- A step of a sequential run of the pool: a call of `addJob`, or one whole
iteration of the loop of worker `threadNum`. -/
inductive Step (F : Type) where
  | addJob (priority : Int) (job : F)
  | iteration (threadNum : Nat)

/-- The pool after a step; `none` when the step cannot be taken. -/
def step (p : ThreadPool F) : Step F → Option (ThreadPool F)
  | .addJob priority job => some (addJob p priority job).2
  | .iteration threadNum => (iteration p threadNum).map Prod.snd

/-- The pool after a sequence of steps. -/
def steps (p : ThreadPool F) : List (Step F) → Option (ThreadPool F)
  | [] => some p
  | st :: sts => (step p st).bind fun p' => steps p' sts

/-- Successive calls of `addJob`, one for each pair of `items`. -/
def addJobs (p : ThreadPool F) (items : List (Int × F)) : ThreadPool F :=
  items.foldl (fun q x => (addJob q x.1 x.2).2) p

/-- The jobs that `n` successive calls of `next_job` return, up to the first
call that has to wait. -/
def takeAll : Nat → ThreadPool F → List (Option F)
  | 0, _ => []
  | n + 1, p =>
    match next_job p with
    | none => []
    | some (job, p') => job :: takeAll n p'

/-- What a sequential run of the pool maintains: `jobsLeft` is the number of
queued jobs, which is at most `maxQueueSize`, which fits `int`. -/
def QueueBounded (p : ThreadPool F) : Prop :=
  p.jobsLeft = p.jobs.length ∧ p.jobs.length ≤ p.maxQueueSize ∧ p.maxQueueSize ≤ 2 ^ 31 - 1

end ThreadPool

/-! ### The pool with its threads

The worker threads run `process` concurrently with the threads that call
`addJob` and `joinAll`. The state below adds to the data members the place
where every thread stands; an action is one statement of a thread, or one
critical section under `jobsMutex`. The lists `accepted` and `executed` are not
data of the program: they record the jobs `addJob` accepted and the jobs whose
call returned. -/

/-- Where a worker thread stands in `process`. `job` is the value `next_job`
returned, `none` for the empty lambda injected when `stop` is set. -/
inductive Worker (F : Type) where
  /-- Before the test `while(!this->stop)`. -/
  | loopHead
  /-- In `next_job`, not yet past the wait on `jobAvailableVar`. -/
  | waiting
  /-- After `auto job = next_job()`. -/
  | taken (job : Option F)
  /-- After `this->busyThreads += 1`. -/
  | running (job : Option F)
  /-- After the call `job(threadNum)` returned. -/
  | ran (job : Option F)
  /-- After `this->busyThreads -= 1`. -/
  | unbusied (job : Option F)
  /-- After `this->jobsPerThread[threadNum] += 1`. -/
  | counted (job : Option F)
  /-- After `this->jobsLeft -= 1`. -/
  | left (job : Option F)
  /-- After the loop: `process` has returned and the thread can be joined. -/
  | exited

namespace Worker

/-- The worker has a value from `next_job` for which it has not yet run
`this->jobsLeft -= 1`. -/
def holds : Worker F → Bool
  | .taken _ => true
  | .running _ => true
  | .ran _ => true
  | .unbusied _ => true
  | .counted _ => true
  | _ => false

/-- The worker has a submitted job for which it has not yet run
`this->jobsLeft -= 1`. -/
def holdsJob : Worker F → Bool
  | .taken (some _) => true
  | .running (some _) => true
  | .ran (some _) => true
  | .unbusied (some _) => true
  | .counted (some _) => true
  | _ => false

/-- The worker has the injected empty lambda and has not yet run
`this->jobsDone += 1` for it. -/
def pendingNoop : Worker F → Bool
  | .taken none => true
  | .running none => true
  | .ran none => true
  | .unbusied none => true
  | .counted none => true
  | .left none => true
  | _ => false

/-- The call of a submitted job has returned and the worker has not yet run
`this->jobsDone += 1` for it. -/
def returned : Worker F → Bool
  | .ran (some _) => true
  | .unbusied (some _) => true
  | .counted (some _) => true
  | .left (some _) => true
  | _ => false

/-- The submitted job the worker has taken and not yet called to the end. -/
def toRun : Worker F → Option F
  | .taken job => job
  | .running job => job
  | _ => none

/-- The thread has not left `process`. -/
def alive : Worker F → Bool
  | .exited => false
  | _ => true

end Worker

/-- Where the thread that calls `joinAll(waitForAll)` stands. -/
inductive Joiner where
  /-- The method `joinAll` has not been called. -/
  | idle
  /-- In `joinAll(true)`, after `waitAll()` returned. -/
  | waited
  /-- After `this->stop = true`: joining the threads. -/
  | stopping (waitForAll : Bool)
  /-- After `this->finished = true`: `joinAll` returns. -/
  | joined (waitForAll : Bool)
  deriving DecidableEq, Repr

/-- The argument of the call of `joinAll` in progress or completed, `false`
before the call. -/
def Joiner.waitForAll : Joiner → Bool
  | .idle => false
  | .waited => true
  | .stopping b => b
  | .joined b => b

/-- The pool with its threads. -/
structure Threads (F : Type) where
  pool : ThreadPool F
  workers : List (Worker F)
  joiner : Joiner
  accepted : List F
  executed : List F

/-- The actions of the threads. -/
inductive Action (F : Type) where
  /-- A call of `addJob`, taken as one action: between its test of `jobsLeft`
  and its critical section no other call of `addJob` and no `waitAll` runs. -/
  | addJob (priority : Int) (job : F)
  /-- Worker `t` evaluates `while(!this->stop)`. -/
  | test (t : Nat)
  /-- Worker `t` gets through the wait and the rest of `next_job`. -/
  | nextJob (t : Nat)
  /-- Worker `t` runs `this->busyThreads += 1`. -/
  | busy (t : Nat)
  /-- The call `job(threadNum)` of worker `t` returns. -/
  | call (t : Nat)
  /-- Worker `t` runs `this->busyThreads -= 1`. -/
  | unbusy (t : Nat)
  /-- Worker `t` runs `this->jobsPerThread[threadNum] += 1`. -/
  | count (t : Nat)
  /-- Worker `t` runs `this->jobsLeft -= 1`. -/
  | leave (t : Nat)
  /-- Worker `t` runs `this->jobsDone += 1` and `waitVar.notify_one()`. -/
  | account (t : Nat)
  /-- The call `waitAll()` of `joinAll(true)` returns. -/
  | waitAll
  /-- The statement `this->stop = true` of `joinAll`. -/
  | setStop
  /-- The joins of `joinAll` are over; `this->finished = true` and
  `this->threads.clear()`. -/
  | join

/-- The action is a call of `addJob`. -/
def Action.isAddJob : Action F → Bool
  | .addJob _ _ => true
  | _ => false

namespace Threads

/-- The pool after its constructor: every thread is at the head of its loop. -/
def start (threadCount maxQueueSize : Nat) : Threads F :=
  { pool := ThreadPool.new threadCount maxQueueSize
    workers := List.replicate threadCount .loopHead
    joiner := .idle
    accepted := []
    executed := [] }

/-- The state after an action; `none` when the thread is not at that
statement, or is blocked there: `next_job` waits while the queue is empty and
`stop` is not set, `waitAll` waits while `jobsLeft` is not 0 (it returns at once
when `jobsLeft > 0` fails), and a join waits for the thread to leave `process`. -/
def act (s : Threads F) : Action F → Option (Threads F)
  | .addJob priority job =>
    let r := s.pool.addJob priority job
    some { s with
      pool := r.2
      accepted := if r.1 = true then s.accepted ++ [job] else s.accepted }
  | .test t =>
    match s.workers.get? t with
    | some .loopHead =>
      some { s with
        workers := s.workers.set t (if s.pool.stop = true then .exited else .waiting) }
    | _ => none
  | .nextJob t =>
    match s.workers.get? t with
    | some .waiting =>
      match s.pool.next_job with
      | some (job, p) => some { s with pool := p, workers := s.workers.set t (.taken job) }
      | none => none
    | _ => none
  | .busy t =>
    match s.workers.get? t with
    | some (.taken job) =>
      some { s with pool := s.pool.beginJob, workers := s.workers.set t (.running job) }
    | _ => none
  | .call t =>
    match s.workers.get? t with
    | some (.running job) =>
      some { s with
        workers := s.workers.set t (.ran job)
        executed := s.executed ++ job.toList }
    | _ => none
  | .unbusy t =>
    match s.workers.get? t with
    | some (.ran job) =>
      some { s with
        pool := { s.pool with busyThreads := toInt (s.pool.busyThreads - 1) }
        workers := s.workers.set t (.unbusied job) }
    | _ => none
  | .count t =>
    match s.workers.get? t with
    | some (.unbusied job) =>
      match s.pool.jobsPerThread.get? t with
      | some n =>
        some { s with
          pool := { s.pool with jobsPerThread := s.pool.jobsPerThread.set t (toInt (n + 1)) }
          workers := s.workers.set t (.counted job) }
      | none => none
    | _ => none
  | .leave t =>
    match s.workers.get? t with
    | some (.counted job) =>
      some { s with
        pool := { s.pool with jobsLeft := toInt (s.pool.jobsLeft - 1) }
        workers := s.workers.set t (.left job) }
    | _ => none
  | .account t =>
    match s.workers.get? t with
    | some (.left _) =>
      some { s with
        pool := { s.pool with jobsDone := toInt (s.pool.jobsDone + 1) }
        workers := s.workers.set t .loopHead }
    | _ => none
  | .waitAll =>
    if s.joiner = .idle ∧ s.pool.finished = false ∧ s.pool.jobsLeft ≤ 0 then
      some { s with joiner := .waited }
    else none
  | .setStop =>
    if s.joiner = .waited ∨ (s.joiner = .idle ∧ s.pool.finished = false) then
      some { s with
        pool := { s.pool with stop := true }
        joiner := .stopping s.joiner.waitForAll }
    else none
  | .join =>
    match s.joiner with
    | .stopping waitForAll =>
      if s.workers.all (fun w => !w.alive) = true then
        some { s with
          pool := { s.pool with finished := true, threads := 0 }
          joiner := .joined waitForAll }
      else none
    | _ => none

/-- The state after a sequence of actions. -/
def run (s : Threads F) : List (Action F) → Option (Threads F)
  | [] => some s
  | a :: as => (act s a).bind fun s' => run s' as

/-- What every state of the pool and its threads satisfies, as long as no job
is submitted once `joinAll(true)` is past its wait. -/
structure Inv (s : Threads F) : Prop where
  heap : IsHeap s.pool.jobs
  done : s.pool.jobsDone =
    toInt ((s.executed.length : Int) - (s.workers.countP Worker.returned : Nat) -
      (s.workers.countP Worker.pendingNoop : Nat))
  perm : List.Perm s.accepted
    (s.pool.jobs.map Prod.snd ++ s.workers.filterMap Worker.toRun ++ s.executed)
  before : s.joiner = .idle →
    s.pool.stop = false ∧
    s.pool.jobsLeft = ((s.pool.jobs.length + s.workers.countP Worker.holds : Nat) : Int) ∧
    s.pool.jobs.length + s.workers.countP Worker.holds < 2 ^ 31
  after : s.joiner.waitForAll = true →
    s.pool.jobs = [] ∧ s.workers.countP Worker.holdsJob = 0 ∧
    s.pool.jobsLeft = toInt (s.workers.countP Worker.holds : Nat)
  joined : s.joiner = .joined true → s.workers.countP Worker.alive = 0

end Threads

namespace Worker

/-- The worker has run `this->busyThreads += 1` and not yet
`this->busyThreads -= 1`. -/
def executing : Worker F → Bool
  | .running _ => true
  | .ran _ => true
  | _ => false

/-- The worker has the injected empty lambda and has not yet run
`this->jobsLeft -= 1` for it. -/
def holdsNoop : Worker F → Bool
  | .taken none => true
  | .running none => true
  | .ran none => true
  | .unbusied none => true
  | .counted none => true
  | _ => false

/-- The call of a submitted job has returned and the worker has not yet run
`this->jobsPerThread[threadNum] += 1` for it. -/
def uncounted : Worker F → Bool
  | .ran (some _) => true
  | .unbusied (some _) => true
  | _ => false

/-- The worker has the injected empty lambda and has not yet run
`this->jobsPerThread[threadNum] += 1` for it. -/
def uncountedNoop : Worker F → Bool
  | .taken none => true
  | .running none => true
  | .ran none => true
  | .unbusied none => true
  | _ => false

/-- The worker is between the return of `next_job` and the end of the body of
its loop: a job, or the empty lambda, is in flight. -/
def inFlight : Worker F → Bool
  | .taken _ => true
  | .running _ => true
  | .ran _ => true
  | .unbusied _ => true
  | .counted _ => true
  | .left _ => true
  | _ => false

end Worker

namespace Threads

/-- The number of empty lambdas the action injects: 1 for a `next_job` that
gets through its wait with `stop` set, 0 otherwise. -/
def injects (s : Threads F) : Action F → Nat
  | .nextJob _ => if s.pool.stop = true then 1 else 0
  | _ => 0

/-- The number of empty lambdas injected in a run of actions from `s`. -/
def injected (s : Threads F) : List (Action F) → Nat
  | [] => 0
  | a :: as =>
    match act s a with
    | none => 0
    | some s' => injects s a + injected s' as

/-- What every state of a pool of `threadCount` threads with the queue bound
`maxQueueSize` satisfies, after `injections` injections of the empty lambda:
how the counters of the pool relate to the queue, to the places where the
threads stand and to the jobs run so far. -/
structure Counts (threadCount maxQueueSize injections : Nat) (s : Threads F) : Prop where
  size : s.workers.length = threadCount
  cap : s.pool.maxQueueSize = maxQueueSize
  heap : IsHeap s.pool.jobs
  perm : List.Perm s.accepted
    (s.pool.jobs.map Prod.snd ++ s.workers.filterMap Worker.toRun ++ s.executed)
  left : s.pool.jobsLeft = toInt ((s.pool.jobs.length + s.workers.countP Worker.holds : Nat) : Int)
  bound : maxQueueSize + threadCount < 2 ^ 31 →
    s.pool.jobs.length + s.workers.countP Worker.holds
      ≤ maxQueueSize + s.workers.countP Worker.holdsNoop
  busy : s.pool.busyThreads = toInt (s.workers.countP Worker.executing : Nat)
  done : s.pool.jobsDone =
    toInt ((s.executed.length : Int) - (s.workers.countP Worker.returned : Nat) -
      (s.workers.countP Worker.pendingNoop : Nat))
  tally : toInt s.pool.jobsPerThread.sum =
    toInt ((s.executed.length : Int) - (s.workers.countP Worker.uncounted : Nat) + injections -
      (s.workers.countP Worker.uncountedNoop : Nat))
  exact : (s.executed.length : Int) - (s.workers.countP Worker.uncounted : Nat) + injections -
      (s.workers.countP Worker.uncountedNoop : Nat) < 2 ^ 31 →
    (∀ x ∈ s.pool.jobsPerThread, 0 ≤ x) ∧
    s.pool.jobsPerThread.sum =
      (s.executed.length : Int) - (s.workers.countP Worker.uncounted : Nat) + injections -
        (s.workers.countP Worker.uncountedNoop : Nat)
  unstopped : s.pool.stop = false → injections = 0
  joined : (∃ b, s.joiner = .joined b) → s.workers.countP Worker.alive = 0

end Threads

end concurrent

/-! ## `CNode`

An Erlang term is an `ETerm`. The message handed to `process` is given by the
parts `process` extracts from it (`Request`). A reply is recorded in `sent`
with the descriptor and the destination `erl_send` was called with. A term
accessor applied to a term of another kind, or to a missing tuple element, is
undefined behaviour. -/

/-- An Erlang term as built by `erl_format` or received from the node. -/
inductive ETerm where
  | atom (name : String)
  | int (n : Int)
  | str (s : String)
  | tuple (elems : List ETerm)
  | list (elems : List ETerm)

/-- The function `erl_iolist_to_string`. -/
def ETerm.iolistToString : ETerm → Option String
  | .str s => some s
  | _ => none

/-- The macro `ERL_INT_VALUE`. -/
def ETerm.intValue : ETerm → Option Int
  | .int n => some (toInt n)
  | _ => none

/-- The macro `ERL_INT_UVALUE`: an `unsigned int`. -/
def ETerm.intUValue : ETerm → Option Nat
  | .int n => some (n % 2 ^ 32).toNat
  | _ => none

/-- The parts of the received message that `process` reads: `fromp` is element
2 of the message; element 3 is the tuple whose element 1 is the time stamp (an
unsigned 64-bit value, read with `ERL_LL_UVALUE`), whose element 2 is the atom
`func`, and whose further elements are `args`. -/
structure Request where
  fromp : ETerm
  timestamp : Nat
  func : String
  args : List ETerm

/-- The call `erl_element(i, tuplep)` for `i ≥ 3`. -/
def Request.element (req : Request) (i : Nat) : Option ETerm := req.args.get? (i - 3)

/-- The enumeration `CNode::STATUS`, by value. -/
inductive NodeStatus where
  | OK
  | ERR
  | SOCKET_TIMEOUT
  | THREAD_POOL_TIMEOUT
  | THREAD_POOL_EXHAUSTED
  deriving DecidableEq, Repr

/-- The integer value of a `CNode::STATUS` enumerator. -/
def NodeStatus.code : NodeStatus → Int
  | .OK => 0
  | .ERR => 1
  | .SOCKET_TIMEOUT => 100
  | .THREAD_POOL_TIMEOUT => 101
  | .THREAD_POOL_EXHAUSTED => 102

/-- The job `std::bind(&CNode::processV8, this, fd, fromp, tuplep, func,
timeWhenTaskHasBeenAdded, _1)`. -/
structure Job where
  fd : Int
  req : Request
  timeWhenTaskHasBeenAdded : Int

/-- One call of `erl_send(fd, to, msg)`. -/
structure Sent where
  fd : Int
  dest : ETerm
  msg : ETerm

/-- The data members of `CNode` and the replies sent so far. -/
structure CNode (Val Heap : Type) where
  _v8 : V8Runner Val Heap
  _maxDiffTime : Nat
  _pool : concurrent.ThreadPool Job
  _priorityMap : List (String × Int)
  sent : List Sent

namespace CNode

variable {Val Heap : Type}

/-- The initial value of `_priorityMap`. -/
def defaultPriorityMap : List (String × Int) :=
  [("check_code", 0), ("run", 0), ("compile", 1), ("remove", 1)]

/-- The term `erl_format` builds from the pattern with `cnode`, an integer and
one further term. -/
def reply (code : Int) (data : ETerm) : ETerm := .tuple [.atom "cnode", .int code, data]

/-- The reply built from the tuple a `V8Runner` operation returned. -/
def replyRet (r : Ret) : ETerm := reply r.1.code (.str r.2)

/-- The call `erl_send(fd, fromp.get(), resp.get())`. -/
def send (c : CNode Val Heap) (fd : Int) (dest msg : ETerm) : CNode Val Heap :=
  { c with sent := c.sent ++ [⟨fd, dest, msg⟩] }

/-- Conversion to `long long` (64 bits, two's complement). -/
def toLongLong (n : Int) : Int := (n + 2 ^ 63) % 2 ^ 64 - 2 ^ 63

/-- Conversion to `std::size_t` (64 bits, unsigned). -/
def toSizeT (n : Int) : Nat := (n % 2 ^ 64).toNat

/-- The function `abs` at type `long long`. -/
def llabs (n : Int) : Int := toLongLong (if n < 0 then -n else n)

/-- The value `timeDiff` of `process`: the absolute value of the difference of
the two `long long` values, converted to `std::size_t`. The call `abs` is
resolved to the overload for `long long`. -/
def socketTimeDiff (timeNow : Int) (timestamp : Nat) : Nat :=
  toSizeT (llabs (toLongLong (toLongLong timeNow - toLongLong timestamp)))

/-- The value `timeDiff` of `processV8`. -/
def poolTimeDiff (timeNow timeWhenTaskHasBeenAdded : Int) : Nat :=
  toSizeT (toLongLong (timeNow - timeWhenTaskHasBeenAdded))

/-- The names `process` serves itself, without the pool. -/
def controlCommands : List String :=
  ["get_statistics", "get_max_diff_time", "set_max_diff_time", "set_max_time_exec_threshold",
   "get_max_time_exec_threshold", "get_require_cache_file", "update_require_cache_file",
   "get_priorities", "set_priority", "remove_priority"]

/-- The reply to `get_statistics`. -/
def statistics (c : CNode Val Heap) : ETerm :=
  reply NodeStatus.OK.code (.list [
    .tuple [.atom "pool_threads_count", .int c._pool.size],
    .tuple [.atom "isolates_count", .int (toInt c._v8.isolates_count)],
    .tuple [.atom "theads_busy", .int c._pool.getBusyThreads],
    .tuple [.atom "jobs_left", .int c._pool.getJobsLeft],
    .tuple [.atom "jobs_per_threads",
      .list (c._pool.getJobsPerThread.enum.map fun p => .tuple [.int (toInt p.1), .int p.2])]])

/-- The method `CNode::processV8`, run by worker `threadNum`; `timeNow` is the
clock reading at its start and `runTime` the one `V8Runner::_run` takes. -/
def processV8 (E : V8 Val Heap) (c : CNode Val Heap) (job : Job) (threadNum : Nat)
    (timeNow runTime : Int) : Option (CNode Val Heap) :=
  let req := job.req
  if c._maxDiffTime < poolTimeDiff timeNow job.timeWhenTaskHasBeenAdded then
    some (c.send job.fd req.fromp
      (reply NodeStatus.THREAD_POOL_TIMEOUT.code (.str "Threadpool queue timeout.")))
  else if req.func = "check_code" then do
    let src ← (← req.element 3).iolistToString
    let data ← (← req.element 4).iolistToString
    let res := c._v8.checkCode E src data threadNum
    some ({ c with _v8 := res.2 }.send job.fd req.fromp (replyRet res.1))
  else if req.func = "compile" then do
    let conv_id ← (← req.element 3).iolistToString
    let node_id ← (← req.element 4).iolistToString
    let data ← (← req.element 5).iolistToString
    let res ← c._v8.compile E conv_id node_id data
    some ({ c with _v8 := res.2 }.send job.fd req.fromp (replyRet res.1))
  else if req.func = "remove" then do
    let conv_id ← (← req.element 3).iolistToString
    let node_id ← (← req.element 4).iolistToString
    let res := c._v8.remove conv_id node_id
    some ({ c with _v8 := res.2 }.send job.fd req.fromp (replyRet res.1))
  else if req.func = "run" then do
    let conv_id ← (← req.element 3).iolistToString
    let node_id ← (← req.element 4).iolistToString
    let data ← (← req.element 5).iolistToString
    let res ← c._v8.run E conv_id node_id data threadNum runTime
    some ({ c with _v8 := res.2 }.send job.fd req.fromp (replyRet res.1))
  else
    some (c.send job.fd req.fromp (reply NodeStatus.ERR.code (.str "Unsupported command.")))

/-- The last branch of `process`: the job is bound with the clock reading
`timeAdded`, its priority is read with `_priorityMap[func]`, and it is handed
to `addJob`, whose result is not looked at. -/
def submit (c : CNode Val Heap) (fd : Int) (req : Request) (timeAdded : Int) : CNode Val Heap :=
  let job : Job := ⟨fd, req, timeAdded⟩
  let (priority, priorityMap) := mindex req.func 0 c._priorityMap
  { c with _priorityMap := priorityMap, _pool := (c._pool.addJob priority job).2 }

/-- The method `CNode::process`; `timeNow` is the clock reading at its start,
`timeAdded` the one taken in its last branch, and `readFile` the file system
as `_readFile` sees it. -/
def process (readFile : String → Except String String) (c : CNode Val Heap) (fd : Int)
    (req : Request) (timeNow timeAdded : Int) : Option (CNode Val Heap) :=
  if c._maxDiffTime < socketTimeDiff timeNow req.timestamp then
    some (c.send fd req.fromp
      (reply NodeStatus.SOCKET_TIMEOUT.code (.str "Socket queue timeout.")))
  else if req.func = "get_statistics" then
    some (c.send fd req.fromp (statistics c))
  else if req.func = "get_max_diff_time" then
    some (c.send fd req.fromp (reply NodeStatus.OK.code (.int (toInt c._maxDiffTime))))
  else if req.func = "set_max_diff_time" then do
    let maxDiffTime ← (← req.element 3).intUValue
    some ({ c with _maxDiffTime := maxDiffTime }.send fd req.fromp
      (reply NodeStatus.OK.code (.int (toInt maxDiffTime))))
  else if req.func = "set_max_time_exec_threshold" then do
    let execTime ← (← req.element 3).intUValue
    some ({ c with _v8 := c._v8.setMaxExecutionTime execTime }.send fd req.fromp
      (reply NodeStatus.OK.code (.int (toInt execTime))))
  else if req.func = "get_max_time_exec_threshold" then
    some (c.send fd req.fromp
      (reply NodeStatus.OK.code (.int (toInt c._v8.getMaxExecutionTime))))
  else if req.func = "get_require_cache_file" then do
    let fileName ← (← req.element 3).iolistToString
    some (c.send fd req.fromp (replyRet (c._v8.getRequireCachedFile fileName)))
  else if req.func = "update_require_cache_file" then do
    let fileName ← (← req.element 3).iolistToString
    let res := c._v8.updateRequireCache readFile fileName
    some ({ c with _v8 := res.2 }.send fd req.fromp (replyRet res.1))
  else if req.func = "get_priorities" then
    some (c.send fd req.fromp (reply NodeStatus.OK.code (.tuple [.atom "priorities",
      .list (c._priorityMap.map fun p => .tuple [.str p.1, .int p.2])])))
  else if req.func = "set_priority" then do
    let command ← (← req.element 3).iolistToString
    let priority ← (← req.element 4).intValue
    some ({ c with _priorityMap := massign command priority c._priorityMap }.send fd req.fromp
      (.tuple [.atom "cnode", .int NodeStatus.OK.code,
        .tuple [.atom "command", .str command], .tuple [.atom "priority", .int priority]]))
  else if req.func = "remove_priority" then do
    let command ← (← req.element 3).iolistToString
    let erased := merase command c._priorityMap
    some ({ c with _priorityMap := erased.2 }.send fd req.fromp
      (reply NodeStatus.OK.code (.int erased.1)))
  else
    some (submit c fd req timeAdded)

end CNode

/-! ## The watchdog -/

namespace V8Runner

variable {Val Heap : Type}

/-- The value `timeExecution` of `_timeCheckerFunc`: the difference of the two
millisecond counts, converted to `std::size_t`. -/
def timeExecution (currentTime threadLaunchTime : Int) : Nat :=
  CNode.toSizeT (CNode.toLongLong (currentTime - threadLaunchTime))

/-- The body of the loop of `_timeCheckerFunc` over `_timing` for one slot:
the engine calls it makes. `currentTime` is the snapshot the thread took
before it locked `_timeCheckerMutex`, and `isInUse` is `isolate->IsInUse()`. -/
def checkSlot (maxExecutionTime : Nat) (currentTime : Int) (isInUse : Isolate → Bool)
    (item : Option ScriptWorkTime) : List (V8Call Val) :=
  match item with
  | none => []
  | some w =>
    if w.isWorking = true then
      if maxExecutionTime < timeExecution currentTime w.started then
        if isInUse w.isolate = true then
          [.terminateExecution w.isolate, .discardThreadSpecificMetadata w.isolate]
        else []
      else []
    else []

/-- One pass of the `while` loop of `_timeCheckerFunc`, between `lock()` and
`unlock()`: every slot of `_timing` is checked in turn. -/
def timeCheckerPass (s : V8Runner Val Heap) (currentTime : Int) (isInUse : Isolate → Bool) :
    V8Runner Val Heap :=
  { s with v8log := s.v8log ++
      (s._timing.map (checkSlot s._maxExecutionTime currentTime isInUse)).flatten }

end V8Runner

/-! ## A small engine for concrete evaluations -/

/-- An engine over strings: a script whose text is `"bad"` does not compile, a
script whose text is `"throw"` throws when run, every other script evaluates
to its own text; the only JSON texts are `"1"` and `"2"`; calling `f` on `x`
returns `f ++ x`. The heap counts the scripts and functions that were run. -/
def sampleV8 : V8 String Nat where
  newContext := 0
  scriptCompile := fun src => if src = "bad" then some "SyntaxError" else none
  scriptRun := fun _ h src =>
    if src = "throw" then .threw "Error" (h + 1) else .value src (h + 1)
  jsonParse := fun data => if data = "1" ∨ data = "2" then some data else none
  functionCall := fun _ h f x => .returned (f ++ x) (h + 1)
  jsonStr := fun _ v => v

/-- A runner with two isolates and two workers. -/
def sampleRunner : V8Runner String Nat := V8Runner.init sampleV8 "/libs" [] 1000 500 2

/-- The state after the operations `ops` on `sampleRunner`. -/
def sampleAfter (ops : List V8Runner.Op) : V8Runner String Nat :=
  (V8Runner.steps sampleV8 sampleRunner ops).getD sampleRunner

/-- A request of the sender `pid`. -/
def sampleRequest (timestamp : Nat) (func : String) (args : List String) : Request :=
  { fromp := .atom "pid", timestamp := timestamp, func := func, args := args.map .str }

/-- A node over `sampleRunner` with four workers, a queue bound of one job
and the default settings of `cnode_main.cpp`. -/
def sampleNode : CNode String Nat :=
  { _v8 := sampleRunner
    _maxDiffTime := 1000000
    _pool := concurrent.ThreadPool.new 4 1
    _priorityMap := CNode.defaultPriorityMap
    sent := [] }

/-- A file system without files. -/
def noFiles : String → Except String String := fun fileName =>
  .error ("Error opening file: " ++ fileName)

/-- The node `sampleNode` after a `run` request has been handed to the pool:
the queue holds one job, which is its bound. -/
def sampleFullNode : CNode String Nat :=
  (CNode.process noFiles sampleNode 3 (sampleRequest 100 "run" ["c", "n", "1"]) 150 151).getD
    sampleNode

/-- The runner `sampleRunner` while worker 0 runs a script on isolate 1 that
it started at the clock reading 1001. -/
def sampleTimed : V8Runner String Nat :=
  { sampleRunner with _timing := [some ⟨true, 1, 1001⟩, none] }

/-- What the directory iterator yields for a library directory `/libs` that
holds the one file `/libs/a/b/c.js`. -/
def nestedEntries : List V8Runner.DirEntry :=
  [⟨"/libs/a", true⟩, ⟨"/libs/a/b", true⟩, ⟨"/libs/a/b/c.js", false⟩]

/-- The file system whose one file is `/libs/a/b/c.js`, with the content `x`. -/
def nestedFiles : String → Except String String := fun fileName =>
  if fileName = "/libs/a/b/c.js" then .ok "x" else .error ("Error opening file: " ++ fileName)

/-- What the directory iterator yields for a library directory `/libs` that
holds the one file `/libs/libs/moment.js`. -/
def flatEntries : List V8Runner.DirEntry :=
  [⟨"/libs/libs", true⟩, ⟨"/libs/libs/moment.js", false⟩]

/-- The file system whose one file is `/libs/libs/moment.js`. -/
def flatFiles : String → Except String String := fun fileName =>
  if fileName = "/libs/libs/moment.js" then .ok "moment" else
    .error ("Error opening file: " ++ fileName)

/-- The pool of four workers and queue bound 8 after the steps `sts`. -/
def samplePoolAfter (sts : List (concurrent.ThreadPool.Step String)) :
    concurrent.ThreadPool String :=
  (concurrent.ThreadPool.steps (concurrent.ThreadPool.new 4 8) sts).getD
    (concurrent.ThreadPool.new 4 8)

/-- A pool of four workers that holds the one job `boom`. -/
def samplePool : concurrent.ThreadPool String :=
  (concurrent.ThreadPool.addJob (concurrent.ThreadPool.new 4 8) 0 "boom").2

/-- A run of a pool of three threads: two jobs are submitted and run by the
threads 0 and 1 while thread 2 waits in `next_job`. -/
def sampleSubmits : List (concurrent.Action String) :=
  [.addJob 1 "a", .addJob 5 "b", .test 0, .nextJob 0, .busy 0, .call 0, .test 1, .nextJob 1,
    .unbusy 0, .busy 1, .count 0, .call 1, .leave 0, .unbusy 1, .account 0, .count 1, .leave 1,
    .test 2, .test 0]

/-- The rest of the run, after `waitAll()` returned in `joinAll(true)`: thread 1
still has to run `jobsDone += 1`, the threads 0 and 2 get the empty lambda. -/
def sampleShutdown : List (concurrent.Action String) :=
  [.setStop, .account 1, .test 1, .nextJob 2, .busy 2, .nextJob 0, .call 2, .busy 0, .unbusy 2,
    .call 0, .count 2, .unbusy 0, .leave 2, .count 0, .account 2, .leave 0, .test 2, .account 0,
    .test 0, .join]

/-- The state at the end of the sample run. -/
def sampleJoined : concurrent.Threads String :=
  (concurrent.Threads.run (concurrent.Threads.start 3 10)
    (sampleSubmits ++ .waitAll :: sampleShutdown)).getD (concurrent.Threads.start 3 10)

/-- The pool of two threads and queue bound 8 after one job was submitted and
thread 0 has taken it. -/
def sampleTaken : Option (concurrent.Threads String) :=
  concurrent.Threads.run (concurrent.Threads.start 2 8) [.addJob 0 "a", .test 0, .nextJob 0]

/-- Actions of a pool of two threads: two jobs are submitted, thread 0 takes
the one of higher priority and is in its call. -/
def sampleRunningActs : List (concurrent.Action String) :=
  [.addJob 0 "a", .addJob 1 "b", .test 0, .nextJob 0, .busy 0]

/-- The state after `sampleRunningActs`. -/
def sampleRunning : concurrent.Threads String :=
  (concurrent.Threads.run (concurrent.Threads.start 2 8) sampleRunningActs).getD
    (concurrent.Threads.start 2 8)

/-- Actions of a pool of two threads: a job is submitted and run to the end
by thread 0, and `joinAll(false)` is called with a second job in the queue. -/
def sampleAbandonActs : List (concurrent.Action String) :=
  [.addJob 0 "a", .test 0, .nextJob 0, .busy 0, .call 0, .unbusy 0, .count 0, .leave 0,
    .account 0, .addJob 0 "b", .setStop, .test 0, .test 1, .join]

/-- The state after `sampleAbandonActs`. -/
def sampleAbandoned : concurrent.Threads String :=
  (concurrent.Threads.run (concurrent.Threads.start 2 8) sampleAbandonActs).getD
    (concurrent.Threads.start 2 8)

end pb

namespace pb

open V8Runner

/-! ## Lemmas on maps -/

section MapLemmas

variable {K V : Type} [DecidableEq K]

theorem mfind_massign_self (k : K) (v : V) (m : List (K × V)) :
    mfind k (massign k v m) = some v := by
  induction m with
  | nil => simp [massign, mfind]
  | cons p m ih =>
    obtain ⟨k', v'⟩ := p
    by_cases h : k' = k <;> simp [massign, mfind, h, ih]

theorem mfind_massign_ne {k k' : K} (v : V) (m : List (K × V)) (h : k' ≠ k) :
    mfind k' (massign k v m) = mfind k' m := by
  induction m with
  | nil => simp [massign, mfind, Ne.symm h]
  | cons p m ih =>
    obtain ⟨k₁, v₁⟩ := p
    by_cases h₁ : k₁ = k
    · subst h₁
      simp [massign, mfind, Ne.symm h]
    · by_cases h₂ : k₁ = k'
      · subst h₂
        simp [massign, mfind, h₁]
      · simp [massign, mfind, h₁, h₂, ih]

theorem length_massign_of_found {k : K} {w : V} (v : V) (m : List (K × V))
    (h : mfind k m = some w) : (massign k v m).length = m.length := by
  induction m with
  | nil => simp [mfind] at h
  | cons p m ih =>
    obtain ⟨k₁, v₁⟩ := p
    by_cases h₁ : k₁ = k
    · simp [massign, h₁]
    · simp [mfind, h₁] at h
      simp [massign, h₁, ih h]

theorem length_massign_of_missing {k : K} (v : V) (m : List (K × V))
    (h : mfind k m = none) : (massign k v m).length = m.length + 1 := by
  induction m with
  | nil => simp [massign]
  | cons p m ih =>
    obtain ⟨k₁, v₁⟩ := p
    by_cases h₁ : k₁ = k
    · simp [mfind, h₁] at h
    · simp [mfind, h₁] at h
      simp [massign, h₁, ih h]

theorem mem_massign {k : K} {v : V} {m : List (K × V)} {p : K × V}
    (h : p ∈ massign k v m) : p = (k, v) ∨ p ∈ m := by
  induction m with
  | nil => simpa [massign] using h
  | cons q m ih =>
    obtain ⟨k₁, v₁⟩ := q
    by_cases h₁ : k₁ = k
    · simp only [massign, h₁, if_true, List.mem_cons] at h
      rcases h with h | h
      · left; exact h
      · right; exact List.mem_cons_of_mem _ h
    · simp only [massign, h₁, if_false, List.mem_cons] at h
      rcases h with h | h
      · right; rw [h]; exact List.mem_cons_self _ _
      · rcases ih h with h | h
        · left; exact h
        · right; exact List.mem_cons_of_mem _ h

theorem mfind_isSome_massign (k k' : K) (v : V) (m : List (K × V))
    (h : (mfind k' m).isSome = true) : (mfind k' (massign k v m)).isSome = true := by
  by_cases hk : k' = k
  · subst hk; simp [mfind_massign_self]
  · rw [mfind_massign_ne v m hk]; exact h

theorem mfind_mem {k : K} {v : V} {m : List (K × V)} (h : mfind k m = some v) :
    (k, v) ∈ m := by
  induction m with
  | nil => simp [mfind] at h
  | cons q m ih =>
    obtain ⟨k₁, v₁⟩ := q
    by_cases h₁ : k₁ = k
    · simp [mfind, h₁] at h
      simp [h₁, h]
    · simp [mfind, h₁] at h
      exact List.mem_cons_of_mem _ (ih h)

end MapLemmas

/-! ## The registry -/

section Registry

variable {Val Heap : Type}

/-- The three ways in which `_compile` returns. -/
theorem compile_cases (E : V8 Val Heap) (s : V8Runner Val Heap) (conv node src : String)
    (r : Ret) (s' : V8Runner Val Heap) (h : _compile E s conv node src = some (r, s')) :
    ∃ isolate s2 heap,
      isolateForConv (resetIfPresent s (conv, node)) conv = some (isolate, s2) ∧
      lockedContext s2 isolate = some heap ∧
      ((∃ msg, E.scriptCompile src = some msg ∧ r = (STATUS.COMPILE_ERR, msg) ∧
          s' = s2.logCall (.scriptCompile isolate src)) ∨
       (E.scriptCompile src = none ∧ ∃ msg heap',
          E.scriptRun s2._requireCache heap src = .threw msg heap' ∧
          r = (STATUS.COMPILE_ERR, msg) ∧
          s' = ((s2.logCall (.scriptCompile isolate src)).logCall
                  (.scriptRun isolate src)).setContext isolate heap') ∨
       (E.scriptCompile src = none ∧ ∃ v heap',
          E.scriptRun s2._requireCache heap src = .value v heap' ∧
          r = (STATUS.NO_ERR, "") ∧
          s' = { ((s2.logCall (.scriptCompile isolate src)).logCall
                    (.scriptRun isolate src)).setContext isolate heap' with
                 _functions := massign (conv, node) (some (isolate, v)) s2._functions })) := by
  unfold _compile at h
  simp only at h
  cases h1 : isolateForConv (resetIfPresent s (conv, node)) conv with
  | none => simp [h1] at h
  | some p =>
    obtain ⟨isolate, s2⟩ := p
    simp only [h1] at h
    cases h2 : lockedContext s2 isolate with
    | none => simp [h2] at h
    | some heap =>
      simp only [h2] at h
      refine ⟨isolate, s2, heap, rfl, h2, ?_⟩
      cases h3 : E.scriptCompile src with
      | some msg =>
        simp only [h3, Option.some.injEq, Prod.mk.injEq] at h
        exact Or.inl ⟨msg, rfl, h.1.symm, h.2.symm⟩
      | none =>
        simp only [h3] at h
        cases h4 : E.scriptRun s2._requireCache heap src with
        | threw msg heap' =>
          simp only [logCall, h4, Option.some.injEq, Prod.mk.injEq] at h
          exact Or.inr (Or.inl ⟨rfl, msg, heap', rfl, h.1.symm, h.2.symm⟩)
        | value v heap' =>
          simp only [logCall, h4, Option.some.injEq, Prod.mk.injEq] at h
          exact Or.inr (Or.inr ⟨rfl, v, heap', rfl, h.1.symm, h.2.symm⟩)

/-- The four ways in which `invoke` returns or fails to. -/
theorem invoke_cases (E : V8 Val Heap) (s : V8Runner Val Heap) (isolate : Isolate) (heap : Heap)
    (owner : Isolate) (f obj : Val) (threadId : Nat) (currentTime : Int)
    (r : Ret) (s' : V8Runner Val Heap)
    (h : invoke E s isolate heap owner f obj threadId currentTime = some (r, s')) :
    owner = isolate ∧ threadId < s._timing.length ∧
    ∃ h', s' = { s with
                  _timing := (s._timing.set threadId (some ⟨true, isolate, currentTime⟩)).set
                    threadId (some ⟨false, isolate, currentTime⟩)
                  v8log := s.v8log ++ [.functionCall isolate f obj]
                  _isolatesData := massign isolate h' s._isolatesData } ∧
      ((E.functionCall s._requireCache heap f obj = .terminated h' ∧
          r = (STATUS.SCRIPT_TERMINATED_ERR, "Script has been terminated.")) ∨
       (∃ msg, E.functionCall s._requireCache heap f obj = .threw msg h' ∧
          r = (STATUS.SCRIPT_RUNTIME_ERR, msg)) ∨
       (∃ v, E.functionCall s._requireCache heap f obj = .returned v h' ∧
          r = (STATUS.NO_ERR, E.jsonStr h' v))) := by
  unfold invoke at h
  by_cases h1 : owner = isolate
  · by_cases h2 : s._timing.length ≤ threadId
    · simp [h1, h2] at h
    · simp only [h1, ne_eq, not_true_eq_false, if_false, h2, logCall, setContext] at h
      refine ⟨h1, Nat.lt_of_not_le h2, ?_⟩
      cases h3 : E.functionCall s._requireCache heap f obj with
      | terminated h' =>
        simp only [h3, Option.some.injEq, Prod.mk.injEq] at h
        exact ⟨h', h.2.symm, Or.inl ⟨rfl, h.1.symm⟩⟩
      | threw msg h' =>
        simp only [h3, Option.some.injEq, Prod.mk.injEq] at h
        exact ⟨h', h.2.symm, Or.inr (Or.inl ⟨msg, rfl, h.1.symm⟩)⟩
      | returned v h' =>
        simp only [h3, Option.some.injEq, Prod.mk.injEq] at h
        exact ⟨h', h.2.symm, Or.inr (Or.inr ⟨v, rfl, h.1.symm⟩)⟩
  · simp [h1] at h

/-- The ways in which `_run` returns. In each of them the conversation of the
pair was found in `_convs`, so that `_convs` is left as it was. -/
theorem run_cases (E : V8 Val Heap) (s : V8Runner Val Heap) (conv node data : String)
    (threadId : Nat) (currentTime : Int) (r : Ret) (s' : V8Runner Val Heap)
    (h : _run E s conv node data threadId currentTime = some (r, s')) :
    (mfind (conv, node) s._functions = none ∧ r.1 = STATUS.NOT_FOUND_PAIR_ERR ∧ s' = s) ∨
    ∃ pFunc isolate heap,
      mfind (conv, node) s._functions = some pFunc ∧
      mfind conv s._convs = some isolate ∧
      lockedContext s isolate = some heap ∧
      ((pFunc = none ∧ r.1 = STATUS.NOT_FUNCTION_ERR ∧ s' = s) ∨
       ∃ owner f, pFunc = some (owner, f) ∧
        ((E.jsonParse data = none ∧ r.1 = STATUS.BAD_INPUT_ERR ∧
            s' = s.logCall (.jsonParse isolate data)) ∨
         ∃ obj, E.jsonParse data = some obj ∧
           invoke E (s.logCall (.jsonParse isolate data)) isolate heap owner f obj
             threadId currentTime = some (r, s'))) := by
  unfold _run at h
  cases h1 : mfind (conv, node) s._functions with
  | none =>
    simp only [h1, Option.some.injEq, Prod.mk.injEq] at h
    exact Or.inl ⟨rfl, by rw [← h.1], h.2.symm⟩
  | some pFunc =>
    right
    simp only [h1] at h
    cases h2 : mfind conv s._convs with
    | none =>
      simp [mindex, h2, lockedContext] at h
    | some isolate =>
      simp only [mindex, h2] at h
      have hs : ({ s with _convs := s._convs } : V8Runner Val Heap) = s := rfl
      rw [hs] at h
      cases h3 : lockedContext s isolate with
      | none => simp [h3] at h
      | some heap =>
        simp only [h3] at h
        refine ⟨pFunc, isolate, heap, rfl, rfl, h3, ?_⟩
        cases pFunc with
        | none =>
          simp only [Option.some.injEq, Prod.mk.injEq] at h
          exact Or.inl ⟨rfl, by rw [← h.1], h.2.symm⟩
        | some q =>
          obtain ⟨owner, f⟩ := q
          right
          refine ⟨owner, f, rfl, ?_⟩
          simp only at h
          cases h4 : E.jsonParse data with
          | none =>
            simp only [h4, Option.some.injEq, Prod.mk.injEq] at h
            exact Or.inl ⟨rfl, by rw [← h.1], h.2.symm⟩
          | some obj =>
            simp only [h4] at h
            exact Or.inr ⟨obj, rfl, h⟩

theorem resetIfPresent_frame (s : V8Runner Val Heap) (key : ConvNodePair) :
    (resetIfPresent s key)._convs = s._convs ∧
    (resetIfPresent s key)._isolates = s._isolates ∧
    (resetIfPresent s key)._isolatesData = s._isolatesData ∧
    (resetIfPresent s key)._timing = s._timing ∧
    (resetIfPresent s key).nextIsolate = s.nextIsolate ∧
    (resetIfPresent s key).v8log = s.v8log ∧
    (resetIfPresent s key)._requireCache = s._requireCache := by
  unfold resetIfPresent
  split <;> simp

theorem resetIfPresent_find_self (s : V8Runner Val Heap) (key : ConvNodePair) :
    mfind key (resetIfPresent s key)._functions
      = (mfind key s._functions).map fun _ => none := by
  unfold resetIfPresent
  split
  · rename_i v hv
    simp [hv, mfind_massign_self]
  · rename_i hv
    simp [hv]

theorem resetIfPresent_length (s : V8Runner Val Heap) (key : ConvNodePair) :
    (resetIfPresent s key)._functions.length = s._functions.length := by
  unfold resetIfPresent
  split
  · rename_i v hv
    exact length_massign_of_found _ _ hv
  · rfl

theorem resetIfPresent_mem (s : V8Runner Val Heap) (key : ConvNodePair)
    {p : ConvNodePair × PersistentFunction Val} (h : p ∈ (resetIfPresent s key)._functions) :
    p ∈ s._functions ∨ (p.1 = key ∧ ∃ v, (key, v) ∈ s._functions) := by
  unfold resetIfPresent at h
  split at h
  · rename_i v hv
    rcases mem_massign h with h | h
    · exact Or.inr ⟨by rw [h], v, mfind_mem hv⟩
    · exact Or.inl h
  · exact Or.inl h

/-- What `isolateForConv` returns: the isolate already recorded for the
conversation, with the state untouched, or the isolate `getIsolate` yields,
recorded for the conversation. -/
theorem isolateForConv_cases (s s2 : V8Runner Val Heap) (conv : Conv) (isolate : Isolate)
    (h : isolateForConv s conv = some (isolate, s2)) :
    (mfind conv s._convs = some isolate ∧ s2 = s) ∨
    (mfind conv s._convs = none ∧ isolate ∈ s._isolates ∧
      s2 = { s with
              nextIsolate := (if s.nextIsolate = s._isolates.length then 0
                              else s.nextIsolate) + 1
              _convs := massign conv isolate s._convs }) := by
  unfold isolateForConv at h
  cases h1 : mfind conv s._convs with
  | some i =>
    simp only [h1, Option.some.injEq, Prod.mk.injEq] at h
    exact Or.inl ⟨by rw [h.1], h.2.symm⟩
  | none =>
    right
    simp only [h1, getIsolate] at h
    cases h2 : s._isolates[if s.nextIsolate = s._isolates.length then 0
        else s.nextIsolate]? with
    | none => simp [h2] at h
    | some i =>
      simp only [h2, Option.some.injEq, Prod.mk.injEq] at h
      refine ⟨rfl, ?_, ?_⟩
      · rw [← h.1]; exact List.getElem?_mem h2
      · rw [← h.2, ← h.1]

theorem V8Runner.Consistent.mono {s s' : V8Runner Val Heap} (hc : Consistent s)
    (hf : ∀ p ∈ s'._functions, p ∈ s._functions ∨ (mfind p.1.1 s'._convs).isSome = true)
    (hconv : ∀ c ∈ s'._convs, c ∈ s._convs ∨ c.2 ∈ s._isolates)
    (hkeys : ∀ k, (mfind k s._convs).isSome = true → (mfind k s'._convs).isSome = true)
    (hdata : ∀ i, (mfind i s._isolatesData).isSome = true →
      (mfind i s'._isolatesData).isSome = true)
    (hiso : s'._isolates = s._isolates) : Consistent s' := by
  obtain ⟨c1, c2, c3⟩ := hc
  refine ⟨?_, ?_, ?_⟩
  · intro p hp
    rcases hf p hp with h | h
    · exact hkeys _ (c1 p h)
    · exact h
  · intro c hcm
    rcases hconv c hcm with h | h
    · exact ⟨(c2 c h).1, hdata _ (c2 c h).2⟩
    · exact ⟨(c3 _ h).1, hdata _ (c3 _ h).2⟩
  · intro i hi
    rw [hiso] at hi
    exact ⟨(c3 i hi).1, hdata _ (c3 i hi).2⟩

theorem consistent_resetIfPresent (s : V8Runner Val Heap) (key : ConvNodePair)
    (hc : Consistent s) : Consistent (resetIfPresent s key) := by
  obtain ⟨e1, e2, e3, -⟩ := resetIfPresent_frame s key
  apply hc.mono
  · intro p hp
    rcases resetIfPresent_mem s key hp with h | ⟨h, v, hv⟩
    · exact Or.inl h
    · right
      rw [e1, h]
      exact hc.1 _ hv
  · intro c hcm; rw [e1] at hcm; exact Or.inl hcm
  · intro k hk; rw [e1]; exact hk
  · intro i hi; rw [e3]; exact hi
  · exact e2

theorem consistent_isolateForConv (s s2 : V8Runner Val Heap) (conv : Conv) (isolate : Isolate)
    (h : isolateForConv s conv = some (isolate, s2)) (hc : Consistent s) : Consistent s2 := by
  rcases isolateForConv_cases s s2 conv isolate h with ⟨-, h2⟩ | ⟨-, hmem, h2⟩
  · rw [h2]; exact hc
  · subst h2
    apply hc.mono
    · intro p hp; exact Or.inl hp
    · intro c hcm
      rcases mem_massign hcm with h | h
      · right; rw [h]; exact hmem
      · exact Or.inl h
    · intro k hk; exact mfind_isSome_massign _ _ _ _ hk
    · intro i hi; exact hi
    · rfl

theorem consistent_compile (E : V8 Val Heap) (s : V8Runner Val Heap) (conv node src : String)
    (r : Ret) (s' : V8Runner Val Heap) (h : _compile E s conv node src = some (r, s'))
    (hc : Consistent s) : Consistent s' := by
  obtain ⟨isolate, s2, heap, h1, -, h3⟩ := compile_cases E s conv node src r s' h
  have hc2 : Consistent s2 :=
    consistent_isolateForConv _ s2 conv isolate h1 (consistent_resetIfPresent s _ hc)
  have hfind : (mfind conv s2._convs).isSome = true := by
    rcases isolateForConv_cases _ s2 conv isolate h1 with ⟨h4, h5⟩ | ⟨-, -, h5⟩
    · rw [h5, h4]; rfl
    · rw [h5]; simp [mfind_massign_self]
  rcases h3 with ⟨msg, -, -, hs⟩ | ⟨-, msg, heap', -, -, hs⟩ | ⟨-, v, heap', -, -, hs⟩
  · subst hs
    exact hc2.mono (fun p hp => Or.inl hp) (fun c hcm => Or.inl hcm) (fun k hk => hk)
      (fun i hi => hi) rfl
  · subst hs
    exact hc2.mono (fun p hp => Or.inl hp) (fun c hcm => Or.inl hcm) (fun k hk => hk)
      (fun i hi => mfind_isSome_massign _ _ _ _ hi) rfl
  · subst hs
    refine hc2.mono ?_ (fun c hcm => Or.inl hcm) (fun k hk => hk)
      (fun i hi => mfind_isSome_massign _ _ _ _ hi) rfl
    intro p hp
    rcases mem_massign hp with h | h
    · right; rw [h]; exact hfind
    · exact Or.inl h

theorem consistent_run (E : V8 Val Heap) (s : V8Runner Val Heap) (conv node data : String)
    (threadId : Nat) (currentTime : Int) (r : Ret) (s' : V8Runner Val Heap)
    (h : _run E s conv node data threadId currentTime = some (r, s'))
    (hc : Consistent s) : Consistent s' := by
  rcases run_cases E s conv node data threadId currentTime r s' h with
    ⟨-, -, hs⟩ | ⟨pFunc, isolate, heap, -, -, -, h2⟩
  · rw [hs]; exact hc
  · rcases h2 with ⟨-, -, hs⟩ | ⟨owner, f, -, h3⟩
    · rw [hs]; exact hc
    · rcases h3 with ⟨-, -, hs⟩ | ⟨obj, -, h4⟩
      · subst hs
        exact hc.mono (fun p hp => Or.inl hp) (fun c hcm => Or.inl hcm) (fun k hk => hk)
          (fun i hi => hi) rfl
      · obtain ⟨-, -, h', hs, -⟩ := invoke_cases E _ isolate heap owner f obj _ _ r s' h4
        subst hs
        exact hc.mono (fun p hp => Or.inl hp) (fun c hcm => Or.inl hcm) (fun k hk => hk)
          (fun i hi => mfind_isSome_massign _ _ _ _ hi) rfl

theorem checkCode_frame (E : V8 Val Heap) (s : V8Runner Val Heap) (src data : String)
    (threadId : Nat) :
    ∃ calls, (_checkCode E s src data threadId).2 = { s with v8log := s.v8log ++ calls } := by
  unfold _checkCode
  simp only [logCall]
  cases E.scriptCompile src with
  | some msg => exact ⟨[.isolateNew, .checkCompile src, .isolateDispose], by simp⟩
  | none =>
    simp only
    cases E.scriptRun s._requireCache E.newContext src with
    | threw msg h =>
      exact ⟨[.isolateNew, .checkCompile src, .checkRun src, .isolateDispose], by simp⟩
    | value v h =>
      exact ⟨[.isolateNew, .checkCompile src, .checkRun src, .isolateDispose], by simp⟩

theorem consistent_step (E : V8 Val Heap) (s s' : V8Runner Val Heap) (op : Op)
    (h : step E s op = some s') (hc : Consistent s) : Consistent s' := by
  cases op with
  | compile conv node src =>
    simp only [step, compile, Option.map_eq_some'] at h
    obtain ⟨⟨r, t⟩, h1, h2⟩ := h
    subst h2
    exact consistent_compile E s conv node src r _ h1 hc
  | remove conv node =>
    simp only [step, remove, _remove, Option.some.injEq] at h
    rw [← h]; exact consistent_resetIfPresent s _ hc
  | run conv node data threadId currentTime =>
    simp only [step, run, Option.map_eq_some'] at h
    obtain ⟨⟨r, t⟩, h1, h2⟩ := h
    subst h2
    exact consistent_run E s conv node data threadId currentTime r _ h1 hc
  | checkCode src data threadId =>
    simp only [step, checkCode, Option.some.injEq] at h
    obtain ⟨calls, hx⟩ := checkCode_frame E s src data threadId
    rw [← h, hx]
    exact hc.mono (fun p hp => Or.inl hp) (fun c hcm => Or.inl hcm) (fun k hk => hk)
      (fun i hi => hi) rfl
  | cleanData =>
    simp only [step, cleanData, Option.some.injEq] at h
    rw [← h]
    exact ⟨by simp, by simp, hc.2.2⟩

theorem consistent_steps (E : V8 Val Heap) (ops : List Op) (s s' : V8Runner Val Heap)
    (h : steps E s ops = some s') (hc : Consistent s) : Consistent s' := by
  induction ops generalizing s with
  | nil =>
    simp only [steps, Option.some.injEq] at h
    rw [← h]; exact hc
  | cons op ops ih =>
    simp only [steps, Option.bind_eq_some] at h
    obtain ⟨t, h1, h2⟩ := h
    exact ih t h2 (consistent_step E s t op h1 hc)

theorem consistent_init (E : V8 Val Heap) (pathToLibs : String) (cache : List (String × String))
    (maxExecutionTime timeCheckerSleepTime threadsCount : Nat) :
    Consistent (init E pathToLibs cache maxExecutionTime timeCheckerSleepTime threadsCount) := by
  refine ⟨by simp [init], by simp [init], ?_⟩
  intro i hi
  simp only [init, List.mem_map, List.mem_range] at hi
  obtain ⟨a, ha, rfl⟩ := hi
  refine ⟨by simp [nullIsolate], ?_⟩
  simp only [init]
  have key : ∀ (n a : Nat), a < n →
      (mfind (a + 1) ((List.range n).map fun i => (i + 1, E.newContext))).isSome = true := by
    intro n
    induction n with
    | zero => intro a ha; omega
    | succ n ih =>
      intro a ha
      rw [List.range_succ, List.map_append]
      by_cases h : a < n
      · have := ih a h
        generalize (List.range n).map (fun i => (i + 1, E.newContext)) = l at this ⊢
        induction l with
        | nil => simp [mfind] at this
        | cons q l ihl =>
          obtain ⟨k, v⟩ := q
          by_cases hk : k = a + 1
          · simp [mfind, hk]
          · simp only [mfind, hk, if_false] at this
            simp only [List.cons_append, mfind, hk, if_false]
            exact ihl this
      · have : a = n := by omega
        subst this
        generalize (List.range a).map (fun i => (i + 1, E.newContext)) = l
        induction l with
        | nil => simp [mfind]
        | cons q l ihl =>
          obtain ⟨k, v⟩ := q
          by_cases hk : k = a + 1
          · simp [mfind, hk]
          · simpa [mfind, hk] using ihl
  exact key threadsCount a ha

theorem run_not_found (E : V8 Val Heap) (s : V8Runner Val Heap) (conv node data : String)
    (threadId : Nat) (currentTime : Int) (h : mfind (conv, node) s._functions = none) :
    run E s conv node data threadId currentTime
      = some ((STATUS.NOT_FOUND_PAIR_ERR, "Not found pair (" ++ conv ++ ", " ++ node ++ ")"),
          s) := by
  simp [run, _run, h]

/-- C1: when the pair `(conv, node)` has no entry in `_functions`, `run`
returns `NOT_FOUND_PAIR_ERR` for every data text, worker index and clock
reading, and the whole state (registry, slots, log of engine calls) is the
state before the call. -/
theorem run_of_missing_pair (E : V8 Val Heap) (s : V8Runner Val Heap)
    (conv node data : String) (threadId : Nat) (currentTime : Int)
    (h : mfind (conv, node) s._functions = none) :
    ∃ msg, run E s conv node data threadId currentTime
      = some ((STATUS.NOT_FOUND_PAIR_ERR, msg), s) := by
  refine ⟨"Not found pair (" ++ conv ++ ", " ++ node ++ ")", ?_⟩
  simp [run, _run, h]

theorem run_of_missing_pair_witness :
    mfind ("c", "n") sampleRunner._functions = none ∧
    ∃ msg, run sampleV8 sampleRunner "c" "n" "1" 0 17
      = some ((STATUS.NOT_FOUND_PAIR_ERR, msg), sampleRunner) :=
  ⟨by decide, run_of_missing_pair sampleV8 sampleRunner "c" "n" "1" 0 17 (by decide)⟩

theorem run_frame (E : V8 Val Heap) (s : V8Runner Val Heap) (conv node data : String)
    (threadId : Nat) (currentTime : Int) (r : Ret) (s' : V8Runner Val Heap)
    (h : _run E s conv node data threadId currentTime = some (r, s')) :
    s'._functions = s._functions ∧ s'._convs = s._convs ∧ s'._isolates = s._isolates ∧
    s'.nextIsolate = s.nextIsolate := by
  rcases run_cases E s conv node data threadId currentTime r s' h with
    ⟨-, -, hs⟩ | ⟨pFunc, isolate, heap, -, -, -, h2⟩
  · rw [hs]; simp
  · rcases h2 with ⟨-, -, hs⟩ | ⟨owner, f, -, h3⟩
    · rw [hs]; simp
    · rcases h3 with ⟨-, -, hs⟩ | ⟨obj, -, h4⟩
      · rw [hs]; simp [logCall]
      · obtain ⟨-, -, h', hs, -⟩ := invoke_cases E _ isolate heap owner f obj _ _ r s' h4
        rw [hs]; simp [logCall]

/-- In a consistent state, `run` of a pair whose handle is empty returns
`NOT_FUNCTION_ERR` and leaves the state as it was. -/
theorem run_of_empty_handle (E : V8 Val Heap) (s : V8Runner Val Heap) (conv node data : String)
    (threadId : Nat) (currentTime : Int) (hc : Consistent s)
    (he : mfind (conv, node) s._functions = some none) :
    _run E s conv node data threadId currentTime
      = some ((STATUS.NOT_FUNCTION_ERR,
          "Pair (conv, node) does not contain compiled function."), s) := by
  have h1 := hc.1 _ (mfind_mem he)
  simp only [Option.isSome_iff_exists] at h1
  obtain ⟨isolate, h1⟩ := h1
  obtain ⟨h2, h3⟩ := hc.2.1 _ (mfind_mem h1)
  simp only [Option.isSome_iff_exists] at h3
  obtain ⟨heap, h3⟩ := h3
  simp only at h2 h3
  have hs : ({ s with _convs := s._convs } : V8Runner Val Heap) = s := rfl
  simp [_run, he, mindex, h1, hs, lockedContext, h2, h3]

/-- A successful `_compile`: the isolate of the conversation, the context
before and after the script was run, and the value it evaluated to. -/
theorem compile_ok (E : V8 Val Heap) (s : V8Runner Val Heap) (conv node src d : String)
    (s' : V8Runner Val Heap)
    (h : _compile E s conv node src = some ((STATUS.NO_ERR, d), s')) :
    ∃ isolate s2 heap v heap',
      isolateForConv (resetIfPresent s (conv, node)) conv = some (isolate, s2) ∧
      lockedContext s2 isolate = some heap ∧
      E.scriptCompile src = none ∧
      E.scriptRun s2._requireCache heap src = .value v heap' ∧
      s' = { ((s2.logCall (.scriptCompile isolate src)).logCall
                (.scriptRun isolate src)).setContext isolate heap' with
             _functions := massign (conv, node) (some (isolate, v)) s2._functions } := by
  obtain ⟨isolate, s2, heap, h1, h2, h3⟩ := compile_cases E s conv node src _ s' h
  rcases h3 with ⟨msg, -, hr, -⟩ | ⟨-, msg, heap', -, hr, -⟩ | ⟨hcomp, v, heap', hrun, -, hs⟩
  · simp at hr
  · simp at hr
  · exact ⟨isolate, s2, heap, v, heap', h1, h2, hcomp, hrun, hs⟩

theorem lockedContext_ne_null {s : V8Runner Val Heap} {isolate : Isolate} {heap : Heap}
    (h : lockedContext s isolate = some heap) :
    isolate ≠ nullIsolate ∧ mfind isolate s._isolatesData = some heap := by
  unfold lockedContext at h
  by_cases h0 : isolate = nullIsolate
  · simp [h0] at h
  · simp only [h0, if_false] at h
    exact ⟨h0, h⟩

/-- The state a successful `_compile` leaves, seen from the outside. -/
theorem compile_ok_state (E : V8 Val Heap) (s : V8Runner Val Heap) (conv node src d : String)
    (s' : V8Runner Val Heap)
    (h : _compile E s conv node src = some ((STATUS.NO_ERR, d), s')) :
    ∃ isolate v heap',
      mfind conv s'._convs = some isolate ∧
      (∀ i, mfind conv s._convs = some i → i = isolate) ∧
      mfind (conv, node) s'._functions = some (some (isolate, v)) ∧
      lockedContext s' isolate = some heap' ∧
      (∀ heap, lockedContext s isolate = some heap →
        E.scriptRun s._requireCache heap src = .value v heap') ∧
      s'._requireCache = s._requireCache ∧ s'._timing = s._timing ∧
      (mfind conv s._convs = some isolate → s'._convs = s._convs) ∧
      ((mfind (conv, node) s._functions).isSome = true →
        s'._functions.length = s._functions.length) := by
  obtain ⟨isolate, s2, heap, v, heap', h1, h2, -, h4, hs⟩ := compile_ok E s conv node src d s' h
  obtain ⟨e1, e2, e3, e4, e5, e6, e7⟩ := resetIfPresent_frame s (conv, node)
  obtain ⟨hnn, hdata⟩ := lockedContext_ne_null h2
  have hfun : s2._functions = (resetIfPresent s (conv, node))._functions ∧
      s2._isolatesData = s._isolatesData ∧ s2._requireCache = s._requireCache ∧
      s2._timing = s._timing ∧ mfind conv s2._convs = some isolate ∧
      (∀ i, mfind conv s._convs = some i → i = isolate) ∧
      (mfind conv s._convs = some isolate → s2._convs = s._convs) := by
    rcases isolateForConv_cases _ s2 conv isolate h1 with ⟨h5, h6⟩ | ⟨h5, -, h6⟩
    · rw [h6]
      rw [e1] at h5
      refine ⟨rfl, e3, e7, e4, by rw [e1]; exact h5, ?_, fun _ => e1⟩
      intro i hi
      rw [h5] at hi
      exact (Option.some.inj hi).symm
    · rw [h6]
      rw [e1] at h5
      refine ⟨rfl, e3, e7, e4, mfind_massign_self _ _ _, ?_, ?_⟩
      · intro i hi; rw [h5] at hi; cases hi
      · intro hi; rw [h5] at hi; cases hi
  obtain ⟨f1, f2, f3, f4, f5, f6, f7⟩ := hfun
  refine ⟨isolate, v, heap', ?_, f6, ?_, ?_, ?_, ?_, ?_, ?_, ?_⟩
  · rw [hs]; exact f5
  · rw [hs]; exact mfind_massign_self _ _ _
  · rw [hs]
    simp only [lockedContext, setContext, logCall, hnn, if_false]
    exact mfind_massign_self _ _ _
  · intro heap0 h0
    have h0' := (lockedContext_ne_null h0).2
    rw [f2] at hdata
    rw [hdata] at h0'
    cases h0'
    rw [← f3]; exact h4
  · rw [hs]; exact f3
  · rw [hs]; exact f4
  · intro hi; rw [hs]; exact f7 hi
  · intro hi
    rw [hs]
    show (massign (conv, node) _ s2._functions).length = _
    rw [f1]
    have hx : (mfind (conv, node) (resetIfPresent s (conv, node))._functions).isSome = true := by
      rw [resetIfPresent_find_self]
      simpa using hi
    obtain ⟨w, hw⟩ := Option.isSome_iff_exists.mp hx
    rw [length_massign_of_found _ _ hw]
    exact resetIfPresent_length s _

/-- What `_run` does with a pair that holds a callable of the isolate of its
conversation, on a data text that parses, for a worker index in range: it
parses the text, calls the callable, and maps the outcome of the call to the
returned tuple. -/
theorem run_of_callable (E : V8 Val Heap) (s : V8Runner Val Heap) (conv node data : String)
    (obj : Val) (threadId : Nat) (currentTime : Int) (isolate : Isolate) (f : Val) (heap : Heap)
    (hf : mfind (conv, node) s._functions = some (some (isolate, f)))
    (hcv : mfind conv s._convs = some isolate)
    (hl : lockedContext s isolate = some heap)
    (hp : E.jsonParse data = some obj) (ht : threadId < s._timing.length) :
    ∃ r s', _run E s conv node data threadId currentTime = some (r, s') ∧
      s'.v8log = s.v8log ++ [.jsonParse isolate data, .functionCall isolate f obj] ∧
      s'._timing[threadId]? = some (some ⟨false, isolate, currentTime⟩) ∧
      r = match E.functionCall s._requireCache heap f obj with
          | .returned v h => (STATUS.NO_ERR, E.jsonStr h v)
          | .threw msg _ => (STATUS.SCRIPT_RUNTIME_ERR, msg)
          | .terminated _ => (STATUS.SCRIPT_TERMINATED_ERR, "Script has been terminated.") := by
  have hs : ({ s with _convs := s._convs } : V8Runner Val Heap) = s := rfl
  have ht' : ¬ s._timing.length ≤ threadId := Nat.not_le.mpr ht
  simp only [_run, hf, mindex, hcv, hs, hl, hp, invoke, logCall, ne_eq, not_true_eq_false,
    if_false, ht', setContext]
  cases E.functionCall s._requireCache heap f obj with
  | returned v h => exact ⟨_, _, rfl, by simp, by simp [ht], rfl⟩
  | threw msg h => exact ⟨_, _, rfl, by simp, by simp [ht], rfl⟩
  | terminated h => exact ⟨_, _, rfl, by simp, by simp [ht], rfl⟩

/-- C3: when two compiles of the same pair succeed one after the other, the
pair is bound to the value the second source evaluated to, on the isolate the
first compile used; `nodes_count` and `convs_count` are those after the first
compile; and a following `run` on a data text that parses calls that value on
that isolate and returns what the call yields. -/
theorem recompile_second_wins (E : V8 Val Heap) (s sa sb : V8Runner Val Heap)
    (conv node src1 src2 d1 d2 : String)
    (h1 : compile E s conv node src1 = some ((STATUS.NO_ERR, d1), sa))
    (h2 : compile E sa conv node src2 = some ((STATUS.NO_ERR, d2), sb)) :
    ∃ isolate f1 f2 ha hb,
      mfind conv sa._convs = some isolate ∧
      mfind (conv, node) sa._functions = some (some (isolate, f1)) ∧
      lockedContext sa isolate = some ha ∧
      E.scriptRun sa._requireCache ha src2 = .value f2 hb ∧
      mfind conv sb._convs = some isolate ∧
      mfind (conv, node) sb._functions = some (some (isolate, f2)) ∧
      nodes_count sb = nodes_count sa ∧ convs_count sb = convs_count sa ∧
      ∀ (data : String) (obj : Val) (threadId : Nat) (currentTime : Int),
        E.jsonParse data = some obj → threadId < sb._timing.length →
        ∃ r s', run E sb conv node data threadId currentTime = some (r, s') ∧
          s'.v8log = sb.v8log ++ [.jsonParse isolate data, .functionCall isolate f2 obj] ∧
          r = match E.functionCall sb._requireCache hb f2 obj with
              | .returned v h => (STATUS.NO_ERR, E.jsonStr h v)
              | .threw msg _ => (STATUS.SCRIPT_RUNTIME_ERR, msg)
              | .terminated _ => (STATUS.SCRIPT_TERMINATED_ERR, "Script has been terminated.") := by
  obtain ⟨isolate, f1, ha, a1, -, a3, a4, -, -, -, -, -⟩ :=
    compile_ok_state E s conv node src1 d1 sa h1
  obtain ⟨isolate', f2, hb, b1, b2, b3, b4, b5, b6, b7, b8, b9⟩ :=
    compile_ok_state E sa conv node src2 d2 sb h2
  have hi : isolate = isolate' := b2 _ a1
  subst hi
  refine ⟨isolate, f1, f2, ha, hb, a1, a3, a4, b5 _ a4, b1, b3, ?_, ?_, ?_⟩
  · exact b9 (by rw [a3]; rfl)
  · simp only [convs_count]; rw [b8 a1]
  · intro data obj threadId currentTime hp ht
    obtain ⟨r, s', e1, e2, -, e4⟩ :=
      run_of_callable E sb conv node data obj threadId currentTime isolate f2 hb b3 b1 b4 hp ht
    exact ⟨r, s', e1, e2, e4⟩

theorem recompile_second_wins_witness :
    ∃ isolate f1 f2 ha hb,
      mfind "c" (sampleAfter [.compile "c" "n" "f"])._convs = some isolate ∧
      mfind ("c", "n") (sampleAfter [.compile "c" "n" "f"])._functions
        = some (some (isolate, f1)) ∧
      lockedContext (sampleAfter [.compile "c" "n" "f"]) isolate = some ha ∧
      sampleV8.scriptRun (sampleAfter [.compile "c" "n" "f"])._requireCache ha "g"
        = .value f2 hb ∧
      mfind "c" (sampleAfter [.compile "c" "n" "f", .compile "c" "n" "g"])._convs
        = some isolate ∧
      mfind ("c", "n") (sampleAfter [.compile "c" "n" "f", .compile "c" "n" "g"])._functions
        = some (some (isolate, f2)) ∧
      nodes_count (sampleAfter [.compile "c" "n" "f", .compile "c" "n" "g"])
        = nodes_count (sampleAfter [.compile "c" "n" "f"]) ∧
      convs_count (sampleAfter [.compile "c" "n" "f", .compile "c" "n" "g"])
        = convs_count (sampleAfter [.compile "c" "n" "f"]) ∧
      ∀ (data : String) (obj : String) (threadId : Nat) (currentTime : Int),
        sampleV8.jsonParse data = some obj →
        threadId < (sampleAfter [.compile "c" "n" "f", .compile "c" "n" "g"])._timing.length →
        ∃ r s', run sampleV8 (sampleAfter [.compile "c" "n" "f", .compile "c" "n" "g"])
            "c" "n" data threadId currentTime = some (r, s') ∧
          s'.v8log = (sampleAfter [.compile "c" "n" "f", .compile "c" "n" "g"]).v8log
            ++ [.jsonParse isolate data, .functionCall isolate f2 obj] ∧
          r = match sampleV8.functionCall
                (sampleAfter [.compile "c" "n" "f", .compile "c" "n" "g"])._requireCache
                hb f2 obj with
              | .returned v h => (STATUS.NO_ERR, sampleV8.jsonStr h v)
              | .threw msg _ => (STATUS.SCRIPT_RUNTIME_ERR, msg)
              | .terminated _ => (STATUS.SCRIPT_TERMINATED_ERR, "Script has been terminated.") :=
  recompile_second_wins sampleV8 sampleRunner (sampleAfter [.compile "c" "n" "f"])
    (sampleAfter [.compile "c" "n" "f", .compile "c" "n" "g"]) "c" "n" "f" "g" "" ""
    rfl rfl

/-- C4: for a pair with no registry entry, when `Script::Compile` fails on the
source, or succeeds and `Run` fails in the context of the isolate of the
conversation, `compile` returns `COMPILE_ERR` with the engine message and
registers nothing: `nodes_count` is as before, the pair still has no entry and
a following `run` returns `NOT_FOUND_PAIR_ERR`. -/
theorem failed_compile_registers_nothing (E : V8 Val Heap) (s s2 : V8Runner Val Heap)
    (conv node src msg : String) (isolate : Isolate) (heap : Heap)
    (hnew : mfind (conv, node) s._functions = none)
    (hiso : isolateForConv s conv = some (isolate, s2))
    (hctx : lockedContext s2 isolate = some heap)
    (hfail : E.scriptCompile src = some msg ∨
      (E.scriptCompile src = none ∧ ∃ heap', E.scriptRun s._requireCache heap src
        = .threw msg heap')) :
    ∃ s', compile E s conv node src = some ((STATUS.COMPILE_ERR, msg), s') ∧
      nodes_count s' = nodes_count s ∧
      mfind (conv, node) s'._functions = none ∧
      ∀ (data : String) (threadId : Nat) (currentTime : Int), ∃ m,
        run E s' conv node data threadId currentTime
          = some ((STATUS.NOT_FOUND_PAIR_ERR, m), s') := by
  have hreset : resetIfPresent s (conv, node) = s := by
    simp [resetIfPresent, hnew]
  have hs2 : s2._functions = s._functions ∧ s2._requireCache = s._requireCache := by
    rcases isolateForConv_cases s s2 conv isolate hiso with ⟨-, h6⟩ | ⟨-, -, h6⟩ <;>
      rw [h6] <;> exact ⟨rfl, rfl⟩
  have key : ∃ s', compile E s conv node src = some ((STATUS.COMPILE_ERR, msg), s') ∧
      s'._functions = s._functions := by
    rcases hfail with hc | ⟨hc, heap', hr⟩
    · refine ⟨s2.logCall (.scriptCompile isolate src), ?_, hs2.1⟩
      simp [compile, _compile, hreset, hiso, hctx, hc]
    · refine ⟨((s2.logCall (.scriptCompile isolate src)).logCall
          (.scriptRun isolate src)).setContext isolate heap', ?_, hs2.1⟩
      simp [compile, _compile, hreset, hiso, hctx, hc, logCall, hs2.2, hr]
  obtain ⟨s', h1, h2⟩ := key
  have h3 : mfind (conv, node) s'._functions = none := by rw [h2]; exact hnew
  refine ⟨s', h1, by simp [nodes_count, h2], h3, ?_⟩
  intro data threadId currentTime
  exact ⟨_, run_not_found E s' conv node data threadId currentTime h3⟩

theorem failed_compile_registers_nothing_witness :
    ∃ s', compile sampleV8 sampleRunner "c" "n" "throw"
        = some ((STATUS.COMPILE_ERR, "Error"), s') ∧
      nodes_count s' = nodes_count sampleRunner ∧
      mfind ("c", "n") s'._functions = none ∧
      ∀ (data : String) (threadId : Nat) (currentTime : Int), ∃ m,
        run sampleV8 s' "c" "n" data threadId currentTime
          = some ((STATUS.NOT_FOUND_PAIR_ERR, m), s') :=
  failed_compile_registers_nothing sampleV8 sampleRunner
    { sampleRunner with nextIsolate := 1, _convs := [("c", 1)] } "c" "n" "throw" "Error" 1 0
    (by decide) rfl (by decide) (Or.inr ⟨by decide, 1, rfl⟩)

/-- C5: in a consistent state, for a pair that holds a non-empty callable and
a data text that `JSON::Parse` rejects, `run` returns `BAD_INPUT_ERR`; the
only engine call it makes is the parse, so the callable is not called, and
the slots of the watchdog are as before. -/
theorem run_of_bad_input (E : V8 Val Heap) (s : V8Runner Val Heap) (conv node data : String)
    (threadId : Nat) (currentTime : Int) (owner : Isolate) (f : Val) (hc : Consistent s)
    (hf : mfind (conv, node) s._functions = some (some (owner, f)))
    (hbad : E.jsonParse data = none) :
    ∃ isolate s', mfind conv s._convs = some isolate ∧
      run E s conv node data threadId currentTime
        = some ((STATUS.BAD_INPUT_ERR, "Error during parse JSON."), s') ∧
      s'.v8log = s.v8log ++ [.jsonParse isolate data] ∧
      s'._timing = s._timing ∧ s'._isolatesData = s._isolatesData ∧
      s'._functions = s._functions ∧ s'._convs = s._convs := by
  have h1 := hc.1 _ (mfind_mem hf)
  simp only [Option.isSome_iff_exists] at h1
  obtain ⟨isolate, h1⟩ := h1
  obtain ⟨h2, h3⟩ := hc.2.1 _ (mfind_mem h1)
  simp only [Option.isSome_iff_exists] at h3
  obtain ⟨heap, h3⟩ := h3
  simp only at h2 h3
  have hs : ({ s with _convs := s._convs } : V8Runner Val Heap) = s := rfl
  refine ⟨isolate, s.logCall (.jsonParse isolate data), h1, ?_, rfl, rfl, rfl, rfl, rfl⟩
  simp [run, _run, hf, mindex, h1, hs, lockedContext, h2, h3, hbad]

theorem run_of_bad_input_witness :
    ∃ isolate s', mfind "c" (sampleAfter [.compile "c" "n" "f"])._convs = some isolate ∧
      run sampleV8 (sampleAfter [.compile "c" "n" "f"]) "c" "n" "not json" 0 9
        = some ((STATUS.BAD_INPUT_ERR, "Error during parse JSON."), s') ∧
      s'.v8log = (sampleAfter [.compile "c" "n" "f"]).v8log
        ++ [.jsonParse isolate "not json"] ∧
      s'._timing = (sampleAfter [.compile "c" "n" "f"])._timing ∧
      s'._isolatesData = (sampleAfter [.compile "c" "n" "f"])._isolatesData ∧
      s'._functions = (sampleAfter [.compile "c" "n" "f"])._functions ∧
      s'._convs = (sampleAfter [.compile "c" "n" "f"])._convs :=
  run_of_bad_input sampleV8 (sampleAfter [.compile "c" "n" "f"]) "c" "n" "not json" 0 9 1 "f"
    (by decide) (by decide) (by decide)

theorem compile_keeps_conv (E : V8 Val Heap) (s : V8Runner Val Heap) (conv node src : String)
    (r : Ret) (s' : V8Runner Val Heap) (h : _compile E s conv node src = some (r, s'))
    (c : Conv) (e : Isolate) (hce : mfind c s._convs = some e) :
    mfind c s'._convs = some e := by
  obtain ⟨isolate, s2, heap, h1, -, h3⟩ := compile_cases E s conv node src r s' h
  have e1 := (resetIfPresent_frame s (conv, node)).1
  have h2 : mfind c s2._convs = some e := by
    rcases isolateForConv_cases _ s2 conv isolate h1 with ⟨-, h5⟩ | ⟨h4, -, h5⟩
    · rw [h5, e1]; exact hce
    · rw [h5]
      have hne : c ≠ conv := by
        intro hcc
        rw [hcc, ← e1, h4] at hce
        cases hce
      show mfind c (massign conv isolate (resetIfPresent s (conv, node))._convs) = _
      rw [mfind_massign_ne _ _ hne, e1]; exact hce
  rcases h3 with ⟨msg, -, -, hs⟩ | ⟨-, msg, heap', -, -, hs⟩ | ⟨-, v, heap', -, -, hs⟩ <;>
    rw [hs] <;> exact h2

theorem step_keeps_conv (E : V8 Val Heap) (s s' : V8Runner Val Heap) (op : Op)
    (h : step E s op = some s') (hop : op ≠ Op.cleanData)
    (c : Conv) (e : Isolate) (hce : mfind c s._convs = some e) :
    mfind c s'._convs = some e := by
  cases op with
  | compile conv node src =>
    simp only [step, compile, Option.map_eq_some'] at h
    obtain ⟨⟨r, t⟩, h1, h2⟩ := h
    subst h2
    exact compile_keeps_conv E s conv node src r _ h1 c e hce
  | remove conv node =>
    simp only [step, remove, _remove, Option.some.injEq] at h
    rw [← h, (resetIfPresent_frame s (conv, node)).1]; exact hce
  | run conv node data threadId currentTime =>
    simp only [step, run, Option.map_eq_some'] at h
    obtain ⟨⟨r, t⟩, h1, h2⟩ := h
    subst h2
    rw [(run_frame E s conv node data threadId currentTime r _ h1).2.1]; exact hce
  | checkCode src data threadId =>
    simp only [step, checkCode, Option.some.injEq] at h
    obtain ⟨calls, hx⟩ := checkCode_frame E s src data threadId
    rw [← h, hx]; exact hce
  | cleanData => exact absurd rfl hop

/-- C6: for every state, every conversation that has an isolate keeps that
isolate through every operation other than `cleanData` (a compile of any pair,
failed or not, a remove, a run, a check), and so through every sequence of
such operations. -/
theorem conv_isolate_stable (E : V8 Val Heap) (ops : List Op) (s s' : V8Runner Val Heap)
    (c : Conv) (e : Isolate) (hce : mfind c s._convs = some e)
    (hops : ∀ op ∈ ops, op ≠ Op.cleanData) (h : steps E s ops = some s') :
    mfind c s'._convs = some e := by
  induction ops generalizing s with
  | nil =>
    simp only [steps, Option.some.injEq] at h
    rw [← h]; exact hce
  | cons op ops ih =>
    simp only [steps, Option.bind_eq_some] at h
    obtain ⟨t, h1, h2⟩ := h
    exact ih t (step_keeps_conv E s t op h1 (hops op (List.mem_cons_self _ _)) c e hce)
      (fun o ho => hops o (List.mem_cons_of_mem _ ho)) h2

theorem conv_isolate_stable_witness :
    mfind "c" (sampleAfter [.compile "c" "n" "f"])._convs = some 1 ∧
    mfind "c" (sampleAfter [.compile "c" "n" "f", .compile "d" "m" "g", .compile "c" "k" "bad",
      .run "c" "n" "1" 0 3, .remove "c" "n", .checkCode "f" "1" 0, .compile "c" "n" "h"])._convs
      = some 1 :=
  ⟨by decide,
   conv_isolate_stable sampleV8
    [.compile "d" "m" "g", .compile "c" "k" "bad", .run "c" "n" "1" 0 3, .remove "c" "n",
      .checkCode "f" "1" 0, .compile "c" "n" "h"]
    (sampleAfter [.compile "c" "n" "f"]) _ "c" 1 (by decide) (by decide) rfl⟩

end Registry

/-! ## The dispatcher -/

section Dispatcher

variable {Val Heap : Type}

open CNode

theorem toLongLong_of_range {n : Int} (h0 : -2 ^ 63 ≤ n) (h1 : n < 2 ^ 63) :
    toLongLong n = n := by
  unfold toLongLong
  omega

theorem toSizeT_of_range {n : Int} (h0 : 0 ≤ n) (h1 : n < 2 ^ 64) :
    (toSizeT n : Int) = n := by
  unfold toSizeT
  omega

theorem poolTimeDiff_of_past {timeNow added : Int}
    (h0 : 0 ≤ added) (h1 : added ≤ timeNow) (h2 : timeNow < 2 ^ 63) :
    (poolTimeDiff timeNow added : Int) = timeNow - added := by
  unfold poolTimeDiff
  rw [toLongLong_of_range (by omega) (by omega)]
  exact toSizeT_of_range (by omega) (by omega)

/-- A request that passes the first age check and names no control command
takes the last branch of `process`. -/
theorem process_of_work_request (readFile : String → Except String String)
    (c : CNode Val Heap) (fd : Int) (req : Request) (timeNow timeAdded : Int)
    (hgate : ¬ c._maxDiffTime < socketTimeDiff timeNow req.timestamp)
    (hwork : req.func ∉ controlCommands) :
    process readFile c fd req timeNow timeAdded = some (submit c fd req timeAdded) := by
  simp only [controlCommands, List.mem_cons, List.mem_singleton, not_or, List.not_mem_nil,
    or_false] at hwork
  obtain ⟨h1, h2, h3, h4, h5, h6, h7, h8, h9, h10⟩ := hwork
  simp only [process, hgate, h1, h2, h3, h4, h5, h6, h7, h8, h9, h10, if_false]

/-- The second age check, for a stamp that is not later than the clock
reading of the worker. The job that `process` hands to the pool carries the
clock reading taken in the last branch of `process`, after the first age
check. When a worker runs a job (stamped after the epoch, at a clock reading
that fits `long long`): if the clock reading minus the stamp exceeds
`_maxDiffTime`, the only effect is the reply `THREAD_POOL_TIMEOUT` (code 101),
the runner is not touched; if the stamp is not later than the clock reading
and the difference is at most `_maxDiffTime`, the command `check_code`,
`compile`, `remove` or `run` is executed on the runner and the tuple it
returns is the reply. -/
theorem processV8_age_check (E : V8 Val Heap) (c : CNode Val Heap) (job : Job)
    (threadNum : Nat) (timeNow runTime : Int)
    (hadd : 0 ≤ job.timeWhenTaskHasBeenAdded) (hnow : timeNow < 2 ^ 63) :
    (∀ (readFile : String → Except String String) (fd : Int) (req : Request)
        (timeFirst timeAdded : Int),
      ¬ c._maxDiffTime < socketTimeDiff timeFirst req.timestamp →
      req.func ∉ controlCommands →
      (process readFile c fd req timeFirst timeAdded).map (fun c' => c'._pool)
        = some (c._pool.addJob (mindex req.func 0 c._priorityMap).1
            ⟨fd, req, timeAdded⟩).2) ∧
    (timeNow - job.timeWhenTaskHasBeenAdded > c._maxDiffTime →
      processV8 E c job threadNum timeNow runTime
        = some { c with sent := c.sent ++ [⟨job.fd, job.req.fromp,
            .tuple [.atom "cnode", .int 101, .str "Threadpool queue timeout."]⟩] }) ∧
    (job.timeWhenTaskHasBeenAdded ≤ timeNow →
      timeNow - job.timeWhenTaskHasBeenAdded ≤ c._maxDiffTime →
      (∀ src data, job.req.func = "check_code" →
        job.req.element 3 = some (.str src) → job.req.element 4 = some (.str data) →
        processV8 E c job threadNum timeNow runTime
          = some { c with
              _v8 := (c._v8.checkCode E src data threadNum).2
              sent := c.sent ++ [⟨job.fd, job.req.fromp,
                .tuple [.atom "cnode", .int (c._v8.checkCode E src data threadNum).1.1.code,
                  .str (c._v8.checkCode E src data threadNum).1.2]⟩] }) ∧
      (∀ conv node src, job.req.func = "compile" →
        job.req.element 3 = some (.str conv) → job.req.element 4 = some (.str node) →
        job.req.element 5 = some (.str src) →
        processV8 E c job threadNum timeNow runTime
          = (c._v8.compile E conv node src).map fun res =>
            { c with
              _v8 := res.2
              sent := c.sent ++ [⟨job.fd, job.req.fromp,
                .tuple [.atom "cnode", .int res.1.1.code, .str res.1.2]⟩] }) ∧
      (∀ conv node, job.req.func = "remove" →
        job.req.element 3 = some (.str conv) → job.req.element 4 = some (.str node) →
        processV8 E c job threadNum timeNow runTime
          = some { c with
              _v8 := (c._v8.remove conv node).2
              sent := c.sent ++ [⟨job.fd, job.req.fromp,
                .tuple [.atom "cnode", .int (c._v8.remove conv node).1.1.code,
                  .str (c._v8.remove conv node).1.2]⟩] }) ∧
      (∀ conv node data, job.req.func = "run" →
        job.req.element 3 = some (.str conv) → job.req.element 4 = some (.str node) →
        job.req.element 5 = some (.str data) →
        processV8 E c job threadNum timeNow runTime
          = (c._v8.run E conv node data threadNum runTime).map fun res =>
            { c with
              _v8 := res.2
              sent := c.sent ++ [⟨job.fd, job.req.fromp,
                .tuple [.atom "cnode", .int res.1.1.code, .str res.1.2]⟩] })) := by
  have hm : (0 : Int) ≤ c._maxDiffTime := Int.ofNat_nonneg _
  refine ⟨?_, ?_, ?_⟩
  · intro readFile fd req timeFirst timeAdded hgate hwork
    rw [process_of_work_request readFile c fd req timeFirst timeAdded hgate hwork]
    rfl
  · intro hage
    have hd := poolTimeDiff_of_past hadd (by omega) hnow
    have hlt : c._maxDiffTime < poolTimeDiff timeNow job.timeWhenTaskHasBeenAdded := by omega
    simp [processV8, hlt, send, reply, NodeStatus.code]
  · intro hle hage
    have hd := poolTimeDiff_of_past hadd hle hnow
    have hlt : ¬ c._maxDiffTime < poolTimeDiff timeNow job.timeWhenTaskHasBeenAdded := by omega
    refine ⟨?_, ?_, ?_, ?_⟩
    · intro src data hf h3 h4
      simp [processV8, hlt, hf, h3, h4, ETerm.iolistToString, send, replyRet, reply]
    · intro conv node src hf h3 h4 h5
      simp only [processV8, hlt, hf, h3, h4, h5, if_false]
      cases hres : c._v8.compile E conv node src <;>
        simp [ETerm.iolistToString, hres, send, replyRet, reply]
    · intro conv node hf h3 h4
      simp [processV8, hlt, hf, h3, h4, ETerm.iolistToString, send, replyRet, reply]
    · intro conv node data hf h3 h4 h5
      simp only [processV8, hlt, hf, h3, h4, h5, if_false]
      cases hres : c._v8.run E conv node data threadNum runTime <;>
        simp [ETerm.iolistToString, hres, send, replyRet, reply]

theorem processV8_age_check_witness :
    processV8 sampleV8 sampleNode ⟨3, sampleRequest 0 "remove" ["c", "n"], 10⟩ 0 1000011 1000012
      = some { sampleNode with sent :=
          [⟨3, .atom "pid", .tuple [.atom "cnode", .int 101,
            .str "Threadpool queue timeout."]⟩] } ∧
    processV8 sampleV8 sampleNode ⟨3, sampleRequest 0 "remove" ["c", "n"], 10⟩ 0 1000010 1000012
      = some { sampleNode with sent :=
          [⟨3, .atom "pid", .tuple [.atom "cnode", .int 0, .str ""]⟩] } :=
  ⟨(processV8_age_check sampleV8 sampleNode ⟨3, sampleRequest 0 "remove" ["c", "n"], 10⟩ 0
      1000011 1000012 (by decide) (by decide)).2.1 (by decide),
   ((processV8_age_check sampleV8 sampleNode ⟨3, sampleRequest 0 "remove" ["c", "n"], 10⟩ 0
      1000010 1000012 (by decide) (by decide)).2.2 (by decide) (by decide)).2.2.1
      "c" "n" rfl rfl rfl⟩

set_option maxRecDepth 100000 in
/-- C8, evaluated: a worker runs, at the clock reading 9, a `remove` job that
`process` stamped at the clock reading 10 (the wall clock was set back in
between). The age `now - submit_ts` is -1, which is not greater than
`_maxDiffTime` = 1000000, and the command would return `NO_ERR`; but the
conversion of the difference to `std::size_t` yields 2^64 - 1, so `processV8`
replies `THREAD_POOL_TIMEOUT` (code 101) and the command is not executed. -/
theorem processV8_times_out_job_stamped_ahead :
    (9 : Int) - 10 ≤ sampleNode._maxDiffTime ∧
    poolTimeDiff 9 10 = 2 ^ 64 - 1 ∧
    (sampleNode._v8.remove "c" "n").1.1 = STATUS.NO_ERR ∧
    processV8 sampleV8 sampleNode ⟨3, sampleRequest 0 "remove" ["c", "n"], 10⟩ 0 9 12
      = some { sampleNode with sent :=
          [⟨3, .atom "pid", .tuple [.atom "cnode", .int 101,
            .str "Threadpool queue timeout."]⟩] } := by
  refine ⟨by decide, by decide, by decide, rfl⟩

/-- When the pool is full, the last branch of `process` changes nothing but
the priority map: `addJob` returns `false`, and no reply is sent. -/
theorem process_of_full_pool (readFile : String → Except String String)
    (c : CNode Val Heap) (fd : Int) (req : Request) (timeNow timeAdded : Int)
    (hgate : ¬ c._maxDiffTime < socketTimeDiff timeNow req.timestamp)
    (hwork : req.func ∉ controlCommands)
    (hfull : toInt c._pool.maxQueueSize ≤ c._pool.jobsLeft) :
    process readFile c fd req timeNow timeAdded
      = some { c with _priorityMap := (mindex req.func 0 c._priorityMap).2 } := by
  rw [process_of_work_request readFile c fd req timeNow timeAdded hgate hwork]
  simp [submit, concurrent.ThreadPool.addJob, hfull]

set_option maxRecDepth 100000 in
/-- C9, evaluated: `sampleFullNode` holds one queued job, its bound. A second
`run` request that passes the first age check is refused by `addJob`, and
`process` returns with the list of sent replies empty and the queue as it
was: the sender gets no `THREAD_POOL_EXHAUSTED` or other reply. -/
theorem rejected_submission_gets_no_reply :
    sampleFullNode._pool.maxQueueSize = 1 ∧ sampleFullNode._pool.jobsLeft = 1 ∧
    sampleFullNode.sent.length = 0 ∧
    ¬ sampleFullNode._maxDiffTime < socketTimeDiff 152 100 ∧
    (sampleFullNode._pool.addJob 0 ⟨4, sampleRequest 100 "run" ["c", "n", "2"], 153⟩).1 = false ∧
    (process noFiles sampleFullNode 4 (sampleRequest 100 "run" ["c", "n", "2"]) 152 153).map
      (fun c => (c.sent.length, c._pool.jobs.length, c._pool.jobsLeft)) = some (0, 1, 1) := by
  refine ⟨by decide, by decide, by decide, by decide, by decide, by decide⟩

end Dispatcher

/-! ## The worker pool -/

section Pool

open concurrent concurrent.ThreadPool

variable {F : Type}

theorem perm_cons_set {α : Type} (x a : α) (t : List α) (j : Nat) (hj : j < t.length) :
    List.Perm (x :: t.set j a) (a :: t.set j x) := by
  induction t generalizing j with
  | nil => simp at hj
  | cons b u ih =>
    cases j with
    | zero => exact List.Perm.swap _ _ _
    | succ k =>
      simp only [List.set_cons_succ]
      have hk : k < u.length := by simpa using hj
      exact ((List.Perm.swap b x _).trans ((ih k hk).cons b)).trans (List.Perm.swap a b _)

/-- Moving the element at `i` into the hole at `j` and filling `i` is a
rearrangement of filling the hole. -/
theorem perm_set_set {α : Type} (l : List α) (i j : Nat) (p x : α) (hij : i < j)
    (hj : j < l.length) (hp : l.get? i = some p) :
    List.Perm ((l.set j p).set i x) (l.set j x) := by
  induction l generalizing i j with
  | nil => simp at hj
  | cons a t ih =>
    cases j with
    | zero => omega
    | succ j' =>
      have hj' : j' < t.length := by simpa using hj
      cases i with
      | zero =>
        simp only [List.get?_cons_zero, Option.some.injEq] at hp
        subst hp
        simp only [List.set_cons_succ, List.set_cons_zero]
        exact perm_cons_set x a t j' hj'
      | succ i' =>
        simp only [List.get?_cons_succ] at hp
        simp only [List.set_cons_succ]
        exact (ih i' j' (by omega) hj' hp).cons a

theorem pushHeapLoop_perm (fuel : Nat) (c : List (Int × F)) (holeIndex : Nat) (value : Int × F)
    (hh : holeIndex < c.length) :
    List.Perm (pushHeapLoop fuel c holeIndex value) (c.set holeIndex value) := by
  induction fuel generalizing c holeIndex with
  | zero => exact List.Perm.refl _
  | succ fuel ih =>
    unfold pushHeapLoop
    cases hp : c.get? ((holeIndex - 1) / 2) with
    | none => exact List.Perm.refl _
    | some parent =>
      simp only
      split
      · rename_i hcond
        have hlt : (holeIndex - 1) / 2 < holeIndex := by omega
        have hlen : (holeIndex - 1) / 2 < (c.set holeIndex parent).length := by
          rw [List.length_set]; omega
        exact (ih (c.set holeIndex parent) ((holeIndex - 1) / 2) hlen).trans
          (perm_set_set c _ holeIndex parent value hlt hh hp)
      · exact List.Perm.refl _

/-- The call `jobs.push(item)` adds exactly `item` to the queue. -/
theorem push_perm (c : List (Int × F)) (item : Int × F) :
    List.Perm (push c item) (item :: c) := by
  unfold push
  refine (pushHeapLoop_perm _ (c ++ [item]) c.length item (by simp)).trans ?_
  have h : (c ++ [item]).set c.length item = c ++ [item] := by
    induction c with
    | nil => rfl
    | cons a t ih => simp only [List.cons_append, List.length_cons, List.set_cons_succ, ih]
  rw [h]
  exact List.perm_append_singleton item c

theorem pushHeapLoop_length (fuel : Nat) (c : List (Int × F)) (holeIndex : Nat)
    (value : Int × F) : (pushHeapLoop fuel c holeIndex value).length = c.length := by
  induction fuel generalizing c holeIndex with
  | zero => simp [pushHeapLoop]
  | succ fuel ih =>
    unfold pushHeapLoop
    cases c.get? ((holeIndex - 1) / 2) with
    | none => simp
    | some parent =>
      simp only
      split
      · rw [ih]; simp
      · simp

theorem adjustHeapLoop_length (fuel : Nat) (c : List (Int × F)) (len holeIndex : Nat) :
    (adjustHeapLoop fuel c len holeIndex).1.length = c.length := by
  induction fuel generalizing c holeIndex with
  | zero => simp [adjustHeapLoop]
  | succ fuel ih =>
    unfold adjustHeapLoop
    split
    · simp only
      split
      · rw [ih]; simp
      · rfl
    · rfl

theorem adjustHeap_length (c : List (Int × F)) (len : Nat) (value : Int × F) :
    (adjustHeap c len value).length = c.length := by
  unfold adjustHeap
  simp only
  rw [pushHeapLoop_length]
  split
  · split
    · simp [adjustHeapLoop_length]
    · exact adjustHeapLoop_length _ _ _ _
  · exact adjustHeapLoop_length _ _ _ _

theorem pop_length (c : List (Int × F)) : (pop c).length = c.length - 1 := by
  unfold pop
  cases h : c.getLast? with
  | none =>
    have : c = [] := List.getLast?_eq_none_iff.mp h
    simp [this]
  | some value =>
    simp only
    split
    · rw [adjustHeap_length]; simp
    · have : c.length ≤ 1 := by omega
      simp only [List.length_nil]
      omega

theorem toInt_of_range {n : Int} (h0 : -2 ^ 31 ≤ n) (h1 : n < 2 ^ 31) : toInt n = n := by
  unfold toInt
  omega

theorem queueBounded_step (p p' : ThreadPool F) (st : Step F)
    (h : ThreadPool.step p st = some p')
    (hb : QueueBounded p) : QueueBounded p' ∧ p'.maxQueueSize = p.maxQueueSize := by
  obtain ⟨h1, h2, h3⟩ := hb
  have hmax : toInt p.maxQueueSize = p.maxQueueSize := toInt_of_range (by omega) (by omega)
  cases st with
  | addJob priority job =>
    simp only [ThreadPool.step, addJob, Option.some.injEq] at h
    by_cases hfull : toInt p.maxQueueSize ≤ p.jobsLeft
    · simp only [hfull, if_true] at h
      rw [← h]; exact ⟨⟨h1, h2, h3⟩, rfl⟩
    · simp only [hfull, if_false] at h
      rw [← h]
      have hlen : (push p.jobs (priority, job)).length = p.jobs.length + 1 := by
        rw [(push_perm p.jobs (priority, job)).length_eq]; rfl
      rw [hmax] at hfull
      refine ⟨⟨?_, ?_, h3⟩, rfl⟩
      · show toInt (p.jobsLeft + 1) = ((push p.jobs (priority, job)).length : Int)
        rw [hlen, toInt_of_range (by omega) (by omega), h1]
        push_cast; rfl
      · show (push p.jobs (priority, job)).length ≤ p.maxQueueSize
        rw [hlen]; omega
  | iteration threadNum =>
    simp only [ThreadPool.step, iteration, Option.map_eq_some'] at h
    obtain ⟨⟨job, q⟩, h4, h5⟩ := h
    simp only at h5
    subst h5
    cases hn : next_job p with
    | none => simp [hn] at h4
    | some r =>
      obtain ⟨job', p1⟩ := r
      simp only [hn] at h4
      cases he : endJob (beginJob p1) threadNum with
      | none => simp [he] at h4
      | some p2 =>
        simp only [he, Option.some.injEq, Prod.mk.injEq] at h4
        obtain ⟨-, h6⟩ := h4
        subst h6
        unfold endJob at he
        cases hz : (beginJob p1).jobsPerThread[threadNum]? with
        | none => simp [hz] at he
        | some n =>
          simp only [hz, Option.some.injEq] at he
          subst he
          unfold next_job at hn
          by_cases hs : p.stop = false
          · simp only [hs, if_true] at hn
            cases hh : p.jobs.head? with
            | none => simp [hh] at hn
            | some top =>
              simp only [hh, Option.some.injEq, Prod.mk.injEq] at hn
              obtain ⟨-, h7⟩ := hn
              subst h7
              have hne : p.jobs ≠ [] := by
                intro hnil; rw [hnil] at hh; simp at hh
              have hpos : 0 < p.jobs.length := List.length_pos.mpr hne
              have hpl := pop_length p.jobs
              refine ⟨⟨?_, ?_, h3⟩, rfl⟩
              · show toInt (p.jobsLeft - 1) = ((pop p.jobs).length : Int)
                rw [hpl, toInt_of_range (by omega) (by omega), h1]
                omega
              · show (pop p.jobs).length ≤ p.maxQueueSize
                rw [hpl]; omega
          · rw [if_neg hs] at hn
            simp only [Option.some.injEq, Prod.mk.injEq] at hn
            obtain ⟨-, h7⟩ := hn
            subst h7
            refine ⟨⟨?_, h2, h3⟩, rfl⟩
            show toInt (toInt (p.jobsLeft + 1) - 1) = (p.jobs.length : Int)
            rw [← h1]
            unfold toInt
            omega

theorem queueBounded_steps (sts : List (Step F)) (p p' : ThreadPool F)
    (h : ThreadPool.steps p sts = some p') (hb : QueueBounded p) :
    QueueBounded p' ∧ p'.maxQueueSize = p.maxQueueSize := by
  induction sts generalizing p with
  | nil =>
    simp only [ThreadPool.steps, Option.some.injEq] at h
    rw [← h]; exact ⟨hb, rfl⟩
  | cons st sts ih =>
    simp only [ThreadPool.steps, Option.bind_eq_some] at h
    obtain ⟨q, h1, h2⟩ := h
    obtain ⟨hq, hm⟩ := queueBounded_step p q st h1 hb
    obtain ⟨hq', hm'⟩ := ih q h2 hq
    exact ⟨hq', hm'.trans hm⟩

/-- C10: for a pool whose `maxQueueSize` is at most `2^31 - 1`, `addJob`
returns `false` and leaves the pool as it was exactly when `jobsLeft` is at
least `maxQueueSize`; otherwise it returns `true`, the queue holds the pushed
pair in addition to what it held, `jobsLeft` is one more and nothing else
changes. So in a run made of calls of `addJob` and whole worker iterations,
started where `jobsLeft` is the length of the queue and at most
`maxQueueSize` (as after construction), `jobsLeft` never exceeds
`maxQueueSize`. -/
theorem addJob_bounded (p : ThreadPool F) (priority : Int) (job : F)
    (hmax : p.maxQueueSize ≤ 2 ^ 31 - 1) (hleft : -2 ^ 31 ≤ p.jobsLeft) :
    (((addJob p priority job).1 = false ∧ (addJob p priority job).2 = p)
      ↔ (p.maxQueueSize : Int) ≤ p.jobsLeft) ∧
    (p.jobsLeft < (p.maxQueueSize : Int) →
      (addJob p priority job).1 = true ∧
      List.Perm (addJob p priority job).2.jobs ((priority, job) :: p.jobs) ∧
      (addJob p priority job).2.jobsLeft = p.jobsLeft + 1 ∧
      (addJob p priority job).2
        = { p with jobs := (addJob p priority job).2.jobs, jobsLeft := p.jobsLeft + 1 }) ∧
    (p.jobsLeft = p.jobs.length → p.jobs.length ≤ p.maxQueueSize →
      ∀ (sts : List (Step F)) (p' : ThreadPool F), ThreadPool.steps p sts = some p' →
        p'.jobsLeft ≤ (p'.maxQueueSize : Int) ∧ p'.maxQueueSize = p.maxQueueSize) := by
  have hm : toInt p.maxQueueSize = p.maxQueueSize := toInt_of_range (by omega) (by omega)
  refine ⟨?_, ?_, ?_⟩
  · constructor
    · intro h
      by_contra hlt
      have hnot : ¬ toInt p.maxQueueSize ≤ p.jobsLeft := by rw [hm]; exact hlt
      have := h.1
      simp [addJob, hnot] at this
    · intro h
      have hfull : toInt p.maxQueueSize ≤ p.jobsLeft := by rw [hm]; exact h
      simp [addJob, hfull]
  · intro hlt
    have hnot : ¬ toInt p.maxQueueSize ≤ p.jobsLeft := by rw [hm]; omega
    have hj : toInt (p.jobsLeft + 1) = p.jobsLeft + 1 := toInt_of_range (by omega) (by omega)
    have e : addJob p priority job
        = (true, { p with jobs := push p.jobs (priority, job), jobsLeft := p.jobsLeft + 1 }) := by
      simp only [addJob, hnot, if_false, hj]
    rw [e]
    exact ⟨rfl, push_perm _ _, rfl, rfl⟩
  · intro h1 h2 sts p' hsteps
    obtain ⟨⟨e1, e2, -⟩, e4⟩ := queueBounded_steps sts p p' hsteps ⟨h1, h2, hmax⟩
    refine ⟨?_, e4⟩
    rw [e1]
    exact_mod_cast e2

theorem addJob_bounded_witness :
    (((addJob (ThreadPool.new 4 2 : ThreadPool String) 1 "job").1 = false ∧
        (addJob (ThreadPool.new 4 2 : ThreadPool String) 1 "job").2 = ThreadPool.new 4 2)
      ↔ (((ThreadPool.new 4 2 : ThreadPool String).maxQueueSize : Nat) : Int)
          ≤ (ThreadPool.new 4 2 : ThreadPool String).jobsLeft) ∧
    (addJob (ThreadPool.new 4 2 : ThreadPool String) 1 "job").1 = true ∧
    (addJob (ThreadPool.new 4 2 : ThreadPool String) 1 "job").2.jobs = [(1, "job")] ∧
    ∀ (sts : List (Step String)) (p' : ThreadPool String),
      ThreadPool.steps (ThreadPool.new 4 2) sts = some p' →
        p'.jobsLeft ≤ (p'.maxQueueSize : Int) ∧ p'.maxQueueSize = 2 :=
  have key := addJob_bounded (ThreadPool.new 4 2 : ThreadPool String) 1 "job"
    (by decide) (by decide)
  ⟨key.1, (key.2.1 (by decide)).1, rfl, key.2.2 rfl (by decide)⟩

end Pool

/-! ## The order of the queue -/

section Heap

open concurrent concurrent.ThreadPool

variable {F : Type}

theorem prio_of_get {c : List (Int × F)} {i : Nat} {x : Int × F} (h : c.get? i = some x) :
    prio c i = x.1 := by
  unfold prio
  rw [h]

theorem prio_set (c : List (Int × F)) (hole i : Nat) (v : Int × F) (hh : hole < c.length) :
    prio (c.set hole v) i = if i = hole then v.1 else prio c i := by
  unfold prio
  simp only [List.get?_eq_getElem?, List.getElem?_set, hh, if_true]
  by_cases h : hole = i
  · simp [h]
  · have h' : ¬ i = hole := fun e => h e.symm
    simp [h, h']

theorem pushHeapLoop_isHeap (fuel : Nat) (c : List (Int × F)) (hole : Nat) (value : Int × F)
    (hh : hole < c.length) (hf : hole ≤ fuel)
    (H1 : ∀ i, 0 < i → i < c.length → i ≠ hole → (i - 1) / 2 ≠ hole →
      prio c i ≤ prio c ((i - 1) / 2))
    (H2 : ∀ i, 0 < i → i < c.length → (i - 1) / 2 = hole → prio c i ≤ value.1)
    (H3 : ∀ i, 0 < i → i < c.length → 0 < hole → (i - 1) / 2 = hole →
      prio c i ≤ prio c ((hole - 1) / 2)) :
    IsHeap (pushHeapLoop fuel c hole value) := by
  have exit : ∀ (c : List (Int × F)) (hole : Nat), hole < c.length →
      (∀ i, 0 < i → i < c.length → i ≠ hole → (i - 1) / 2 ≠ hole →
        prio c i ≤ prio c ((i - 1) / 2)) →
      (∀ i, 0 < i → i < c.length → (i - 1) / 2 = hole → prio c i ≤ value.1) →
      (0 < hole → value.1 ≤ prio c ((hole - 1) / 2)) →
      IsHeap (c.set hole value) := by
    intro c hole hh H1 H2 H4 i hi hlt
    rw [List.length_set] at hlt
    rw [prio_set c hole i value hh, prio_set c hole ((i - 1) / 2) value hh]
    by_cases e1 : i = hole
    · have e2 : ¬ (i - 1) / 2 = hole := by omega
      rw [if_pos e1, if_neg e2, e1]
      exact H4 (by omega)
    · rw [if_neg e1]
      by_cases e2 : (i - 1) / 2 = hole
      · rw [if_pos e2]; exact H2 i hi hlt e2
      · rw [if_neg e2]; exact H1 i hi hlt e1 e2
  induction fuel generalizing c hole with
  | zero =>
    have h0 : hole = 0 := by omega
    subst h0
    exact exit c 0 hh H1 H2 (fun h => absurd h (by omega))
  | succ fuel ih =>
    unfold pushHeapLoop
    cases hp : c.get? ((hole - 1) / 2) with
    | none =>
      have : (hole - 1) / 2 < c.length := by omega
      rw [List.get?_eq_getElem?, List.getElem?_eq_none_iff] at hp
      omega
    | some parent =>
      have hpp : prio c ((hole - 1) / 2) = parent.1 := prio_of_get hp
      simp only
      split
      · rename_i hcond
        obtain ⟨hpos, hcmp⟩ := hcond
        simp only [QueueItemCompare, decide_eq_true_eq] at hcmp
        have hlen : (c.set hole parent).length = c.length := List.length_set _ _ _
        apply ih (c.set hole parent) ((hole - 1) / 2) (by rw [hlen]; omega) (by omega)
        · intro i hi hlt e1 e2
          rw [hlen] at hlt
          rw [prio_set c hole i parent hh, prio_set c hole ((i - 1) / 2) parent hh]
          by_cases e3 : i = hole
          · exact absurd (by rw [e3]) e2
          · rw [if_neg e3]
            by_cases e4 : (i - 1) / 2 = hole
            · rw [if_pos e4, ← hpp]
              exact H3 i hi hlt hpos e4
            · rw [if_neg e4]
              exact H1 i hi hlt e3 e4
        · intro i hi hlt e1
          rw [hlen] at hlt
          rw [prio_set c hole i parent hh]
          by_cases e3 : i = hole
          · rw [if_pos e3]; omega
          · rw [if_neg e3]
            have := H1 i hi hlt e3 (by omega)
            rw [e1, hpp] at this
            omega
        · intro i hi hlt hpos' e1
          rw [hlen] at hlt
          have hP := H1 ((hole - 1) / 2) hpos' (by omega) (by omega) (by omega)
          rw [prio_set c hole i parent hh,
            prio_set c hole (((hole - 1) / 2 - 1) / 2) parent hh]
          have e5 : ¬ ((hole - 1) / 2 - 1) / 2 = hole := by omega
          rw [if_neg e5]
          by_cases e3 : i = hole
          · rw [if_pos e3, ← hpp]; exact hP
          · rw [if_neg e3]
            have := H1 i hi hlt e3 (by omega)
            rw [e1] at this
            omega
      · rename_i hcond
        apply exit c hole hh H1 H2
        intro hpos
        rw [hpp]
        simp only [QueueItemCompare, decide_eq_true_eq, not_and, not_lt] at hcond
        exact hcond hpos

theorem prio_append_left (c : List (Int × F)) (item : Int × F) (i : Nat) (h : i < c.length) :
    prio (c ++ [item]) i = prio c i := by
  simp [prio, List.getElem?_append_left h]

/-- The call `jobs.push(item)` keeps the heap order. -/
theorem push_isHeap (c : List (Int × F)) (item : Int × F) (h : IsHeap c) :
    IsHeap (push c item) := by
  unfold push
  apply pushHeapLoop_isHeap
  · simp
  · exact Nat.le_refl _
  · intro i hi hlt e1 e2
    have hlt' : i < c.length := by
      simp only [List.length_append, List.length_singleton] at hlt
      omega
    rw [prio_append_left c item i hlt', prio_append_left c item _ (by omega)]
    exact h i hi hlt'
  · intro i hi hlt e1
    simp only [List.length_append, List.length_singleton] at hlt
    omega
  · intro i hi hlt _ e1
    simp only [List.length_append, List.length_singleton] at hlt
    omega

theorem exists_get_of_lt {α : Type} {l : List α} {i : Nat} (h : i < l.length) :
    ∃ x, l.get? i = some x :=
  ⟨l.get ⟨i, h⟩, List.get?_eq_get h⟩

theorem perm_cons_set_of_get {α : Type} (p x : α) (t : List α) (j : Nat)
    (hp : t.get? j = some p) : List.Perm (p :: t.set j x) (x :: t) := by
  induction t generalizing j with
  | nil => simp at hp
  | cons b u ih =>
    cases j with
    | zero =>
      simp only [List.get?_cons_zero, Option.some.injEq] at hp
      subst hp
      exact List.Perm.swap _ _ _
    | succ k =>
      simp only [List.get?_cons_succ] at hp
      simp only [List.set_cons_succ]
      exact ((List.Perm.swap b p _).trans ((ih k hp).cons b)).trans (List.Perm.swap x b _)

/-- Moving the element at `j` into the hole at `i` and filling `j` is a
rearrangement of filling the hole. -/
theorem perm_set_set_up {α : Type} (l : List α) (i j : Nat) (p x : α) (hij : i < j)
    (hp : l.get? j = some p) : List.Perm ((l.set i p).set j x) (l.set i x) := by
  induction l generalizing i j with
  | nil => simp at hp
  | cons a t ih =>
    cases j with
    | zero => omega
    | succ j' =>
      simp only [List.get?_cons_succ] at hp
      cases i with
      | zero =>
        simp only [List.set_cons_succ, List.set_cons_zero]
        exact perm_cons_set_of_get p x t j' hp
      | succ i' =>
        simp only [List.set_cons_succ]
        exact (ih i' j' (by omega) hp).cons a

/-- The first loop of `std::__adjust_heap` on a heap: the deque is still a
heap (the hole holds a copy of the child that moved up), the hole has no two
children left, and filling the hole gives a rearrangement of filling the hole
the loop started with. -/
theorem adjustHeapLoop_spec (fuel : Nat) (c : List (Int × F)) (len hole : Nat)
    (hlen : len = c.length) (hheap : IsHeap c) (hh : hole < len) :
    IsHeap (adjustHeapLoop fuel c len hole).1 ∧
    (adjustHeapLoop fuel c len hole).1.length = len ∧
    (adjustHeapLoop fuel c len hole).2 < len ∧
    (len ≤ fuel + hole → ¬ (adjustHeapLoop fuel c len hole).2 < (len - 1) / 2) ∧
    ∀ v, List.Perm ((adjustHeapLoop fuel c len hole).1.set (adjustHeapLoop fuel c len hole).2 v)
      (c.set hole v) := by
  induction fuel generalizing c hole with
  | zero =>
    simp only [adjustHeapLoop]
    exact ⟨hheap, hlen.symm, hh, fun h => by omega, fun v => List.Perm.refl _⟩
  | succ fuel ih =>
    unfold adjustHeapLoop
    by_cases hlt : hole < (len - 1) / 2
    · rw [if_pos hlt]
      have hr : 2 * (hole + 1) < c.length := by omega
      have hl : 2 * (hole + 1) - 1 < c.length := by omega
      obtain ⟨r, hr'⟩ := exists_get_of_lt hr
      obtain ⟨l, hl'⟩ := exists_get_of_lt hl
      have pr := prio_of_get hr'
      have pl := prio_of_get hl'
      have hR := hheap (2 * (hole + 1)) (by omega) hr
      have hL := hheap (2 * (hole + 1) - 1) (by omega) hl
      have eR : (2 * (hole + 1) - 1) / 2 = hole := by omega
      have eL : (2 * (hole + 1) - 1 - 1) / 2 = hole := by omega
      rw [eR, pr] at hR
      rw [eL, pl] at hL
      simp only [hr', hl']
      have hhc : hole < c.length := by omega
      -- the child that moves up, its index, and what is known of it
      have key : ∀ (child : Int × F) (sc : Nat), c.get? sc = some child →
          (sc = 2 * (hole + 1) - 1 ∨ sc = 2 * (hole + 1)) → r.1 ≤ child.1 → l.1 ≤ child.1 →
          IsHeap (adjustHeapLoop fuel (c.set hole child) len sc).1 ∧
          (adjustHeapLoop fuel (c.set hole child) len sc).1.length = len ∧
          (adjustHeapLoop fuel (c.set hole child) len sc).2 < len ∧
          (len ≤ fuel + 1 + hole →
            ¬ (adjustHeapLoop fuel (c.set hole child) len sc).2 < (len - 1) / 2) ∧
          ∀ v, List.Perm ((adjustHeapLoop fuel (c.set hole child) len sc).1.set
              (adjustHeapLoop fuel (c.set hole child) len sc).2 v) (c.set hole v) := by
        intro child sc hsc hwhich hge1 hge2
        have pc := prio_of_get hsc
        have hcle : child.1 ≤ prio c hole := by
          rcases hwhich with e | e
          · rw [e, hl'] at hsc; cases hsc; exact hL
          · rw [e, hr'] at hsc; cases hsc; exact hR
        have hheap' : IsHeap (c.set hole child) := by
          intro i hi hilt
          rw [List.length_set] at hilt
          rw [prio_set c hole i child hhc, prio_set c hole ((i - 1) / 2) child hhc]
          by_cases e1 : i = hole
          · have e2 : ¬ (i - 1) / 2 = hole := by omega
            rw [if_pos e1, if_neg e2]
            have := hheap i hi hilt
            rw [e1] at this ⊢
            omega
          · rw [if_neg e1]
            by_cases e2 : (i - 1) / 2 = hole
            · rw [if_pos e2]
              have hi' : i = 2 * (hole + 1) - 1 ∨ i = 2 * (hole + 1) := by omega
              rcases hi' with e | e
              · rw [e, pl]; exact hge2
              · rw [e, pr]; exact hge1
            · rw [if_neg e2]; exact hheap i hi hilt
        have hsclt : sc < len := by omega
        obtain ⟨a1, a2, a3, a4, a5⟩ :=
          ih (c.set hole child) sc (by rw [List.length_set]; exact hlen) hheap' hsclt
        refine ⟨a1, a2, a3, fun hfu => a4 (by omega), fun v => (a5 v).trans ?_⟩
        exact perm_set_set_up c hole sc child v (by omega) hsc
      by_cases hcmp : QueueItemCompare r l = true
      · simp only [hcmp, if_true]
        have hlt' : r.1 < l.1 := by simpa [QueueItemCompare] using hcmp
        exact key l (2 * (hole + 1) - 1) hl' (Or.inl rfl) (by omega) (le_refl _)
      · simp only [hcmp, if_false]
        have hge : l.1 ≤ r.1 := by simpa [QueueItemCompare] using hcmp
        exact key r (2 * (hole + 1)) hr' (Or.inr rfl) (le_refl _) hge
    · rw [if_neg hlt]
      exact ⟨hheap, hlen.symm, hh, fun _ => hlt, fun v => List.Perm.refl _⟩

/-- The function `std::__adjust_heap` on a heap of `len ≥ 1` items whose top
is to be replaced: the result is a heap, and a rearrangement of the deque
with `value` in the place of the top. -/
theorem adjustHeap_spec (c : List (Int × F)) (len : Nat) (value : Int × F)
    (hlen : len = c.length) (hpos : 0 < len) (hheap : IsHeap c) :
    IsHeap (adjustHeap c len value) ∧ List.Perm (adjustHeap c len value) (c.set 0 value) := by
  obtain ⟨a1, a2, a3, a4, a5⟩ := adjustHeapLoop_spec len c len 0 hlen hheap hpos
  unfold adjustHeap
  generalize adjustHeapLoop len c len 0 = res at a1 a2 a3 a4 a5
  obtain ⟨c1, hole1⟩ := res
  simp only at a1 a2 a3 a4 a5 ⊢
  have a4' : ¬ hole1 < (len - 1) / 2 := a4 (by omega)
  by_cases hsp : len % 2 = 0 ∧ hole1 = (len - 2) / 2
  · rw [if_pos hsp]
    have hleft : 2 * (hole1 + 1) - 1 < c1.length := by omega
    obtain ⟨l, hl⟩ := exists_get_of_lt hleft
    have pl := prio_of_get hl
    simp only [hl]
    have hh1 : hole1 < c1.length := by omega
    have hlen2 : (c1.set hole1 l).length = c1.length := List.length_set _ _ _
    constructor
    · apply pushHeapLoop_isHeap
      · rw [hlen2]; exact hleft
      · exact Nat.le_refl _
      · intro i hi hilt e1 e2
        rw [hlen2] at hilt
        rw [prio_set c1 hole1 i l hh1, prio_set c1 hole1 ((i - 1) / 2) l hh1]
        by_cases e3 : i = hole1
        · have e4 : ¬ (i - 1) / 2 = hole1 := by omega
          rw [if_pos e3, if_neg e4, ← pl]
          have h1 := a1 (2 * (hole1 + 1) - 1) (by omega) hleft
          have h2 := a1 i hi hilt
          have e5 : (2 * (hole1 + 1) - 1 - 1) / 2 = hole1 := by omega
          rw [e5] at h1
          rw [e3] at h2 ⊢
          omega
        · rw [if_neg e3]
          by_cases e4 : (i - 1) / 2 = hole1
          · exact absurd (by omega) e1
          · rw [if_neg e4]; exact a1 i hi hilt
      · intro i hi hilt e1
        rw [hlen2] at hilt
        omega
      · intro i hi hilt _ e1
        rw [hlen2] at hilt
        omega
    · refine (pushHeapLoop_perm _ _ _ value (by rw [hlen2]; exact hleft)).trans ?_
      exact (perm_set_set_up c1 hole1 _ l value (by omega) hl).trans (a5 value)
  · rw [if_neg hsp]
    simp only
    have hleaf : c1.length ≤ 2 * hole1 + 1 := by omega
    constructor
    · apply pushHeapLoop_isHeap
      · omega
      · exact Nat.le_refl _
      · intro i hi hilt e1 e2
        exact a1 i hi hilt
      · intro i hi hilt e1
        omega
      · intro i hi hilt _ e1
        omega
    · exact (pushHeapLoop_perm _ _ _ value (by omega)).trans (a5 value)

theorem prio_dropLast (c : List (Int × F)) (i : Nat) (h : i < c.length - 1) :
    prio c.dropLast i = prio c i := by
  unfold prio
  simp only [List.get?_eq_getElem?, List.getElem?_dropLast, h, if_true]

theorem isHeap_dropLast (c : List (Int × F)) (h : IsHeap c) : IsHeap c.dropLast := by
  intro i hi hlt
  rw [List.length_dropLast] at hlt
  rw [prio_dropLast c i hlt, prio_dropLast c _ (by omega)]
  exact h i hi (by omega)

/-- The call `jobs.pop()` keeps the heap order. -/
theorem pop_isHeap (c : List (Int × F)) (h : IsHeap c) : IsHeap (pop c) := by
  unfold pop
  cases hl : c.getLast? with
  | none => intro i hi hlt; simp at hlt
  | some value =>
    simp only
    split
    · exact (adjustHeap_spec c.dropLast (c.length - 1) value (by simp) (by omega)
        (isHeap_dropLast c h)).1
    · intro i hi hlt; simp at hlt

/-- The call `jobs.pop()` removes the item `jobs.top()` and nothing else. -/
theorem pop_perm (c : List (Int × F)) (top : Int × F) (hheap : IsHeap c)
    (h : c.head? = some top) : List.Perm (top :: pop c) c := by
  cases c with
  | nil => simp at h
  | cons a rest =>
    simp only [List.head?_cons, Option.some.injEq] at h
    subst h
    unfold pop
    cases rest with
    | nil => simp
    | cons b rest' =>
      have hne : b :: rest' ≠ [] := by simp
      have hlast : (a :: b :: rest').getLast? = some ((b :: rest').getLast hne) := by
        rw [List.getLast?_cons_cons, List.getLast?_eq_getLast _ hne]
      rw [hlast]
      simp only [List.length_cons]
      rw [if_pos (by omega)]
      have hd : (a :: b :: rest').dropLast = a :: (b :: rest').dropLast := rfl
      have hspec := (adjustHeap_spec (a :: (b :: rest').dropLast) (rest'.length + 1 + 1 - 1)
        ((b :: rest').getLast hne) (by simp) (by omega) (hd ▸ isHeap_dropLast _ hheap)).2
      rw [hd]
      refine (List.Perm.cons a hspec).trans ?_
      simp only [List.set_cons_zero]
      refine List.Perm.cons a ?_
      have := List.dropLast_append_getLast hne
      conv_rhs => rw [← this]
      exact (List.perm_append_singleton _ _).symm

theorem isHeap_top (c : List (Int × F)) (h : IsHeap c) (i : Nat) (hi : i < c.length) :
    prio c i ≤ prio c 0 := by
  induction i using Nat.strong_induction_on with
  | _ i ih =>
    by_cases h0 : i = 0
    · subst h0; exact le_refl _
    · exact (h i (by omega) hi).trans (ih ((i - 1) / 2) (by omega) (by omega))

/-- In a heap no item has a priority above that of the top. -/
theorem isHeap_le_head (c : List (Int × F)) (top : Int × F) (h : IsHeap c)
    (ht : c.head? = some top) (x : Int × F) (hx : x ∈ c) : x.1 ≤ top.1 := by
  obtain ⟨i, hi⟩ := List.mem_iff_getElem?.mp hx
  have hlt : i < c.length := by
    by_contra hn
    rw [List.getElem?_eq_none (by omega)] at hi
    cases hi
  have h0 : prio c 0 = top.1 := by
    cases c with
    | nil => simp at ht
    | cons a t =>
      simp only [List.head?_cons, Option.some.injEq] at ht
      subst ht
      rfl
  have hx' : prio c i = x.1 := prio_of_get (by rw [List.get?_eq_getElem?]; exact hi)
  rw [← h0, ← hx']
  exact isHeap_top c h i hlt

theorem isHeap_step (p p' : ThreadPool F) (st : Step F) (h : ThreadPool.step p st = some p')
    (hheap : IsHeap p.jobs) : IsHeap p'.jobs := by
  cases st with
  | addJob priority job =>
    simp only [ThreadPool.step, addJob, Option.some.injEq] at h
    by_cases hfull : toInt p.maxQueueSize ≤ p.jobsLeft
    · rw [if_pos hfull] at h
      rw [← h]; exact hheap
    · rw [if_neg hfull] at h
      rw [← h]; exact push_isHeap _ _ hheap
  | iteration threadNum =>
    simp only [ThreadPool.step, iteration, Option.map_eq_some'] at h
    obtain ⟨⟨job, q⟩, h4, h5⟩ := h
    simp only at h5
    subst h5
    cases hn : next_job p with
    | none => simp [hn] at h4
    | some r =>
      obtain ⟨job', p1⟩ := r
      simp only [hn] at h4
      have hp1 : IsHeap p1.jobs := by
        unfold next_job at hn
        by_cases hs : p.stop = false
        · rw [if_pos hs] at hn
          cases hh : p.jobs.head? with
          | none => simp [hh] at hn
          | some top =>
            simp only [hh, Option.some.injEq, Prod.mk.injEq] at hn
            rw [← hn.2]; exact pop_isHeap _ hheap
        · rw [if_neg hs] at hn
          simp only [Option.some.injEq, Prod.mk.injEq] at hn
          rw [← hn.2]; exact hheap
      cases he : endJob (beginJob p1) threadNum with
      | none => simp [he] at h4
      | some p2 =>
        simp only [he, Option.some.injEq, Prod.mk.injEq] at h4
        rw [← h4.2]
        unfold endJob at he
        cases hz : (beginJob p1).jobsPerThread[threadNum]? with
        | none => simp [hz] at he
        | some n =>
          simp only [hz, Option.some.injEq] at he
          rw [← he]; exact hp1

theorem isHeap_steps (sts : List (Step F)) (p p' : ThreadPool F)
    (h : ThreadPool.steps p sts = some p') (hheap : IsHeap p.jobs) : IsHeap p'.jobs := by
  induction sts generalizing p with
  | nil =>
    simp only [ThreadPool.steps, Option.some.injEq] at h
    rw [← h]; exact hheap
  | cons st sts ih =>
    simp only [ThreadPool.steps, Option.bind_eq_some] at h
    obtain ⟨q, h1, h2⟩ := h
    exact ih q h2 (isHeap_step p q st h1 hheap)

/-- C11: in a pool whose queue is in heap order (as the empty queue of a new
pool is), after any sequence of calls of `addJob` and worker iterations, a
call of `next_job` that returns a queued job finds the pool not stopping,
returns the job at the top of the queue, leaves queued exactly the other
items, and none of them has a priority above that of the job returned. -/
theorem next_job_takes_highest (p p1 p2 : ThreadPool F) (sts : List (Step F)) (job : F)
    (hheap : IsHeap p.jobs) (hsteps : ThreadPool.steps p sts = some p1)
    (hnext : next_job p1 = some (some job, p2)) :
    p1.stop = false ∧ ∃ priority, p1.jobs.head? = some (priority, job) ∧
      List.Perm ((priority, job) :: p2.jobs) p1.jobs ∧ ∀ x ∈ p2.jobs, x.1 ≤ priority := by
  have h1 := isHeap_steps sts p p1 hsteps hheap
  unfold next_job at hnext
  by_cases hs : p1.stop = false
  · rw [if_pos hs] at hnext
    cases hh : p1.jobs.head? with
    | none => simp [hh] at hnext
    | some top =>
      simp only [hh, Option.some.injEq, Prod.mk.injEq] at hnext
      obtain ⟨e1, e2⟩ := hnext
      obtain ⟨priority, j⟩ := top
      simp only at e1
      subst e1 e2
      have hperm := pop_perm p1.jobs (priority, j) h1 hh
      refine ⟨hs, priority, rfl, hperm, fun x hx => ?_⟩
      exact isHeap_le_head p1.jobs (priority, j) h1 hh x
        (hperm.subset (List.mem_cons_of_mem _ hx))
  · rw [if_neg hs] at hnext
    simp at hnext

theorem next_job_takes_highest_witness :
    (samplePoolAfter [.addJob 0 "run1", .addJob 1 "compile1", .addJob 0 "run2",
      .addJob 1 "remove1", .iteration 0]).stop = false ∧
    ∃ priority, (samplePoolAfter [.addJob 0 "run1", .addJob 1 "compile1", .addJob 0 "run2",
        .addJob 1 "remove1", .iteration 0]).jobs.head? = some (priority, "remove1") ∧
      List.Perm ((priority, "remove1") :: [(0, "run1"), (0, "run2")])
        (samplePoolAfter [.addJob 0 "run1", .addJob 1 "compile1", .addJob 0 "run2",
          .addJob 1 "remove1", .iteration 0]).jobs ∧
      ∀ x ∈ [((0 : Int), "run1"), (0, "run2")], x.1 ≤ priority :=
  next_job_takes_highest (concurrent.ThreadPool.new 4 8) _
    { samplePoolAfter [.addJob 0 "run1", .addJob 1 "compile1", .addJob 0 "run2",
        .addJob 1 "remove1", .iteration 0] with jobs := [(0, "run1"), (0, "run2")] }
    [.addJob 0 "run1", .addJob 1 "compile1", .addJob 0 "run2", .addJob 1 "remove1",
      .iteration 0] "remove1"
    (fun i hi hlt => absurd hlt (by simp [concurrent.ThreadPool.new])) rfl rfl

theorem foldl_push_spec (items c : List (Int × F)) (h : IsHeap c) :
    IsHeap (items.foldl push c) ∧ List.Perm (items.foldl push c) (c ++ items) := by
  induction items generalizing c with
  | nil => simpa using h
  | cons x xs ih =>
    simp only [List.foldl_cons]
    obtain ⟨a1, a2⟩ := ih (push c x) (push_isHeap c x h)
    refine ⟨a1, a2.trans ?_⟩
    have h1 : List.Perm (push c x ++ xs) ((x :: c) ++ xs) := (push_perm c x).append_right xs
    refine h1.trans ?_
    simp only [List.cons_append]
    exact (List.perm_middle).symm

/-- Draining a heap yields its items, each once, in an order in which no
item comes before one of higher priority. -/
theorem drain_spec (n : Nat) (c : List (Int × F)) (h : IsHeap c) (hn : c.length ≤ n) :
    List.Perm (drain n c) c ∧ (drain n c).Pairwise (fun a b => b.1 ≤ a.1) := by
  induction n generalizing c with
  | zero =>
    have : c = [] := List.length_eq_zero.mp (by omega)
    subst this
    simp [drain]
  | succ n ih =>
    unfold drain
    cases hh : c.head? with
    | none =>
      have : c = [] := by
        cases c with
        | nil => rfl
        | cons a t => simp at hh
      subst this
      simp
    | some top =>
      simp only
      have hperm := pop_perm c top h hh
      have hlen : (pop c).length ≤ n := by rw [pop_length]; omega
      obtain ⟨a1, a2⟩ := ih (pop c) (pop_isHeap c h) hlen
      refine ⟨(a1.cons top).trans hperm, List.Pairwise.cons ?_ a2⟩
      intro x hx
      exact isHeap_le_head c top h hh x (hperm.subset (List.mem_cons_of_mem _ (a1.subset hx)))

theorem addJobs_spec (items : List (Int × F)) (p : ThreadPool F)
    (hleft : p.jobsLeft = p.jobs.length) (hmax : p.maxQueueSize ≤ 2 ^ 31 - 1)
    (hroom : p.jobs.length + items.length ≤ p.maxQueueSize) :
    (addJobs p items).jobs = items.foldl push p.jobs ∧ (addJobs p items).stop = p.stop := by
  induction items generalizing p with
  | nil => exact ⟨rfl, rfl⟩
  | cons x xs ih =>
    simp only [List.length_cons] at hroom
    have hm : toInt p.maxQueueSize = p.maxQueueSize := toInt_of_range (by omega) (by omega)
    have hnot : ¬ toInt p.maxQueueSize ≤ p.jobsLeft := by rw [hm, hleft]; omega
    have hlen : (push p.jobs (x.1, x.2)).length = p.jobs.length + 1 := by
      rw [(push_perm p.jobs (x.1, x.2)).length_eq]; rfl
    have e : (addJob p x.1 x.2).2
        = { p with jobs := push p.jobs (x.1, x.2), jobsLeft := toInt (p.jobsLeft + 1) } := by
      simp only [addJob, hnot, if_false]
    simp only [addJobs, List.foldl_cons]
    rw [e]
    have := ih { p with jobs := push p.jobs (x.1, x.2), jobsLeft := toInt (p.jobsLeft + 1) }
      (by
        show toInt (p.jobsLeft + 1) = ((push p.jobs (x.1, x.2)).length : Int)
        rw [hlen, toInt_of_range (by omega) (by omega), hleft]
        push_cast; rfl)
      hmax
      (by
        show (push p.jobs (x.1, x.2)).length + xs.length ≤ p.maxQueueSize
        rw [hlen]; omega)
    exact this

theorem takeAll_eq_drain (n : Nat) (p : ThreadPool F) (hs : p.stop = false) :
    takeAll n p = (drain n p.jobs).map fun x => some x.2 := by
  induction n generalizing p with
  | zero => rfl
  | succ n ih =>
    unfold takeAll drain next_job
    rw [if_pos hs]
    cases hh : p.jobs.head? with
    | none => rfl
    | some top =>
      simp only [List.map_cons]
      rw [ih { p with jobs := pop p.jobs } hs]

/-- C12, by the code: when the pairs of `items` are submitted to a new pool
that has room for them, all are queued, and the calls of `next_job` that
follow return every submitted job once, in an order in which no job comes
before a job of higher priority. Among jobs of equal priority the order is
the one the binary heap gives, which need not be that of submission. -/
theorem dequeue_order (threadCount maxQueueSize : Nat) (items : List (Int × F))
    (hmax : maxQueueSize ≤ 2 ^ 31 - 1) (hroom : items.length ≤ maxQueueSize) :
    ∃ out : List (Int × F),
      takeAll items.length (addJobs (ThreadPool.new threadCount maxQueueSize) items)
        = out.map (fun x => some x.2) ∧
      List.Perm out items ∧ out.Pairwise (fun a b => b.1 ≤ a.1) := by
  have hnil : IsHeap ([] : List (Int × F)) := fun i hi hlt => absurd hlt (by simp)
  obtain ⟨e1, e2⟩ := addJobs_spec items (ThreadPool.new threadCount maxQueueSize) rfl hmax
    (by simpa [ThreadPool.new] using hroom)
  obtain ⟨f1, f2⟩ := foldl_push_spec items [] hnil
  have hjobs : (addJobs (ThreadPool.new threadCount maxQueueSize) items).jobs
      = items.foldl push [] := e1
  have hlen : (items.foldl push []).length ≤ items.length := by
    rw [f2.length_eq]; simp
  obtain ⟨g1, g2⟩ := drain_spec items.length (items.foldl push []) f1 hlen
  refine ⟨drain items.length (items.foldl push []), ?_, g1.trans (by simpa using f2), g2⟩
  rw [takeAll_eq_drain _ _ (by rw [e2]; rfl), hjobs]

theorem dequeue_order_witness :
    ∃ out : List (Int × String),
      takeAll 4 (addJobs (ThreadPool.new 4 8)
          [(0, "run1"), (1, "compile1"), (0, "run2"), (1, "remove1")])
        = out.map (fun x => some x.2) ∧
      List.Perm out [(0, "run1"), (1, "compile1"), (0, "run2"), (1, "remove1")] ∧
      out.Pairwise (fun a b => b.1 ≤ a.1) :=
  dequeue_order 4 8 [(0, "run1"), (1, "compile1"), (0, "run2"), (1, "remove1")]
    (by decide) (by decide)

/-- C12 refuted on an input: five jobs are submitted with priority 0, in the
order a, b, c, d, e, and all are accepted. The calls of `next_job` return
them in the order a, c, e, b, d: the job c, submitted after b, is taken
before it. -/
theorem equal_priorities_not_fifo :
    (addJobs (ThreadPool.new 4 8 : ThreadPool String)
        [(0, "a"), (0, "b"), (0, "c"), (0, "d"), (0, "e")]).jobsLeft = 5 ∧
    takeAll 5 (addJobs (ThreadPool.new 4 8)
        [(0, "a"), (0, "b"), (0, "c"), (0, "d"), (0, "e")])
      = [some "a", some "c", some "e", some "b", some "d"] := by
  refine ⟨by decide, by decide⟩

end Heap

/-! ## Removal, cleaning and the module cache -/

section RegistryMore

variable {Val Heap : Type}

theorem massign_massign_same {K V : Type} [DecidableEq K] (k : K) (v : V) (m : List (K × V)) :
    massign k v (massign k v m) = massign k v m := by
  induction m with
  | nil => simp [massign]
  | cons q m ih =>
    obtain ⟨k₁, v₁⟩ := q
    by_cases h : k₁ = k
    · simp [massign, h]
    · simp [massign, h, ih]

theorem resetIfPresent_idem (s : V8Runner Val Heap) (key : ConvNodePair) :
    resetIfPresent (resetIfPresent s key) key = resetIfPresent s key := by
  cases h : mfind key s._functions with
  | none =>
    have e : resetIfPresent s key = s := by simp [resetIfPresent, h]
    rw [e, e]
  | some v =>
    have e : resetIfPresent s key = { s with _functions := massign key none s._functions } := by
      simp [resetIfPresent, h]
    rw [e]
    simp [resetIfPresent, mfind_massign_self, massign_massign_same]

/-- C16: for every state and every pair, compiled or not, `remove` returns
`NO_ERR`; a second `remove` of the pair returns the same tuple and leaves the
state the first one left; and when the pair has no entry, `remove` leaves the
state as it was, so that a following `run` returns `NOT_FOUND_PAIR_ERR`. -/
theorem remove_idempotent (E : V8 Val Heap) (s : V8Runner Val Heap) (conv node : String) :
    (remove s conv node).1.1 = STATUS.NO_ERR ∧
    remove (remove s conv node).2 conv node = remove s conv node ∧
    (mfind (conv, node) s._functions = none →
      (remove s conv node).2 = s ∧
      mfind (conv, node) (remove s conv node).2._functions = none ∧
      ∀ (data : String) (threadId : Nat) (currentTime : Int), ∃ msg,
        run E (remove s conv node).2 conv node data threadId currentTime
          = some ((STATUS.NOT_FOUND_PAIR_ERR, msg), (remove s conv node).2)) := by
  refine ⟨rfl, ?_, ?_⟩
  · simp only [remove, _remove]
    rw [resetIfPresent_idem]
  · intro h
    have e : (remove s conv node).2 = s := by
      simp [remove, _remove, resetIfPresent, h]
    rw [e]
    exact ⟨rfl, h, fun data threadId currentTime =>
      ⟨_, run_not_found E s conv node data threadId currentTime h⟩⟩

theorem remove_idempotent_witness :
    (remove sampleRunner "c" "n").2 = sampleRunner ∧
    mfind ("c", "n") (remove sampleRunner "c" "n").2._functions = none ∧
    ∀ (data : String) (threadId : Nat) (currentTime : Int), ∃ msg,
      run sampleV8 (remove sampleRunner "c" "n").2 "c" "n" data threadId currentTime
        = some ((STATUS.NOT_FOUND_PAIR_ERR, msg), (remove sampleRunner "c" "n").2) :=
  (remove_idempotent sampleV8 sampleRunner "c" "n").2.2 (by decide)

/-- C17: for every state, after `cleanData` the counts of nodes and of
conversations are zero, the count of isolates is what it was, and `run`
returns `NOT_FOUND_PAIR_ERR` for every pair. -/
theorem cleanData_clears (E : V8 Val Heap) (s : V8Runner Val Heap) :
    nodes_count (cleanData s) = 0 ∧ convs_count (cleanData s) = 0 ∧
    isolates_count (cleanData s) = isolates_count s ∧
    ∀ (conv node data : String) (threadId : Nat) (currentTime : Int), ∃ msg,
      run E (cleanData s) conv node data threadId currentTime
        = some ((STATUS.NOT_FOUND_PAIR_ERR, msg), cleanData s) := by
  refine ⟨rfl, rfl, rfl, ?_⟩
  intro conv node data threadId currentTime
  exact ⟨_, run_not_found E (cleanData s) conv node data threadId currentTime rfl⟩

/-- C19: when reading the file `_pathToLibs / fileName` fails, whatever the
cache holds, `updateRequireCache` returns `CACHED_REQUIRE_FILE_ERR` with the
text of the read error and leaves the whole state, the cache included, as it
was; what the cache held under that name is still returned by
`getRequireCachedFile`. -/
theorem updateRequireCache_of_unreadable (readFile : String → Except String String)
    (s : V8Runner Val Heap) (fileName what : String)
    (h : readFile (pathAppend s._pathToLibs fileName) = .error what) :
    updateRequireCache readFile s fileName = ((STATUS.CACHED_REQUIRE_FILE_ERR, what), s) ∧
    (updateRequireCache readFile s fileName).2._requireCache = s._requireCache ∧
    getRequireCachedFile (updateRequireCache readFile s fileName).2 fileName
      = getRequireCachedFile s fileName := by
  have e : updateRequireCache readFile s fileName
      = ((STATUS.CACHED_REQUIRE_FILE_ERR, what), s) := by
    simp [updateRequireCache, _getRequireFile, h]
  rw [e]
  exact ⟨rfl, rfl, rfl⟩

theorem updateRequireCache_of_unreadable_witness :
    updateRequireCache noFiles { sampleRunner with _requireCache := [("libs/momen.js", "old")] }
        "libs/momen.js"
      = ((STATUS.CACHED_REQUIRE_FILE_ERR, "Error opening file: /libs/libs/momen.js"),
          { sampleRunner with _requireCache := [("libs/momen.js", "old")] }) :=
  (updateRequireCache_of_unreadable noFiles
    { sampleRunner with _requireCache := [("libs/momen.js", "old")] } "libs/momen.js"
    "Error opening file: /libs/libs/momen.js" rfl).1

theorem keys_massign_found {K V : Type} [DecidableEq K] {k : K} (v : V) (m : List (K × V))
    (h : (mfind k m).isSome = true) : (massign k v m).map Prod.fst = m.map Prod.fst := by
  induction m with
  | nil => simp [mfind] at h
  | cons q m ih =>
    obtain ⟨k₁, v₁⟩ := q
    by_cases h₁ : k₁ = k
    · simp [massign, h₁]
    · simp only [mfind, h₁, if_false] at h
      simp [massign, h₁, ih h]

theorem keys_massign_missing {K V : Type} [DecidableEq K] {k : K} (v : V) (m : List (K × V))
    (h : mfind k m = none) : (massign k v m).map Prod.fst = m.map Prod.fst ++ [k] := by
  induction m with
  | nil => simp [massign]
  | cons q m ih =>
    obtain ⟨k₁, v₁⟩ := q
    by_cases h₁ : k₁ = k
    · simp [mfind, h₁] at h
    · simp only [mfind, h₁, if_false] at h
      simp [massign, h₁, ih h]

theorem mfind_eq_none_iff {K V : Type} [DecidableEq K] (k : K) (m : List (K × V)) :
    mfind k m = none ↔ k ∉ m.map Prod.fst := by
  induction m with
  | nil => simp [mfind]
  | cons q m ih =>
    obtain ⟨k₁, v₁⟩ := q
    by_cases h₁ : k₁ = k
    · simp [mfind, h₁]
    · simp only [mfind, h₁, if_false, ih, List.map_cons, List.mem_cons, not_or]
      exact ⟨fun h => ⟨fun e => h₁ e.symm, h⟩, fun h => h.2⟩

/-- What `massign` does to the list of keys: nothing when the key is there,
and the key is added at the end when it is not. -/
theorem keys_massign {K V : Type} [DecidableEq K] (k : K) (v : V) (m : List (K × V)) :
    (k ∈ m.map Prod.fst ∧ (massign k v m).map Prod.fst = m.map Prod.fst) ∨
    (k ∉ m.map Prod.fst ∧ (massign k v m).map Prod.fst = m.map Prod.fst ++ [k]) := by
  cases h : mfind k m with
  | none => exact Or.inr ⟨(mfind_eq_none_iff k m).mp h, keys_massign_missing v m h⟩
  | some w =>
    refine Or.inl ⟨?_, keys_massign_found v m (by rw [h]; rfl)⟩
    by_contra hn
    rw [(mfind_eq_none_iff k m).mpr hn] at h
    cases h

theorem resetIfPresent_keys (s : V8Runner Val Heap) (key : ConvNodePair) :
    (resetIfPresent s key)._functions.map Prod.fst = s._functions.map Prod.fst := by
  unfold resetIfPresent
  split
  · rename_i v hv
    exact keys_massign_found _ _ (by rw [hv]; rfl)
  · rfl

theorem compile_ok_keys (E : V8 Val Heap) (s : V8Runner Val Heap) (conv node src d : String)
    (s' : V8Runner Val Heap)
    (h : _compile E s conv node src = some ((STATUS.NO_ERR, d), s')) :
    Grown (s._convs.map Prod.fst) (s'._convs.map Prod.fst) conv ∧
    Grown (s._functions.map Prod.fst) (s'._functions.map Prod.fst) (conv, node) := by
  obtain ⟨isolate, s2, heap, v, heap', h1, -, -, -, hs⟩ := compile_ok E s conv node src d s' h
  have e1 := (resetIfPresent_frame s (conv, node)).1
  have hf : s2._functions.map Prod.fst = s._functions.map Prod.fst := by
    rcases isolateForConv_cases _ s2 conv isolate h1 with ⟨-, h5⟩ | ⟨-, -, h5⟩ <;>
      rw [h5] <;> exact resetIfPresent_keys s _
  have hc : Grown (s._convs.map Prod.fst) (s2._convs.map Prod.fst) conv := by
    rcases isolateForConv_cases _ s2 conv isolate h1 with ⟨h4, h5⟩ | ⟨h4, -, h5⟩
    · left
      rw [e1] at h4
      refine ⟨?_, by rw [h5, e1]⟩
      by_contra hn
      rw [(mfind_eq_none_iff conv s._convs).mpr hn] at h4
      cases h4
    · right
      rw [e1] at h4
      refine ⟨(mfind_eq_none_iff conv s._convs).mp h4, ?_⟩
      rw [h5]
      show (massign conv isolate (resetIfPresent s (conv, node))._convs).map Prod.fst = _
      rw [e1]
      exact keys_massign_missing _ _ h4
  subst hs
  refine ⟨hc, ?_⟩
  show Grown _ ((massign (conv, node) _ s2._functions).map Prod.fst) _
  rw [← hf]
  exact keys_massign _ _ _

theorem Grown.nodup {K : Type} {l l' : List K} {k : K} (h : Grown l l' k) (hn : l.Nodup) :
    l'.Nodup := by
  rcases h with ⟨-, e⟩ | ⟨hk, e⟩
  · rw [e]; exact hn
  · rw [e]
    exact List.nodup_append.mpr ⟨hn, List.nodup_singleton k, by
      intro a ha hb
      rw [List.mem_singleton] at hb
      exact hk (hb ▸ ha)⟩

theorem Grown.mem {K : Type} {l l' : List K} {k : K} (h : Grown l l' k) (a : K) :
    a ∈ l' ↔ a ∈ l ∨ a = k := by
  rcases h with ⟨hk, e⟩ | ⟨-, e⟩
  · rw [e]
    exact ⟨Or.inl, fun h => h.elim id fun e => e ▸ hk⟩
  · rw [e]; simp

theorem step_keys (E : V8 Val Heap) (s s' : V8Runner Val Heap) (op : Op)
    (h : step E s op = some s') (hop : op ≠ Op.cleanData) (hc : ∀ c n src, op ≠ Op.compile c n src) :
    s'._convs = s._convs ∧ s'._functions.map Prod.fst = s._functions.map Prod.fst := by
  cases op with
  | compile conv node src => exact absurd rfl (hc conv node src)
  | remove conv node =>
    simp only [step, remove, _remove, Option.some.injEq] at h
    rw [← h]
    exact ⟨(resetIfPresent_frame s _).1, resetIfPresent_keys s _⟩
  | run conv node data threadId currentTime =>
    simp only [step, run, Option.map_eq_some'] at h
    obtain ⟨⟨r, t⟩, h1, h2⟩ := h
    subst h2
    have := run_frame E s conv node data threadId currentTime r _ h1
    exact ⟨this.2.1, by rw [this.1]⟩
  | checkCode src data threadId =>
    simp only [step, checkCode, Option.some.injEq] at h
    obtain ⟨calls, hx⟩ := checkCode_frame E s src data threadId
    rw [← h, hx]
    exact ⟨rfl, rfl⟩
  | cleanData => exact absurd rfl hop

theorem stepsCompiling_keys (E : V8 Val Heap) (ops : List Op) (s s' : V8Runner Val Heap)
    (hops : ∀ op ∈ ops, op ≠ Op.cleanData) (h : stepsCompiling E s ops = some s')
    (hn : (s._convs.map Prod.fst).Nodup ∧ (s._functions.map Prod.fst).Nodup) :
    ((s'._convs.map Prod.fst).Nodup ∧ (s'._functions.map Prod.fst).Nodup) ∧
    (∀ c, c ∈ s'._convs.map Prod.fst ↔ c ∈ s._convs.map Prod.fst ∨ c ∈ compiledConvs ops) ∧
    (∀ p, p ∈ s'._functions.map Prod.fst ↔
      p ∈ s._functions.map Prod.fst ∨ p ∈ compiledPairs ops) := by
  induction ops generalizing s with
  | nil =>
    simp only [stepsCompiling, Option.some.injEq] at h
    subst h
    simp [compiledConvs, compiledPairs, hn]
  | cons op ops ih =>
    have hops' : ∀ o ∈ ops, o ≠ Op.cleanData := fun o ho => hops o (List.mem_cons_of_mem _ ho)
    by_cases hcomp : ∃ c n src, op = Op.compile c n src
    · obtain ⟨c, n, src, rfl⟩ := hcomp
      simp only [stepsCompiling] at h
      cases hres : compile E s c n src with
      | none => simp [hres] at h
      | some r =>
        obtain ⟨⟨st, d⟩, t⟩ := r
        cases st <;> simp only [hres] at h <;> try cases h
        obtain ⟨g1, g2⟩ := compile_ok_keys E s c n src d t hres
        obtain ⟨a1, a2, a3⟩ := ih t hops' h ⟨g1.nodup hn.1, g2.nodup hn.2⟩
        refine ⟨a1, ?_, ?_⟩
        · intro x
          rw [a2 x, g1.mem x]
          simp only [compiledConvs, List.mem_cons]
          tauto
        · intro x
          rw [a3 x, g2.mem x]
          simp only [compiledPairs, List.mem_cons]
          tauto
    · have hc : ∀ c n src, op ≠ Op.compile c n src := fun c n src e => hcomp ⟨c, n, src, e⟩
      have hstep : ∃ t, step E s op = some t ∧ stepsCompiling E t ops = some s' := by
        cases op with
        | compile c n src => exact absurd rfl (hc c n src)
        | remove c n => simpa [stepsCompiling, Option.bind_eq_some] using h
        | run c n data threadId currentTime =>
          simpa [stepsCompiling, Option.bind_eq_some] using h
        | checkCode src data threadId => simpa [stepsCompiling, Option.bind_eq_some] using h
        | cleanData => simpa [stepsCompiling, Option.bind_eq_some] using h
      obtain ⟨t, h1, h2⟩ := hstep
      obtain ⟨e1, e2⟩ := step_keys E s t op h1 (hops op (List.mem_cons_self _ _)) hc
      have hn' : (t._convs.map Prod.fst).Nodup ∧ (t._functions.map Prod.fst).Nodup := by
        rw [e1, e2]; exact hn
      obtain ⟨a1, a2, a3⟩ := ih t hops' h2 hn'
      have hcc : compiledConvs (op :: ops) = compiledConvs ops := by
        cases op with
        | compile c n src => exact absurd rfl (hc c n src)
        | remove c n => rfl
        | run c n data threadId currentTime => rfl
        | checkCode src data threadId => rfl
        | cleanData => rfl
      have hcp : compiledPairs (op :: ops) = compiledPairs ops := by
        cases op with
        | compile c n src => exact absurd rfl (hc c n src)
        | remove c n => rfl
        | run c n data threadId currentTime => rfl
        | checkCode src data threadId => rfl
        | cleanData => rfl
      rw [hcc, hcp]
      refine ⟨a1, ?_, ?_⟩
      · intro x; rw [a2 x, e1]
      · intro x; rw [a3 x, e2]

/-- C18: from a registry without conversations and functions, after any
sequence of compiles that all return `NO_ERR`, interleaved with removes, runs
and checks, `convs_count` is the number of distinct conversations compiled and
`nodes_count` the number of distinct pairs compiled; and in every state a
remove, and a run that returns, leave both counts as they were. -/
theorem counts_after_compiles (E : V8 Val Heap) (ops : List Op) (s s' : V8Runner Val Heap)
    (hempty : s._convs = [] ∧ s._functions = [])
    (hops : ∀ op ∈ ops, op ≠ Op.cleanData) (h : stepsCompiling E s ops = some s') :
    convs_count s' = (compiledConvs ops).dedup.length ∧
    nodes_count s' = (compiledPairs ops).dedup.length ∧
    (∀ (t : V8Runner Val Heap) (conv node : String),
      convs_count (remove t conv node).2 = convs_count t ∧
      nodes_count (remove t conv node).2 = nodes_count t) ∧
    (∀ (t t' : V8Runner Val Heap) (conv node data : String) (threadId : Nat)
      (currentTime : Int) (r : Ret),
      run E t conv node data threadId currentTime = some (r, t') →
      convs_count t' = convs_count t ∧ nodes_count t' = nodes_count t) := by
  obtain ⟨⟨n1, n2⟩, a2, a3⟩ := stepsCompiling_keys E ops s s' hops h
    (by rw [hempty.1, hempty.2]; exact ⟨List.nodup_nil, List.nodup_nil⟩)
  refine ⟨?_, ?_, ?_, ?_⟩
  · have hp : List.Perm (s'._convs.map Prod.fst) (compiledConvs ops).dedup := by
      refine (List.perm_ext_iff_of_nodup n1 (List.nodup_dedup _)).mpr fun c => ?_
      rw [a2 c, hempty.1, List.mem_dedup]
      simp
    have := hp.length_eq
    simpa [convs_count] using this
  · have hp : List.Perm (s'._functions.map Prod.fst) (compiledPairs ops).dedup := by
      refine (List.perm_ext_iff_of_nodup n2 (List.nodup_dedup _)).mpr fun c => ?_
      rw [a3 c, hempty.2, List.mem_dedup]
      simp
    have := hp.length_eq
    simpa [nodes_count] using this
  · intro t conv node
    simp only [remove, _remove, convs_count, nodes_count]
    exact ⟨by rw [(resetIfPresent_frame t _).1], resetIfPresent_length t _⟩
  · intro t t' conv node data threadId currentTime r hr
    have := run_frame E t conv node data threadId currentTime r t' hr
    simp only [convs_count, nodes_count]
    exact ⟨by rw [this.2.1], by rw [this.1]⟩

theorem counts_after_compiles_witness :
    convs_count (sampleAfter [.compile "conv" "node" "f", .compile "conv" "node1" "g",
        .run "conv" "node" "1" 0 7, .remove "conv" "node", .compile "conv1" "node" "h",
        .compile "conv" "node" "k"]) = 2 ∧
    nodes_count (sampleAfter [.compile "conv" "node" "f", .compile "conv" "node1" "g",
        .run "conv" "node" "1" 0 7, .remove "conv" "node", .compile "conv1" "node" "h",
        .compile "conv" "node" "k"]) = 3 :=
  have key := counts_after_compiles sampleV8 [.compile "conv" "node" "f",
    .compile "conv" "node1" "g", .run "conv" "node" "1" 0 7, .remove "conv" "node",
    .compile "conv1" "node" "h", .compile "conv" "node" "k"] sampleRunner
    (sampleAfter [.compile "conv" "node" "f", .compile "conv" "node1" "g",
        .run "conv" "node" "1" 0 7, .remove "conv" "node", .compile "conv1" "node" "h",
        .compile "conv" "node" "k"]) ⟨rfl, rfl⟩ (by decide) rfl
  ⟨key.1.trans (by decide), key.2.1.trans (by decide)⟩

theorem loadEntry_find_other (readFile : String → Except String String)
    (cache cache' : List (String × String)) (e : DirEntry) (k : String)
    (h : loadEntry readFile cache e = some cache')
    (hk : e.isDirectory = false → extension e.path = ".js".toList → libPath e.path ≠ some k) :
    mfind k cache' = mfind k cache := by
  unfold loadEntry at h
  by_cases hc : e.isDirectory = false ∧ extension e.path = ".js".toList
  · simp only [hc, and_self, if_true] at h
    by_cases hr : (_getRequireFile readFile e.path).1 ≠ STATUS.NO_ERR
    · rw [if_pos hr] at h
      simp only [Option.some.injEq] at h
      rw [← h]
    · rw [if_neg hr] at h
      cases hl : libPath e.path with
      | none => simp [hl] at h
      | some key =>
        simp only [hl, Option.some.injEq] at h
        rw [← h]
        have hne : k ≠ key := by
          intro e'
          exact hk hc.1 hc.2 (by rw [hl, e'])
        exact mfind_massign_ne _ _ hne
  · simp only [hc, if_false, Option.some.injEq] at h
    rw [← h]

theorem loadEntries_find_other (readFile : String → Except String String)
    (entries : List DirEntry) (cache cache' : List (String × String)) (k : String)
    (h : entries.foldlM (loadEntry readFile) cache = some cache')
    (hk : ∀ e ∈ entries, e.isDirectory = false → extension e.path = ".js".toList →
      libPath e.path ≠ some k) :
    mfind k cache' = mfind k cache := by
  induction entries generalizing cache with
  | nil =>
    simp only [List.foldlM_nil, pure, Option.some.injEq] at h
    rw [← h]
  | cons e es ih =>
    simp only [List.foldlM_cons, bind, Option.bind_eq_some] at h
    obtain ⟨c1, h1, h2⟩ := h
    rw [ih c1 h2 (fun x hx => hk x (List.mem_cons_of_mem _ hx)),
      loadEntry_find_other readFile cache c1 e k h1 (hk e (List.mem_cons_self _ _))]

/-- C20, by the code: when the file system is as it was for `loadLibs`, a key
that `loadLibs` took from a script whose path is `_pathToLibs / key` (a script
in a directory directly under the library directory), with no script after
it in the iteration that has the same key, holds the content of that script;
`updateRequireCache` of the key returns `NO_ERR`, and afterwards every name
is cached with the text it had, under the same keys. -/
theorem update_after_load (readFile : String → Except String String)
    (before after : List DirEntry) (p k content : String) (s s1 : V8Runner Val Heap)
    (hload : loadLibs readFile (before ++ ⟨p, false⟩ :: after) s = some s1)
    (hext : extension p = ".js".toList) (hread : readFile p = .ok content)
    (hkey : libPath p = some k) (hpath : p = pathAppend s._pathToLibs k)
    (hlast : ∀ e ∈ after, e.isDirectory = false → extension e.path = ".js".toList →
      libPath e.path ≠ some k) :
    getRequireCachedFile s1 k = (STATUS.NO_ERR, content) ∧
    ∃ s2, updateRequireCache readFile s1 k = ((STATUS.NO_ERR, ""), s2) ∧
      getRequireCachedFile s2 k = (STATUS.NO_ERR, content) ∧
      (∀ k', mfind k' s2._requireCache = mfind k' s1._requireCache) ∧
      s2._requireCache.map Prod.fst = s1._requireCache.map Prod.fst := by
  simp only [loadLibs, Option.map_eq_some'] at hload
  obtain ⟨cache, hfold, hs1⟩ := hload
  subst hs1
  rw [List.foldlM_append] at hfold
  simp only [bind, Option.bind_eq_some, List.foldlM_cons] at hfold
  obtain ⟨c0, -, c1, hstep, hrest⟩ := hfold
  have hc1 : c1 = massign k content c0 := by
    simp [loadEntry, hext, _getRequireFile, hread, hkey] at hstep
    exact hstep.symm
  have hfind : mfind k cache = some content := by
    rw [loadEntries_find_other readFile after c1 cache k hrest hlast, hc1]
    exact mfind_massign_self _ _ _
  have hget : ∀ (c : List (String × String)), mfind k c = some content →
      getRequireCachedFile ({ s with _requireCache := c } : V8Runner Val Heap) k
        = (STATUS.NO_ERR, content) := by
    intro c hc
    simp [getRequireCachedFile, hc]
  refine ⟨hget cache hfind, { s with _requireCache := massign k content cache }, ?_, ?_, ?_, ?_⟩
  · simp [updateRequireCache, _getRequireFile, ← hpath, hread]
  · exact hget _ (mfind_massign_self _ _ _)
  · intro k'
    show mfind k' (massign k content cache) = mfind k' cache
    by_cases hk' : k' = k
    · rw [hk', mfind_massign_self, hfind]
    · exact mfind_massign_ne _ _ hk'
  · show (massign k content cache).map Prod.fst = cache.map Prod.fst
    exact keys_massign_found _ _ (by rw [hfind]; rfl)

theorem update_after_load_witness :
    getRequireCachedFile ((loadLibs flatFiles flatEntries sampleRunner).getD sampleRunner)
      "libs/moment.js" = (STATUS.NO_ERR, "moment") ∧
    ∃ s2, updateRequireCache flatFiles
        ((loadLibs flatFiles flatEntries sampleRunner).getD sampleRunner) "libs/moment.js"
          = ((STATUS.NO_ERR, ""), s2) ∧
      getRequireCachedFile s2 "libs/moment.js" = (STATUS.NO_ERR, "moment") ∧
      (∀ k', mfind k' s2._requireCache
        = mfind k' ((loadLibs flatFiles flatEntries sampleRunner).getD sampleRunner)._requireCache) ∧
      s2._requireCache.map Prod.fst
        = ((loadLibs flatFiles flatEntries sampleRunner).getD sampleRunner)._requireCache.map
            Prod.fst :=
  update_after_load flatFiles [⟨"/libs/libs", true⟩] [] "/libs/libs/moment.js" "libs/moment.js"
    "moment" sampleRunner ((loadLibs flatFiles flatEntries sampleRunner).getD sampleRunner)
    rfl (by decide) rfl (by decide) (by decide) (by simp)

/-- C20 refuted on an input: the library directory `/libs` holds the one
script `/libs/a/b/c.js`. `loadLibs` caches it under the key `b/c.js`, and with
the file system unchanged `updateRequireCache` of that key reads
`/libs/b/c.js`, which does not exist, and returns `CACHED_REQUIRE_FILE_ERR`. -/
theorem update_of_nested_key_fails :
    (loadLibs nestedFiles nestedEntries sampleRunner).map (fun s => s._requireCache)
      = some [("b/c.js", "x")] ∧
    (loadLibs nestedFiles nestedEntries sampleRunner).map
        (fun s => (updateRequireCache nestedFiles s "b/c.js").1)
      = some (STATUS.CACHED_REQUIRE_FILE_ERR, "Error opening file: /libs/b/c.js") := by
  refine ⟨by decide, by decide⟩

end RegistryMore

/-! ## The watchdog and failing jobs -/

section Watchdog

variable {Val Heap F : Type}

open concurrent concurrent.ThreadPool

/-- The engine calls `checkSlot` makes: none for a null slot or a slot that is
not working, and the pair of calls for a working slot exactly when the
converted difference exceeds the budget and the isolate is in use. -/
theorem checkSlot_calls (maxExecutionTime : Nat) (currentTime : Int)
    (isInUse : Isolate → Bool) (item : Option ScriptWorkTime) (c : V8Call Val)
    (h : c ∈ (checkSlot maxExecutionTime currentTime isInUse item : List (V8Call Val))) :
    ∃ w, item = some w ∧ w.isWorking = true ∧ isInUse w.isolate = true ∧
      maxExecutionTime < timeExecution currentTime w.started ∧
      (c = .terminateExecution w.isolate ∨ c = .discardThreadSpecificMetadata w.isolate) := by
  unfold checkSlot at h
  cases item with
  | none => simp at h
  | some w =>
    refine ⟨w, rfl, ?_⟩
    by_cases h1 : w.isWorking = true
    · by_cases h2 : maxExecutionTime < timeExecution currentTime w.started
      · by_cases h3 : isInUse w.isolate = true
        · simp only [h1, h2, h3, if_true, List.mem_cons, List.mem_singleton,
            List.not_mem_nil, or_false] at h
          exact ⟨h1, h3, h2, h⟩
        · simp [h1, h2, h3] at h
      · simp [h1, h2] at h
    · simp [h1] at h

/-- C15, evaluated: worker 0 of `sampleTimed` runs a script it started at the
clock reading 1001, and the budget is 1000 ms. A pass of the watchdog whose
snapshot is 1000, taken before the script started, converts the difference
`-1` to `std::size_t`, finds `2^64 - 1 > 1000` and calls `TerminateExecution`
on the isolate of the slot. -/
theorem watchdog_terminates_script_started_after_snapshot :
    sampleTimed._timing[0]? = some (some ⟨true, 1, 1001⟩) ∧
    sampleTimed._maxExecutionTime = 1000 ∧
    timeExecution 1000 1001 = 2 ^ 64 - 1 ∧
    (timeCheckerPass sampleTimed 1000 (fun _ => true)).v8log
      = [.terminateExecution 1, .discardThreadSpecificMetadata 1] := by
  refine ⟨by decide, by decide, by decide, by decide⟩

/-- C14, by the code: a pass of the loop of `process` whose job returns runs
every statement after the call, so that `busyThreads` is incremented and
decremented, `jobsPerThread[threadNum]` and `jobsDone` are incremented,
`jobsLeft` is decremented and the worker is back at the head of the loop. A
pass whose job throws ends in `std::terminate`, for nothing catches the
exception: `busyThreads` has been incremented and no other statement has
run. -/
theorem pass_of_job (p p1 : ThreadPool F) (threadNum : Nat) (outcome : F → JobOutcome)
    (job : F) (n : Int) (hnext : next_job p = some (some job, p1))
    (hidx : p1.jobsPerThread[threadNum]? = some n) :
    (outcome job = JobOutcome.returned →
      ThreadPool.pass p threadNum outcome = some (Pass.completed (some job)
        { p1 with
          busyThreads := toInt (toInt (p1.busyThreads + 1) - 1)
          jobsPerThread := p1.jobsPerThread.set threadNum (toInt (n + 1))
          jobsLeft := toInt (p1.jobsLeft - 1)
          jobsDone := toInt (p1.jobsDone + 1) })) ∧
    (outcome job = JobOutcome.threw →
      ThreadPool.pass p threadNum outcome = some (Pass.terminated job
        { p1 with busyThreads := toInt (p1.busyThreads + 1) })) := by
  constructor
  · intro h
    simp [ThreadPool.pass, hnext, h, endJob, beginJob, hidx]
  · intro h
    simp [ThreadPool.pass, hnext, h, beginJob]

theorem pass_of_job_witness :
    ThreadPool.pass samplePool 2 (fun _ => JobOutcome.returned) = some (Pass.completed (some "boom")
      { samplePool with
        jobs := []
        jobsPerThread := [0, 0, 1, 0]
        jobsLeft := 0
        jobsDone := 1 }) :=
  (pass_of_job samplePool { samplePool with jobs := [] } 2 (fun _ => JobOutcome.returned)
    "boom" 0 rfl rfl).1 rfl

/-- C14 refuted on an input: worker 0 takes the job `boom` off `samplePool`
and the job throws. The pass ends in `std::terminate` with `busyThreads` at 1
and `jobsLeft` at 1, `jobsDone` at 0 and `jobsPerThread` all zero: nothing was
decremented or incremented after the job, and the loop is not re-entered. -/
theorem failing_job_is_not_contained :
    ThreadPool.pass samplePool 0 (fun _ => JobOutcome.threw) = some (Pass.terminated "boom"
      { samplePool with jobs := [], busyThreads := 1 }) ∧
    ({ samplePool with jobs := [], busyThreads := 1 } : ThreadPool String).jobsLeft = 1 ∧
    ({ samplePool with jobs := [], busyThreads := 1 } : ThreadPool String).jobsDone = 0 ∧
    ({ samplePool with jobs := [], busyThreads := 1 } : ThreadPool String).jobsPerThread
      = [0, 0, 0, 0] := by
  refine ⟨rfl, by decide, by decide, by decide⟩

end Watchdog

/-! ## Shutdown of the pool -/

section Shutdown

open concurrent concurrent.ThreadPool

variable {F : Type}

theorem countP_set_of_get {α : Type} (p : α → Bool) (l : List α) (t : Nat) (w w' : α)
    (h : l.get? t = some w) :
    (l.set t w').countP p + (if p w = true then 1 else 0) =
      l.countP p + (if p w' = true then 1 else 0) := by
  induction l generalizing t with
  | nil => simp at h
  | cons a rest ih =>
    cases t with
    | zero =>
      simp only [List.get?_cons_zero, Option.some.injEq] at h
      subst h
      simp only [List.set_cons_zero, List.countP_cons]
      omega
    | succ t =>
      simp only [List.get?_cons_succ] at h
      have := ih t h
      simp only [List.set_cons_succ, List.countP_cons]
      omega

theorem filterMap_set_perm {α β : Type} (f : α → Option β) (l : List α) (t : Nat) (w w' : α)
    (h : l.get? t = some w) :
    List.Perm ((l.set t w').filterMap f ++ (f w).toList)
      (l.filterMap f ++ (f w').toList) := by
  induction l generalizing t with
  | nil => simp at h
  | cons a rest ih =>
    cases t with
    | zero =>
      simp only [List.get?_cons_zero, Option.some.injEq] at h
      subst h
      simp only [List.set_cons_zero, List.filterMap_cons]
      cases f a with
      | none =>
        cases f w' with
        | none => exact List.Perm.refl _
        | some y =>
          simp only [Option.toList, List.append_nil]
          exact (List.perm_append_singleton y _).symm
      | some x =>
        cases f w' with
        | none =>
          simp only [Option.toList, List.append_nil]
          exact List.perm_append_singleton x _
        | some y =>
          simp only [Option.toList, List.cons_append]
          exact ((List.perm_append_singleton x _).cons y).trans
            ((List.Perm.swap x y _).trans ((List.perm_append_singleton y _).symm.cons x))
    | succ t =>
      simp only [List.get?_cons_succ] at h
      have := ih t h
      simp only [List.set_cons_succ, List.filterMap_cons]
      cases f a with
      | none => exact this
      | some b => exact List.Perm.cons b this

theorem toInt_toInt_add (x k : Int) : toInt (toInt x + k) = toInt (x + k) := by
  unfold toInt
  omega

theorem toInt_toInt_sub (x k : Int) : toInt (toInt x - k) = toInt (x - k) := by
  unfold toInt
  omega

theorem toInt_lt (x : Int) : toInt x < 2 ^ 31 := by
  unfold toInt
  omega

theorem run_append (s : Threads F) (as bs : List (Action F)) :
    Threads.run s (as ++ bs) = (Threads.run s as).bind fun s' => Threads.run s' bs := by
  induction as generalizing s with
  | nil => rfl
  | cons a rest ih =>
    simp only [List.cons_append, Threads.run]
    cases Threads.act s a with
    | none => rfl
    | some s' => exact ih s'

theorem inv_busy (s s' : Threads F) (t : Nat) (hinv : Threads.Inv s)
    (h : Threads.act s (.busy t) = some s') : Threads.Inv s' := by
  simp only [Threads.act] at h
  split at h
  · rename_i job hget
    simp only [Option.some.injEq] at h
    subst h
    have c := fun p => countP_set_of_get p s.workers t (.taken job) (.running job) hget
    have c1 := c Worker.holds
    have c2 := c Worker.holdsJob
    have c3 := c Worker.pendingNoop
    have c4 := c Worker.returned
    have c5 := c Worker.alive
    have c6 := filterMap_set_perm Worker.toRun s.workers t (.taken job) (.running job) hget
    cases job <;>
    simp only [Worker.holds, Worker.holdsJob, Worker.pendingNoop, Worker.returned, Worker.alive,
      Worker.toRun, if_true, Bool.false_eq_true, if_false] at c1 c2 c3 c4 c5 c6
    all_goals
      refine ⟨hinv.heap, ?_, ?_, ?_, ?_, ?_⟩
      · dsimp only [beginJob]
        rw [hinv.done]; congr 1; omega
      · dsimp only [beginJob]
        have hp := hinv.perm
        rw [← Multiset.coe_eq_coe] at *
        simp only [← Multiset.coe_add, Option.toList, Multiset.coe_nil, add_zero] at *
        first
          | (rw [add_right_cancel c6]; exact hp)
          | (rw [c6]; exact hp)
      · intro hj
        obtain ⟨b1, b2, b3⟩ := hinv.before hj
        dsimp only [beginJob]
        exact ⟨b1, by rw [b2]; omega, by omega⟩
      · intro hj
        obtain ⟨a1, a2, a3⟩ := hinv.after hj
        dsimp only [beginJob]
        exact ⟨a1, by omega, by rw [a3]; congr 1; omega⟩
      · intro hj
        have := hinv.joined hj
        dsimp only
        omega
  · simp at h

theorem inv_unbusy (s s' : Threads F) (t : Nat) (hinv : Threads.Inv s)
    (h : Threads.act s (.unbusy t) = some s') : Threads.Inv s' := by
  simp only [Threads.act] at h
  split at h
  · rename_i job hget
    simp only [Option.some.injEq] at h
    subst h
    have c := fun p => countP_set_of_get p s.workers t (.ran job) (.unbusied job) hget
    have c1 := c Worker.holds
    have c2 := c Worker.holdsJob
    have c3 := c Worker.pendingNoop
    have c4 := c Worker.returned
    have c5 := c Worker.alive
    have c6 := filterMap_set_perm Worker.toRun s.workers t (.ran job) (.unbusied job) hget
    cases job <;>
    simp only [Worker.holds, Worker.holdsJob, Worker.pendingNoop, Worker.returned, Worker.alive,
      Worker.toRun, if_true, Bool.false_eq_true, if_false] at c1 c2 c3 c4 c5 c6
    all_goals
      refine ⟨hinv.heap, ?_, ?_, ?_, ?_, ?_⟩
      · dsimp only [beginJob]
        rw [hinv.done]; congr 1; omega
      · dsimp only [beginJob]
        have hp := hinv.perm
        rw [← Multiset.coe_eq_coe] at *
        simp only [← Multiset.coe_add, Option.toList, Multiset.coe_nil, add_zero] at *
        rw [c6]; exact hp
      · intro hj
        obtain ⟨b1, b2, b3⟩ := hinv.before hj
        dsimp only [beginJob]
        exact ⟨b1, by rw [b2]; omega, by omega⟩
      · intro hj
        obtain ⟨a1, a2, a3⟩ := hinv.after hj
        dsimp only [beginJob]
        exact ⟨a1, by omega, by rw [a3]; congr 1; omega⟩
      · intro hj
        have := hinv.joined hj
        dsimp only
        omega
  · simp at h

theorem inv_call (s s' : Threads F) (t : Nat) (hinv : Threads.Inv s)
    (h : Threads.act s (.call t) = some s') : Threads.Inv s' := by
  simp only [Threads.act] at h
  split at h
  · rename_i job hget
    simp only [Option.some.injEq] at h
    subst h
    have c := fun p => countP_set_of_get p s.workers t (.running job) (.ran job) hget
    have c1 := c Worker.holds
    have c2 := c Worker.holdsJob
    have c3 := c Worker.pendingNoop
    have c4 := c Worker.returned
    have c5 := c Worker.alive
    have c6 := filterMap_set_perm Worker.toRun s.workers t (.running job) (.ran job) hget
    cases job <;>
    simp only [Worker.holds, Worker.holdsJob, Worker.pendingNoop, Worker.returned, Worker.alive,
      Worker.toRun, if_true, Bool.false_eq_true, if_false] at c1 c2 c3 c4 c5 c6
    all_goals
      refine ⟨hinv.heap, ?_, ?_, ?_, ?_, ?_⟩
      · dsimp only [beginJob]
        simp only [List.length_append, Option.toList, List.length_singleton, List.length_nil]
        rw [hinv.done]; congr 1; push_cast; omega
      · dsimp only [beginJob]
        have hp := hinv.perm
        rw [← Multiset.coe_eq_coe] at *
        simp only [← Multiset.coe_add, Option.toList, Multiset.coe_nil, add_zero] at *
        first
          | (rw [c6]; exact hp)
          | (rw [hp, ← c6]; abel)
      · intro hj
        obtain ⟨b1, b2, b3⟩ := hinv.before hj
        dsimp only [beginJob]
        exact ⟨b1, by rw [b2]; omega, by omega⟩
      · intro hj
        obtain ⟨a1, a2, a3⟩ := hinv.after hj
        dsimp only [beginJob]
        exact ⟨a1, by omega, by rw [a3]; congr 1; omega⟩
      · intro hj
        have := hinv.joined hj
        dsimp only
        omega
  · simp at h

theorem inv_leave (s s' : Threads F) (t : Nat) (hinv : Threads.Inv s)
    (h : Threads.act s (.leave t) = some s') : Threads.Inv s' := by
  simp only [Threads.act] at h
  split at h
  · rename_i job hget
    simp only [Option.some.injEq] at h
    subst h
    have c := fun p => countP_set_of_get p s.workers t (.counted job) (.left job) hget
    have c1 := c Worker.holds
    have c2 := c Worker.holdsJob
    have c3 := c Worker.pendingNoop
    have c4 := c Worker.returned
    have c5 := c Worker.alive
    have c6 := filterMap_set_perm Worker.toRun s.workers t (.counted job) (.left job) hget
    cases job <;>
    simp only [Worker.holds, Worker.holdsJob, Worker.pendingNoop, Worker.returned, Worker.alive,
      Worker.toRun, if_true, Bool.false_eq_true, if_false] at c1 c2 c3 c4 c5 c6
    all_goals
      refine ⟨hinv.heap, ?_, ?_, ?_, ?_, ?_⟩
      · dsimp only [beginJob]
        rw [hinv.done]; congr 1; omega
      · dsimp only [beginJob]
        have hp := hinv.perm
        rw [← Multiset.coe_eq_coe] at *
        simp only [← Multiset.coe_add, Option.toList, Multiset.coe_nil, add_zero] at *
        rw [c6]; exact hp
      · intro hj
        obtain ⟨b1, b2, b3⟩ := hinv.before hj
        dsimp only [beginJob]
        exact ⟨b1, by rw [b2, toInt_of_range (by omega) (by omega)]; omega, by omega⟩
      · intro hj
        obtain ⟨a1, a2, a3⟩ := hinv.after hj
        dsimp only [beginJob]
        exact ⟨a1, by omega, by rw [a3, toInt_toInt_sub]; congr 1; omega⟩
      · intro hj
        have := hinv.joined hj
        dsimp only
        omega
  · simp at h

theorem inv_account (s s' : Threads F) (t : Nat) (hinv : Threads.Inv s)
    (h : Threads.act s (.account t) = some s') : Threads.Inv s' := by
  simp only [Threads.act] at h
  split at h
  · rename_i job hget
    simp only [Option.some.injEq] at h
    subst h
    have c := fun p => countP_set_of_get p s.workers t (.left job) .loopHead hget
    have c1 := c Worker.holds
    have c2 := c Worker.holdsJob
    have c3 := c Worker.pendingNoop
    have c4 := c Worker.returned
    have c5 := c Worker.alive
    have c6 := filterMap_set_perm Worker.toRun s.workers t (.left job) .loopHead hget
    cases job <;>
    simp only [Worker.holds, Worker.holdsJob, Worker.pendingNoop, Worker.returned, Worker.alive,
      Worker.toRun, if_true, Bool.false_eq_true, if_false] at c1 c2 c3 c4 c5 c6
    all_goals
      refine ⟨hinv.heap, ?_, ?_, ?_, ?_, ?_⟩
      · dsimp only [beginJob]
        rw [hinv.done, toInt_toInt_add]; congr 1; omega
      · dsimp only [beginJob]
        have hp := hinv.perm
        rw [← Multiset.coe_eq_coe] at *
        simp only [← Multiset.coe_add, Option.toList, Multiset.coe_nil, add_zero] at *
        rw [c6]; exact hp
      · intro hj
        obtain ⟨b1, b2, b3⟩ := hinv.before hj
        dsimp only [beginJob]
        exact ⟨b1, by rw [b2]; omega, by omega⟩
      · intro hj
        obtain ⟨a1, a2, a3⟩ := hinv.after hj
        dsimp only [beginJob]
        exact ⟨a1, by omega, by rw [a3]; congr 1; omega⟩
      · intro hj
        have := hinv.joined hj
        dsimp only
        omega
  · simp at h

theorem inv_count (s s' : Threads F) (t : Nat) (hinv : Threads.Inv s)
    (h : Threads.act s (.count t) = some s') : Threads.Inv s' := by
  simp only [Threads.act] at h
  split at h
  · rename_i job hget
    split at h
    swap
    · simp at h
    simp only [Option.some.injEq] at h
    subst h
    have c := fun p => countP_set_of_get p s.workers t (.unbusied job) (.counted job) hget
    have c1 := c Worker.holds
    have c2 := c Worker.holdsJob
    have c3 := c Worker.pendingNoop
    have c4 := c Worker.returned
    have c5 := c Worker.alive
    have c6 := filterMap_set_perm Worker.toRun s.workers t (.unbusied job) (.counted job) hget
    cases job <;>
    simp only [Worker.holds, Worker.holdsJob, Worker.pendingNoop, Worker.returned, Worker.alive,
      Worker.toRun, if_true, Bool.false_eq_true, if_false] at c1 c2 c3 c4 c5 c6
    all_goals
      refine ⟨hinv.heap, ?_, ?_, ?_, ?_, ?_⟩
      · dsimp only [beginJob]
        rw [hinv.done]; congr 1; omega
      · dsimp only [beginJob]
        have hp := hinv.perm
        rw [← Multiset.coe_eq_coe] at *
        simp only [← Multiset.coe_add, Option.toList, Multiset.coe_nil, add_zero] at *
        rw [c6]; exact hp
      · intro hj
        obtain ⟨b1, b2, b3⟩ := hinv.before hj
        dsimp only [beginJob]
        exact ⟨b1, by rw [b2]; omega, by omega⟩
      · intro hj
        obtain ⟨a1, a2, a3⟩ := hinv.after hj
        dsimp only [beginJob]
        exact ⟨a1, by omega, by rw [a3]; congr 1; omega⟩
      · intro hj
        have := hinv.joined hj
        dsimp only
        omega
  · simp at h

theorem inv_set_idle (s : Threads F) (t : Nat) (w w' : Worker F) (hinv : Threads.Inv s)
    (hget : s.workers.get? t = some w) (ha : w.alive = true)
    (h1 : w.holds = false) (h2 : w.holdsJob = false) (h3 : w.pendingNoop = false)
    (h4 : w.returned = false) (h6 : w.toRun = none)
    (k1 : w'.holds = false) (k2 : w'.holdsJob = false) (k3 : w'.pendingNoop = false)
    (k4 : w'.returned = false) (k6 : w'.toRun = none) :
    Threads.Inv { s with workers := s.workers.set t w' } := by
  have c := fun p => countP_set_of_get p s.workers t w w' hget
  have c1 := c Worker.holds
  have c2 := c Worker.holdsJob
  have c3 := c Worker.pendingNoop
  have c4 := c Worker.returned
  have c5 := c Worker.alive
  have c6 := filterMap_set_perm Worker.toRun s.workers t w w' hget
  simp only [ha, h1, h2, h3, h4, h6, k1, k2, k3, k4, k6, if_true, Bool.false_eq_true, if_false,
    Option.toList, List.append_nil] at c1 c2 c3 c4 c5 c6
  refine ⟨hinv.heap, ?_, ?_, ?_, ?_, ?_⟩
  · dsimp only
    rw [hinv.done]; congr 1; omega
  · exact hinv.perm.trans ((c6.symm.append_left _).append_right _)
  · intro hj
    obtain ⟨b1, b2, b3⟩ := hinv.before hj
    dsimp only
    exact ⟨b1, by rw [b2]; omega, by omega⟩
  · intro hj
    obtain ⟨a1, a2, a3⟩ := hinv.after hj
    dsimp only
    exact ⟨a1, by omega, by rw [a3]; congr 1; omega⟩
  · intro hj
    have := hinv.joined hj
    have hle : (if w'.alive = true then 1 else 0) ≤ 1 := by split <;> omega
    dsimp only
    omega

theorem inv_test (s s' : Threads F) (t : Nat) (hinv : Threads.Inv s)
    (h : Threads.act s (.test t) = some s') : Threads.Inv s' := by
  simp only [Threads.act] at h
  split at h
  · rename_i hget
    simp only [Option.some.injEq] at h
    subst h
    split
    · exact inv_set_idle s t .loopHead .exited hinv hget rfl rfl rfl rfl rfl rfl rfl rfl rfl rfl rfl
    · exact inv_set_idle s t .loopHead .waiting hinv hget rfl rfl rfl rfl rfl rfl rfl rfl rfl rfl rfl
  · simp at h

theorem inv_nextJob (s s' : Threads F) (t : Nat) (hinv : Threads.Inv s)
    (h : Threads.act s (.nextJob t) = some s') : Threads.Inv s' := by
  simp only [Threads.act] at h
  split at h
  · rename_i hget
    split at h
    swap
    · simp at h
    rename_i job p hnext
    simp only [Option.some.injEq] at h
    subst h
    have c := fun q => countP_set_of_get q s.workers t .waiting (.taken job) hget
    have c1 := c Worker.holds
    have c2 := c Worker.holdsJob
    have c3 := c Worker.pendingNoop
    have c4 := c Worker.returned
    have c5 := c Worker.alive
    have c6 := filterMap_set_perm Worker.toRun s.workers t .waiting (.taken job) hget
    unfold next_job at hnext
    by_cases hs : s.pool.stop = false
    · rw [if_pos hs] at hnext
      cases htop : s.pool.jobs.head? with
      | none => rw [htop] at hnext; simp at hnext
      | some top =>
        rw [htop] at hnext
        simp only [Option.some.injEq, Prod.mk.injEq] at hnext
        obtain ⟨hjob, hp⟩ := hnext
        subst hjob
        subst hp
        simp only [Worker.holds, Worker.holdsJob, Worker.pendingNoop, Worker.returned,
          Worker.alive, Worker.toRun, if_true, Bool.false_eq_true, if_false] at c1 c2 c3 c4 c5 c6
        have hlen := pop_length s.pool.jobs
        have hpos : 0 < s.pool.jobs.length := by
          cases hj : s.pool.jobs with
          | nil => rw [hj] at htop; simp at htop
          | cons a rest => simp
        have hpop : List.Perm ([top.2] ++ (pop s.pool.jobs).map Prod.snd)
            (s.pool.jobs.map Prod.snd) :=
          (pop_perm s.pool.jobs top hinv.heap htop).map Prod.snd
        refine ⟨pop_isHeap _ hinv.heap, ?_, ?_, ?_, ?_, ?_⟩
        · dsimp only
          rw [hinv.done]; congr 1; omega
        · dsimp only
          have hp := hinv.perm
          rw [← Multiset.coe_eq_coe] at *
          simp only [← Multiset.coe_add, Option.toList, Multiset.coe_nil, add_zero] at *
          rw [hp, c6, ← hpop]
          abel
        · intro hj
          obtain ⟨b1, b2, b3⟩ := hinv.before hj
          dsimp only
          exact ⟨b1, by rw [b2]; omega, by omega⟩
        · intro hj
          obtain ⟨a1, a2, a3⟩ := hinv.after hj
          rw [a1] at htop
          simp at htop
        · intro hj
          have := hinv.joined hj
          dsimp only
          omega
    · rw [if_neg hs] at hnext
      simp only [Option.some.injEq, Prod.mk.injEq] at hnext
      obtain ⟨hjob, hp⟩ := hnext
      subst hjob
      subst hp
      simp only [Worker.holds, Worker.holdsJob, Worker.pendingNoop, Worker.returned,
        Worker.alive, Worker.toRun, if_true, Bool.false_eq_true, if_false] at c1 c2 c3 c4 c5 c6
      refine ⟨hinv.heap, ?_, ?_, ?_, ?_, ?_⟩
      · dsimp only
        rw [hinv.done, toInt_toInt_sub]; congr 1; omega
      · dsimp only
        have hp := hinv.perm
        rw [← Multiset.coe_eq_coe] at *
        simp only [← Multiset.coe_add, Option.toList, Multiset.coe_nil, add_zero] at *
        rw [c6]; exact hp
      · intro hj
        exact absurd (hinv.before hj).1 hs
      · intro hj
        obtain ⟨a1, a2, a3⟩ := hinv.after hj
        dsimp only
        exact ⟨a1, by omega, by rw [a3, toInt_toInt_add]; congr 1; omega⟩
      · intro hj
        have := hinv.joined hj
        dsimp only
        omega
  · simp at h

theorem inv_addJob (s s' : Threads F) (priority : Int) (job : F) (hinv : Threads.Inv s)
    (hidle : s.joiner = .idle) (h : Threads.act s (.addJob priority job) = some s') : Threads.Inv s' := by
  simp only [Threads.act, Option.some.injEq] at h
  subst h
  obtain ⟨b1, b2, b3⟩ := hinv.before hidle
  unfold addJob
  by_cases hfull : toInt s.pool.maxQueueSize ≤ s.pool.jobsLeft
  · simp only [if_pos hfull, Bool.false_eq_true, if_false]
    exact ⟨hinv.heap, hinv.done, hinv.perm, hinv.before, hinv.after, hinv.joined⟩
  · simp only [if_neg hfull, if_true]
    have hlen : (push s.pool.jobs (priority, job)).length = s.pool.jobs.length + 1 :=
      (push_perm s.pool.jobs (priority, job)).length_eq
    have hlt := toInt_lt s.pool.maxQueueSize
    have hpush : List.Perm ((push s.pool.jobs (priority, job)).map Prod.snd)
        ([job] ++ s.pool.jobs.map Prod.snd) :=
      (push_perm s.pool.jobs (priority, job)).map Prod.snd
    refine ⟨push_isHeap _ _ hinv.heap, hinv.done, ?_, ?_, ?_, ?_⟩
    · dsimp only
      have hp := hinv.perm
      rw [← Multiset.coe_eq_coe] at *
      simp only [← Multiset.coe_add] at *
      rw [hp, hpush]
      abel
    · intro _
      dsimp only
      refine ⟨b1, ?_, ?_⟩
      · rw [toInt_of_range (by omega) (by omega), b2, hlen]
        push_cast
        omega
      · omega
    · intro hj
      rw [show s.joiner = Joiner.idle from hidle] at hj
      simp [Joiner.waitForAll] at hj
    · intro hj
      rw [show s.joiner = Joiner.idle from hidle] at hj
      simp at hj

theorem inv_waitAll (s s' : Threads F) (hinv : Threads.Inv s) (h : Threads.act s .waitAll = some s') :
    Threads.Inv s' := by
  simp only [Threads.act] at h
  split at h
  swap
  · simp at h
  rename_i hcond
  obtain ⟨hidle, _, hleft⟩ := hcond
  simp only [Option.some.injEq] at h
  subst h
  obtain ⟨b1, b2, b3⟩ := hinv.before hidle
  refine ⟨hinv.heap, hinv.done, hinv.perm, ?_, ?_, ?_⟩
  · intro hj
    simp at hj
  · intro _
    dsimp only
    have hzero : s.pool.jobs.length = 0 ∧ s.workers.countP Worker.holds = 0 := by omega
    have hmono : s.workers.countP Worker.holdsJob ≤ s.workers.countP Worker.holds := by
      apply List.countP_mono_left
      intro w _ hw
      cases w with
      | taken job => rfl
      | running job => rfl
      | ran job => rfl
      | unbusied job => rfl
      | counted job => rfl
      | loopHead => simp [Worker.holdsJob] at hw
      | waiting => simp [Worker.holdsJob] at hw
      | left job => simp [Worker.holdsJob] at hw
      | exited => simp [Worker.holdsJob] at hw
    refine ⟨List.length_eq_zero.mp hzero.1, by omega, ?_⟩
    rw [b2, hzero.1, hzero.2]
    rfl
  · intro hj
    simp at hj

theorem inv_setStop (s s' : Threads F) (hinv : Threads.Inv s) (h : Threads.act s .setStop = some s') :
    Threads.Inv s' := by
  simp only [Threads.act] at h
  split at h
  swap
  · simp at h
  simp only [Option.some.injEq] at h
  subst h
  refine ⟨hinv.heap, hinv.done, hinv.perm, ?_, ?_, ?_⟩
  · intro hj
    simp at hj
  · intro hj
    exact hinv.after hj
  · intro hj
    simp at hj

theorem inv_join (s s' : Threads F) (hinv : Threads.Inv s) (h : Threads.act s .join = some s') :
    Threads.Inv s' := by
  simp only [Threads.act] at h
  split at h
  swap
  · simp at h
  rename_i waitForAll hjoiner
  split at h
  swap
  · simp at h
  rename_i hall
  simp only [Option.some.injEq] at h
  subst h
  refine ⟨hinv.heap, hinv.done, hinv.perm, ?_, ?_, ?_⟩
  · intro hj
    simp at hj
  · intro hj
    have : s.joiner.waitForAll = true := by rw [hjoiner]; exact hj
    exact hinv.after this
  · intro _
    dsimp only
    rw [List.countP_eq_zero]
    intro w hw
    have := List.all_eq_true.mp hall w hw
    simpa using this

theorem inv_act (s s' : Threads F) (a : Action F) (hinv : Threads.Inv s) (h : Threads.act s a = some s')
    (hadd : a.isAddJob = true → s.joiner = .idle) : Threads.Inv s' := by
  cases a with
  | addJob priority job => exact inv_addJob s s' priority job hinv (hadd rfl) h
  | test t => exact inv_test s s' t hinv h
  | nextJob t => exact inv_nextJob s s' t hinv h
  | busy t => exact inv_busy s s' t hinv h
  | call t => exact inv_call s s' t hinv h
  | unbusy t => exact inv_unbusy s s' t hinv h
  | count t => exact inv_count s s' t hinv h
  | leave t => exact inv_leave s s' t hinv h
  | account t => exact inv_account s s' t hinv h
  | waitAll => exact inv_waitAll s s' hinv h
  | setStop => exact inv_setStop s s' hinv h
  | join => exact inv_join s s' hinv h

theorem idle_of_act (s s' : Threads F) (a : Action F) (h : Threads.act s a = some s')
    (hj : s'.joiner = .idle) : s.joiner = .idle := by
  cases a <;> simp only [Threads.act] at h
  case addJob priority job =>
    simp only [Option.some.injEq] at h
    subst h
    exact hj
  case waitAll =>
    split at h
    · simp only [Option.some.injEq] at h
      subst h
      simp at hj
    · simp at h
  case setStop =>
    split at h
    · simp only [Option.some.injEq] at h
      subst h
      simp at hj
    · simp at h
  case join =>
    split at h
    · split at h
      · simp only [Option.some.injEq] at h
        subst h
        simp at hj
      · simp at h
    · simp at h
  all_goals
    split at h
    · first
        | (simp only [Option.some.injEq] at h
           subst h
           exact hj)
        | (split at h
           · simp only [Option.some.injEq] at h
             subst h
             exact hj
           · simp at h)
    · simp at h

theorem idle_of_run (acts : List (Action F)) (s s' : Threads F) (h : Threads.run s acts = some s')
    (hj : s'.joiner = .idle) : s.joiner = .idle := by
  induction acts generalizing s with
  | nil =>
    simp only [Threads.run, Option.some.injEq] at h
    subst h
    exact hj
  | cons a rest ih =>
    simp only [Threads.run] at h
    cases ha : Threads.act s a with
    | none => rw [ha] at h; simp at h
    | some s1 =>
      rw [ha] at h
      exact idle_of_act s s1 a ha (ih s1 h)

theorem inv_run_idle (acts : List (Action F)) (s s' : Threads F) (hinv : Threads.Inv s)
    (h : Threads.run s acts = some s') (hj : s'.joiner = .idle) : Threads.Inv s' := by
  induction acts generalizing s with
  | nil =>
    simp only [Threads.run, Option.some.injEq] at h
    subst h
    exact hinv
  | cons a rest ih =>
    simp only [Threads.run] at h
    cases ha : Threads.act s a with
    | none => rw [ha] at h; simp at h
    | some s1 =>
      rw [ha] at h
      have h1 : s1.joiner = .idle := idle_of_run rest s1 s' h hj
      exact ih s1 (inv_act s s1 a hinv ha (fun _ => idle_of_act s s1 a ha h1)) h

theorem inv_run (acts : List (Action F)) (s s' : Threads F) (hinv : Threads.Inv s)
    (h : Threads.run s acts = some s') (hno : ∀ a ∈ acts, a.isAddJob = false) : Threads.Inv s' := by
  induction acts generalizing s with
  | nil =>
    simp only [Threads.run, Option.some.injEq] at h
    subst h
    exact hinv
  | cons a rest ih =>
    simp only [Threads.run] at h
    cases ha : Threads.act s a with
    | none => rw [ha] at h; simp at h
    | some s1 =>
      rw [ha] at h
      have hna : a.isAddJob = false := hno a (List.mem_cons_self a rest)
      refine ih s1 (inv_act s s1 a hinv ha ?_) h (fun b hb => hno b (List.mem_cons_of_mem a hb))
      intro hadd
      rw [hna] at hadd
      exact absurd hadd (by decide)

theorem countP_replicate_loopHead (n : Nat) (p : Worker F → Bool)
    (hp : p .loopHead = false) :
    (List.replicate n (Worker.loopHead : Worker F)).countP p = 0 := by
  rw [List.countP_eq_zero]
  intro w hw
  rw [List.eq_of_mem_replicate hw, hp]
  decide

theorem filterMap_replicate_loopHead (n : Nat) :
    (List.replicate n (Worker.loopHead : Worker F)).filterMap Worker.toRun = [] := by
  induction n with
  | zero => rfl
  | succ n ih => simp only [List.replicate_succ, List.filterMap_cons, Worker.toRun, ih]

theorem inv_start (threadCount maxQueueSize : Nat) :
    Threads.Inv (Threads.start threadCount maxQueueSize : Threads F) := by
  refine ⟨?_, ?_, ?_, ?_, ?_, ?_⟩
  · intro i _ hlt
    simp [Threads.start, ThreadPool.new] at hlt
  · simp only [Threads.start, ThreadPool.new, countP_replicate_loopHead _ Worker.returned rfl,
      countP_replicate_loopHead _ Worker.pendingNoop rfl]
    norm_num [toInt]
  · simp only [Threads.start, ThreadPool.new, filterMap_replicate_loopHead]
    exact List.Perm.refl _
  · intro _
    simp only [Threads.start, ThreadPool.new, countP_replicate_loopHead _ Worker.holds rfl]
    norm_num
  · intro hj
    simp [Threads.start, Joiner.waitForAll] at hj
  · intro hj
    simp [Threads.start] at hj

theorem countP_le_alive (p : Worker F → Bool) (hp : ∀ w, p w = true → w.alive = true)
    (l : List (Worker F)) (h : l.countP Worker.alive = 0) : l.countP p = 0 := by
  have := List.countP_mono_left (l := l) (p := p) (q := Worker.alive) (fun w _ hw => hp w hw)
  omega

theorem filterMap_toRun_of_exited (l : List (Worker F)) (h : l.countP Worker.alive = 0) :
    l.filterMap Worker.toRun = [] := by
  induction l with
  | nil => rfl
  | cons w rest ih =>
    cases w with
    | exited =>
      simp only [List.countP_cons, Worker.alive, Bool.false_eq_true, if_false, add_zero] at h
      simp only [List.filterMap_cons, Worker.toRun, ih h]
    | _ =>
      simp only [List.countP_cons, Worker.alive, if_true] at h
      omega

/-- C13: in every run of the threads of a new pool in which `joinAll(true)`
has returned and no job was submitted after its `waitAll()` returned, the jobs
whose call returned are the jobs `addJob` accepted, each as many times as it
was accepted; `getAmountOfDoneJobs()` is their number N converted to `int`
(N itself when N fits `int`: the empty lambdas injected at shutdown are not
counted), and `getJobsLeft()` is 0. -/
theorem joinAll_runs_every_accepted_job (threadCount maxQueueSize : Nat)
    (submits shutdown : List (Action F)) (final : Threads F)
    (hshutdown : ∀ a ∈ shutdown, a.isAddJob = false)
    (hrun : Threads.run (Threads.start threadCount maxQueueSize) (submits ++ .waitAll :: shutdown) = some final)
    (hjoined : final.joiner = .joined true) :
    List.Perm final.executed final.accepted ∧
    final.pool.getAmountOfDoneJobs = toInt final.accepted.length ∧
    (final.accepted.length < 2 ^ 31 →
      final.pool.getAmountOfDoneJobs = final.accepted.length) ∧
    final.pool.getJobsLeft = 0 := by
  rw [run_append] at hrun
  cases h1 : Threads.run (Threads.start threadCount maxQueueSize) submits with
  | none => rw [h1] at hrun; simp at hrun
  | some s1 =>
    rw [h1] at hrun
    simp only [Option.some_bind, Threads.run] at hrun
    cases h2 : Threads.act s1 .waitAll with
    | none => rw [h2] at hrun; simp at hrun
    | some s2 =>
      rw [h2] at hrun
      simp only [Option.some_bind] at hrun
      have hidle : s1.joiner = .idle := by
        simp only [Threads.act] at h2
        split at h2
        · rename_i hcond
          exact hcond.1
        · simp at h2
      have inv1 : Threads.Inv s1 := inv_run_idle submits _ s1 (inv_start threadCount maxQueueSize) h1 hidle
      have inv2 : Threads.Inv s2 := inv_act s1 s2 .waitAll inv1 h2
        (fun hadd => by simp [Action.isAddJob] at hadd)
      have inv3 : Threads.Inv final := inv_run shutdown s2 final inv2 hrun hshutdown
      have halive := inv3.joined hjoined
      have hwait : final.joiner.waitForAll = true := by rw [hjoined]; rfl
      obtain ⟨a1, _, a3⟩ := inv3.after hwait
      have hholds := countP_le_alive Worker.holds
        (fun w hw => by cases w <;> first | rfl | simp [Worker.holds] at hw) _ halive
      have hret := countP_le_alive Worker.returned
        (fun w hw => by cases w <;> first | rfl | simp [Worker.returned] at hw) _ halive
      have hnoop := countP_le_alive Worker.pendingNoop
        (fun w hw => by cases w <;> first | rfl | simp [Worker.pendingNoop] at hw) _ halive
      have hperm : List.Perm final.executed final.accepted := by
        have := inv3.perm
        rw [a1, filterMap_toRun_of_exited _ halive] at this
        exact this.symm
      have hdone : final.pool.jobsDone = toInt final.accepted.length := by
        rw [inv3.done, hret, hnoop, hperm.length_eq]
        simp
      refine ⟨hperm, hdone, ?_, ?_⟩
      · intro hN
        unfold getAmountOfDoneJobs
        rw [hdone]
        exact toInt_of_range (by omega) (by omega)
      · unfold getJobsLeft
        rw [a3, hholds]
        rfl

theorem joinAll_runs_every_accepted_job_witness :
    (∀ a ∈ sampleShutdown, a.isAddJob = false) ∧
    Threads.run (Threads.start 3 10) (sampleSubmits ++ .waitAll :: sampleShutdown) = some sampleJoined ∧
    sampleJoined.joiner = .joined true ∧
    List.Perm sampleJoined.executed sampleJoined.accepted ∧
    sampleJoined.pool.getAmountOfDoneJobs = toInt sampleJoined.accepted.length ∧
    (sampleJoined.accepted.length < 2 ^ 31 →
      sampleJoined.pool.getAmountOfDoneJobs = sampleJoined.accepted.length) ∧
    sampleJoined.pool.getJobsLeft = 0 :=
  ⟨by decide, rfl, rfl,
    joinAll_runs_every_accepted_job 3 10 sampleSubmits sampleShutdown sampleJoined (by decide)
      rfl rfl⟩

end Shutdown

/-! ## `checkCode` -/

section CheckCode

variable {Val Heap : Type}

/-- C21: `checkCode` returns `NO_ERR` exactly when `Script::Compile` accepts
the source and `Run` yields a value in the context of the isolate the method
creates, and `COMPILE_ERR` in every other case; the returned tuple and the
state it leaves are the same for every data text and every worker index; and
`_functions`, `_convs`, the cursor `nextIsolate`, the slots `_timing`, the
isolates and the require cache are as before the call. -/
theorem checkCode_only_compiles (E : V8 Val Heap) (s : V8Runner Val Heap) (src data : String)
    (threadId : Nat) :
    ((checkCode E s src data threadId).1.1 = STATUS.NO_ERR ↔
      (E.scriptCompile src = none ∧
        ∃ v h, E.scriptRun s._requireCache E.newContext src = .value v h)) ∧
    ((checkCode E s src data threadId).1.1 = STATUS.NO_ERR ∨
      (checkCode E s src data threadId).1.1 = STATUS.COMPILE_ERR) ∧
    (∀ (data' : String) (threadId' : Nat),
      checkCode E s src data' threadId' = checkCode E s src data threadId) ∧
    (checkCode E s src data threadId).2._functions = s._functions ∧
    (checkCode E s src data threadId).2._convs = s._convs ∧
    (checkCode E s src data threadId).2.nextIsolate = s.nextIsolate ∧
    (checkCode E s src data threadId).2._timing = s._timing ∧
    (checkCode E s src data threadId).2._isolates = s._isolates ∧
    (checkCode E s src data threadId).2._isolatesData = s._isolatesData ∧
    (checkCode E s src data threadId).2._requireCache = s._requireCache := by
  refine ⟨?_, ?_, fun _ _ => rfl, ?_⟩
  · unfold checkCode _checkCode
    cases h1 : E.scriptCompile src with
    | some msg => simp
    | none =>
      simp only [logCall, true_and]
      cases h2 : E.scriptRun s._requireCache E.newContext src with
      | threw msg h => simp
      | value v h => simp
  · unfold checkCode _checkCode
    cases h1 : E.scriptCompile src with
    | some msg => simp
    | none =>
      simp only [logCall]
      cases h2 : E.scriptRun s._requireCache E.newContext src with
      | threw msg h => simp
      | value v h => simp
  · obtain ⟨calls, hc⟩ := checkCode_frame E s src data threadId
    unfold checkCode
    rw [hc]
    exact ⟨rfl, rfl, rfl, rfl, rfl, rfl, rfl⟩

theorem checkCode_only_compiles_witness :
    (checkCode sampleV8 (sampleAfter [.compile "c" "n" "f"]) "throw" "1" 0).1.1
      = STATUS.COMPILE_ERR ∧
    (checkCode sampleV8 (sampleAfter [.compile "c" "n" "f"]) "g" "not json" 7).1
      = (STATUS.NO_ERR, "WE JUST COMPILED THIS CODE!") ∧
    (checkCode sampleV8 (sampleAfter [.compile "c" "n" "f"]) "g" "1" 0).2._functions
      = (sampleAfter [.compile "c" "n" "f"])._functions :=
  ⟨by decide, by decide,
    (checkCode_only_compiles sampleV8 (sampleAfter [.compile "c" "n" "f"]) "g" "1" 0).2.2.2.1⟩

end CheckCode

/-! ## A compile that fails on a registered pair -/

section FailedRecompile

variable {Val Heap : Type}

/-- C27: in a consistent state (every reachable state is one) where the pair
`(conv, node)` holds a non-empty callable, a compile of that pair on a source
that `Script::Compile` rejects, or whose `Run` throws in the context of the
isolate of the conversation, returns `COMPILE_ERR`
with the engine message; the callable of the pair has been reset before, so
the key is still present with an empty handle, `nodes_count` is as before, and
a following `run` of the pair returns `NOT_FUNCTION_ERR` and calls nothing. -/
theorem failed_recompile_resets_callable (E : V8 Val Heap) (s : V8Runner Val Heap)
    (conv node src : String) (owner : Isolate) (f : Val) (hc : Consistent s)
    (hf : mfind (conv, node) s._functions = some (some (owner, f)))
    (hfail : E.scriptCompile src ≠ none ∨
      ∀ isolate heap, mfind conv s._convs = some isolate →
        lockedContext s isolate = some heap →
        ∃ msg heap', E.scriptRun s._requireCache heap src = .threw msg heap') :
    ∃ msg s', compile E s conv node src = some ((STATUS.COMPILE_ERR, msg), s') ∧
      mfind (conv, node) s'._functions = some none ∧
      nodes_count s' = nodes_count s ∧
      ∀ (data : String) (threadId : Nat) (currentTime : Int),
        run E s' conv node data threadId currentTime
          = some ((STATUS.NOT_FUNCTION_ERR,
              "Pair (conv, node) does not contain compiled function."), s') := by
  have hreset := resetIfPresent_find_self s (conv, node)
  rw [hf] at hreset
  simp only [Option.map_some'] at hreset
  have hc1 := consistent_resetIfPresent s (conv, node) hc
  have hfr := resetIfPresent_frame s (conv, node)
  -- the conversation of the pair has an isolate
  have hconv : (mfind conv s._convs).isSome = true := hc.1 _ (mfind_mem hf)
  obtain ⟨isolate, hiso⟩ := Option.isSome_iff_exists.mp hconv
  have hiso1 : mfind conv (resetIfPresent s (conv, node))._convs = some isolate := by
    rw [hfr.1]; exact hiso
  have hfc : isolateForConv (resetIfPresent s (conv, node)) conv
      = some (isolate, resetIfPresent s (conv, node)) := by
    unfold isolateForConv
    rw [hiso1]
  obtain ⟨hnn, hdata⟩ := hc1.2.1 _ (mfind_mem hiso1)
  obtain ⟨heap, hheap⟩ := Option.isSome_iff_exists.mp hdata
  have hlock : lockedContext (resetIfPresent s (conv, node)) isolate = some heap := by
    unfold lockedContext
    rw [if_neg hnn]
    exact hheap
  have hlen := resetIfPresent_length s (conv, node)
  have hrun : ∀ (s' : V8Runner Val Heap), Consistent s' →
      mfind (conv, node) s'._functions = some none →
      ∀ (data : String) (threadId : Nat) (currentTime : Int),
        run E s' conv node data threadId currentTime
          = some ((STATUS.NOT_FUNCTION_ERR,
              "Pair (conv, node) does not contain compiled function."), s') :=
    fun s' hc' he data threadId currentTime =>
      run_of_empty_handle E s' conv node data threadId currentTime hc' he
  cases hcomp : E.scriptCompile src with
  | some msg =>
    have hres : compile E s conv node src = some ((STATUS.COMPILE_ERR, msg),
        (resetIfPresent s (conv, node)).logCall (.scriptCompile isolate src)) := by
      unfold compile _compile
      simp only [hfc, hlock, hcomp]
    refine ⟨msg, _, hres, hreset, hlen, ?_⟩
    exact hrun _ (consistent_compile E s conv node src _ _ hres hc) hreset
  | none =>
    rcases hfail with hne | hthrow
    · exact absurd hcomp hne
    · have hlock0 : lockedContext s isolate = some heap := by
        unfold lockedContext at hlock ⊢
        rw [hfr.2.2.1] at hlock
        exact hlock
      obtain ⟨msg, heap', hthrew⟩ := hthrow isolate heap hiso hlock0
      have hcache : (resetIfPresent s (conv, node))._requireCache = s._requireCache :=
        hfr.2.2.2.2.2.2
      have hres : compile E s conv node src = some ((STATUS.COMPILE_ERR, msg),
          (((resetIfPresent s (conv, node)).logCall (.scriptCompile isolate src)).logCall
            (.scriptRun isolate src)).setContext isolate heap') := by
        unfold compile _compile
        simp only [hfc, hlock, hcomp, logCall, hcache, hthrew]
      refine ⟨msg, _, hres, hreset, hlen, ?_⟩
      exact hrun _ (consistent_compile E s conv node src _ _ hres hc) hreset

theorem failed_recompile_resets_callable_witness :
    Consistent (sampleAfter [.compile "c" "n" "f"]) ∧
    mfind ("c", "n") (sampleAfter [.compile "c" "n" "f"])._functions = some (some (1, "f")) ∧
    sampleV8.scriptCompile "bad" ≠ none ∧
    ∃ msg s', compile sampleV8 (sampleAfter [.compile "c" "n" "f"]) "c" "n" "bad"
        = some ((STATUS.COMPILE_ERR, msg), s') ∧
      mfind ("c", "n") s'._functions = some none ∧
      nodes_count s' = nodes_count (sampleAfter [.compile "c" "n" "f"]) ∧
      ∀ (data : String) (threadId : Nat) (currentTime : Int),
        run sampleV8 s' "c" "n" data threadId currentTime
          = some ((STATUS.NOT_FUNCTION_ERR,
              "Pair (conv, node) does not contain compiled function."), s') :=
  ⟨by decide, by decide, by decide,
    failed_recompile_resets_callable sampleV8 (sampleAfter [.compile "c" "n" "f"]) "c" "n" "bad"
      1 "f" (by decide) (by decide) (Or.inl (by decide))⟩

end FailedRecompile

/-! ## The priority of a job -/

section PriorityLookup

variable {Val Heap : Type}

open CNode

theorem mem_massign_self {K V : Type} [DecidableEq K] (k : K) (v : V) (m : List (K × V)) :
    (k, v) ∈ massign k v m := by
  induction m with
  | nil => simp [massign]
  | cons p m ih =>
    obtain ⟨k', v'⟩ := p
    unfold massign
    by_cases hk : k' = k
    · rw [if_pos hk, hk]; exact List.mem_cons_self _ _
    · rw [if_neg hk]; exact List.mem_cons_of_mem _ ih

/-- C28: a request that passes the first age check and names no control
command is handed to `addJob` with the priority `_priorityMap[func]`. When the
name has no entry in the map the priority is 0 and the lookup has inserted
the entry `(func, 0)`, which the reply to a following `get_priorities` lists;
when the name has an entry, its priority is used and the map is as before. No
reply is sent and the runner is not touched. -/
theorem lookup_inserts_default_priority (readFile : String → Except String String)
    (c : CNode Val Heap) (fd : Int) (req : Request) (timeNow timeAdded : Int)
    (hgate : ¬ c._maxDiffTime < socketTimeDiff timeNow req.timestamp)
    (hwork : req.func ∉ controlCommands) :
    ∃ c', process readFile c fd req timeNow timeAdded = some c' ∧
      c'.sent = c.sent ∧ c'._v8 = c._v8 ∧ c'._maxDiffTime = c._maxDiffTime ∧
      (mfind req.func c._priorityMap = none →
        c'._pool = (c._pool.addJob 0 ⟨fd, req, timeAdded⟩).2 ∧
        c'._priorityMap = massign req.func 0 c._priorityMap ∧
        mfind req.func c'._priorityMap = some 0 ∧
        ∀ (fd' : Int) (req' : Request) (timeNow' timeAdded' : Int),
          ¬ c'._maxDiffTime < socketTimeDiff timeNow' req'.timestamp →
          req'.func = "get_priorities" →
          ∃ items, process readFile c' fd' req' timeNow' timeAdded'
              = some (c'.send fd' req'.fromp
                  (reply NodeStatus.OK.code (.tuple [.atom "priorities", .list items]))) ∧
            ETerm.tuple [.str req.func, .int 0] ∈ items) ∧
      (∀ priority, mfind req.func c._priorityMap = some priority →
        c'._pool = (c._pool.addJob priority ⟨fd, req, timeAdded⟩).2 ∧
        c'._priorityMap = c._priorityMap) := by
  refine ⟨submit c fd req timeAdded,
    process_of_work_request readFile c fd req timeNow timeAdded hgate hwork, rfl, rfl, rfl, ?_, ?_⟩
  · intro hnone
    have hmap : (submit c fd req timeAdded)._priorityMap = massign req.func 0 c._priorityMap := by
      simp only [submit, mindex, hnone]
    refine ⟨?_, hmap, ?_, ?_⟩
    · simp only [submit, mindex, hnone]
    · rw [hmap]; exact mfind_massign_self _ _ _
    · intro fd' req' timeNow' timeAdded' hgate' hfunc
      refine ⟨(submit c fd req timeAdded)._priorityMap.map
        fun p => .tuple [.str p.1, .int p.2], ?_, ?_⟩
      · unfold process
        rw [if_neg hgate']
        simp [hfunc]
      · rw [hmap]
        exact List.mem_map.mpr ⟨(req.func, 0), mem_massign_self _ _ _, rfl⟩
  · intro priority hsome
    simp only [submit, mindex, hsome, and_self]

theorem lookup_inserts_default_priority_witness :
    ¬ sampleNode._maxDiffTime < CNode.socketTimeDiff 150 (sampleRequest 100 "ping" []).timestamp ∧
    (sampleRequest 100 "ping" []).func ∉ CNode.controlCommands ∧
    mfind "ping" sampleNode._priorityMap = none ∧
    ∃ c', CNode.process noFiles sampleNode 3 (sampleRequest 100 "ping" []) 150 151 = some c' ∧
      c'._priorityMap = [("check_code", 0), ("run", 0), ("compile", 1), ("remove", 1),
        ("ping", 0)] ∧
      c'._pool.jobs.map Prod.fst = [0] :=
  ⟨by decide, by decide, by decide,
    (lookup_inserts_default_priority noFiles sampleNode 3 (sampleRequest 100 "ping" []) 150 151
      (by decide) (by decide)).elim fun c' hc =>
        ⟨c', hc.1, (hc.2.2.2.2.1 (by decide)).2.1.trans rfl,
          by rw [(hc.2.2.2.2.1 (by decide)).1]; rfl⟩⟩

end PriorityLookup

/-! ## The first age check -/

section Gate

variable {Val Heap : Type}

open CNode

end Gate

/-! ## Ownership of the callables -/

section Ownership

variable {Val Heap : Type}

theorem owned_resetIfPresent (s : V8Runner Val Heap) (key : ConvNodePair) (ho : Owned s) :
    Owned (resetIfPresent s key) := by
  intro p hp owner f hpf
  rw [(resetIfPresent_frame s key).1]
  unfold resetIfPresent at hp
  split at hp
  · rcases mem_massign hp with h | h
    · rw [h] at hpf
      simp at hpf
    · exact ho p h owner f hpf
  · exact ho p hp owner f hpf

theorem owned_isolateForConv (s s2 : V8Runner Val Heap) (conv : Conv) (isolate : Isolate)
    (h : isolateForConv s conv = some (isolate, s2)) (ho : Owned s) :
    Owned s2 ∧ mfind conv s2._convs = some isolate ∧ s2._functions = s._functions := by
  rcases isolateForConv_cases s s2 conv isolate h with ⟨hfound, hs⟩ | ⟨hnone, -, hs⟩
  · rw [hs]
    exact ⟨ho, hfound, rfl⟩
  · rw [hs]
    refine ⟨?_, mfind_massign_self _ _ _, rfl⟩
    intro p hp owner f hpf
    have hold := ho p hp owner f hpf
    have hne : p.1.1 ≠ conv := by
      intro heq
      rw [heq, hnone] at hold
      simp at hold
    show mfind p.1.1 (massign conv isolate s._convs) = some owner
    rw [mfind_massign_ne _ _ hne]
    exact hold

theorem owned_compile (E : V8 Val Heap) (s : V8Runner Val Heap) (conv node src : String)
    (r : Ret) (s' : V8Runner Val Heap) (h : _compile E s conv node src = some (r, s'))
    (ho : Owned s) : Owned s' := by
  obtain ⟨isolate, s2, heap, h1, -, h3⟩ := compile_cases E s conv node src r s' h
  obtain ⟨ho2, hconv, -⟩ :=
    owned_isolateForConv _ s2 conv isolate h1 (owned_resetIfPresent s (conv, node) ho)
  rcases h3 with ⟨msg, -, -, hs⟩ | ⟨-, msg, heap', -, -, hs⟩ | ⟨-, v, heap', -, -, hs⟩
  · rw [hs]; exact ho2
  · rw [hs]; exact ho2
  · rw [hs]
    intro p hp owner f hpf
    rcases mem_massign hp with hnew | hold
    · rw [hnew] at hpf ⊢
      simp only [Option.some.injEq, Prod.mk.injEq] at hpf
      rw [← hpf.1]
      exact hconv
    · exact ho2 p hold owner f hpf

theorem owned_step (E : V8 Val Heap) (s s' : V8Runner Val Heap) (op : Op)
    (h : step E s op = some s') (ho : Owned s) : Owned s' := by
  cases op with
  | compile conv node src =>
    simp only [step, compile, Option.map_eq_some'] at h
    obtain ⟨⟨r, t⟩, h1, h2⟩ := h
    simp only at h2
    subst h2
    exact owned_compile E s conv node src r t h1 ho
  | remove conv node =>
    simp only [step, remove, _remove, Option.some.injEq] at h
    subst h
    exact owned_resetIfPresent s _ ho
  | run conv node data threadId currentTime =>
    simp only [step, run, Option.map_eq_some'] at h
    obtain ⟨⟨r, t⟩, h1, h2⟩ := h
    simp only at h2
    subst h2
    obtain ⟨hf, hcv, -, -⟩ := run_frame E s conv node data threadId currentTime r t h1
    intro p hp owner f hpf
    rw [hf] at hp
    rw [hcv]
    exact ho p hp owner f hpf
  | checkCode src data threadId =>
    simp only [step, checkCode, Option.some.injEq] at h
    subst h
    obtain ⟨calls, hc⟩ := checkCode_frame E s src data threadId
    rw [hc]
    exact ho
  | cleanData =>
    simp only [step, cleanData, Option.some.injEq] at h
    subst h
    intro p hp
    simp at hp

theorem owned_steps (E : V8 Val Heap) (ops : List Op) (s s' : V8Runner Val Heap)
    (h : steps E s ops = some s') (ho : Owned s) : Owned s' := by
  induction ops generalizing s with
  | nil =>
    simp only [steps, Option.some.injEq] at h
    subst h
    exact ho
  | cons op ops ih =>
    simp only [steps, Option.bind_eq_some] at h
    obtain ⟨t, h1, h2⟩ := h
    exact ih t h2 (owned_step E s t op h1 ho)

/-- In a consistent state whose callables are owned, `_run` returns for every
worker index in range, leaves `_convs` and `_functions` as they were, and every
call of a function it logs is a call of the callable of the pair on the isolate
of the conversation, which is the isolate the callable was made on. -/
theorem run_of_owned (E : V8 Val Heap) (s : V8Runner Val Heap) (conv node data : String)
    (threadId : Nat) (currentTime : Int) (hc : Consistent s) (ho : Owned s)
    (ht : threadId < s._timing.length) :
    ∃ r s' calls, _run E s conv node data threadId currentTime = some (r, s') ∧
      s'._convs = s._convs ∧ s'._functions = s._functions ∧
      s'.v8log = s.v8log ++ calls ∧
      ∀ isolate g x, V8Call.functionCall isolate g x ∈ calls →
        mfind (conv, node) s._functions = some (some (isolate, g)) ∧
        mfind conv s._convs = some isolate := by
  cases hf : mfind (conv, node) s._functions with
  | none =>
    refine ⟨_, s, [], run_not_found E s conv node data threadId currentTime hf, rfl, rfl,
      by simp, ?_⟩
    intro isolate g x hmem
    simp at hmem
  | some pFunc =>
    have hconv : (mfind conv s._convs).isSome = true := hc.1 _ (mfind_mem hf)
    obtain ⟨isolate, hiso⟩ := Option.isSome_iff_exists.mp hconv
    obtain ⟨hnn, hdata⟩ := hc.2.1 _ (mfind_mem hiso)
    obtain ⟨heap, hheap⟩ := Option.isSome_iff_exists.mp hdata
    have hlock : lockedContext s isolate = some heap := by
      unfold lockedContext
      rw [if_neg hnn]
      exact hheap
    cases pFunc with
    | none =>
      refine ⟨_, s, [], run_of_empty_handle E s conv node data threadId currentTime hc hf,
        rfl, rfl, by simp, ?_⟩
      intro i g x hmem
      simp at hmem
    | some q =>
      obtain ⟨owner, f⟩ := q
      have hown : mfind conv s._convs = some owner := ho _ (mfind_mem hf) owner f rfl
      have heq : owner = isolate := by
        rw [hiso] at hown
        exact (Option.some.inj hown).symm
      subst heq
      cases hp : E.jsonParse data with
      | none =>
        have hs : ({ s with _convs := s._convs } : V8Runner Val Heap) = s := rfl
        refine ⟨(STATUS.BAD_INPUT_ERR, "Error during parse JSON."),
          s.logCall (.jsonParse owner data), [.jsonParse owner data], ?_, rfl, rfl, rfl, ?_⟩
        · simp only [_run, hf, mindex, hiso, hs, hlock, hp]
        · intro i g x hmem
          simp at hmem
      | some obj =>
        obtain ⟨r, s', hrun, hlog, -, -⟩ :=
          run_of_callable E s conv node data obj threadId currentTime owner f heap hf hiso
            hlock hp ht
        obtain ⟨hfun, hcv, -, -⟩ := run_frame E s conv node data threadId currentTime r s' hrun
        refine ⟨r, s', _, hrun, hcv, hfun, hlog, ?_⟩
        intro i g x hmem
        simp only [List.mem_cons, V8Call.functionCall.injEq, List.mem_singleton,
          List.not_mem_nil, or_false, false_or, reduceCtorEq] at hmem
        obtain ⟨h1, h2, -⟩ := hmem
        rw [h1, h2]
        exact ⟨rfl, hiso⟩

/-- C22: in every state reached from the state the constructor leaves by
compiles, removes, runs, checks and `cleanData`, every key of `_functions`
has its conversation in `_convs`, and every non-empty callable was made on the
isolate `_convs` records for its conversation. So `run`, for every worker
index in range, returns, leaves `_convs` as it was (its lookup `_convs[conv]`
inserts nothing), and every call of a function it makes is a call of the
callable of the pair on the isolate that owns it. -/
theorem callables_owned_by_conv_isolate (E : V8 Val Heap) (pathToLibs : String)
    (cache : List (String × String)) (maxExecutionTime timeCheckerSleepTime threadsCount : Nat)
    (ops : List Op) (s : V8Runner Val Heap)
    (h : steps E (init E pathToLibs cache maxExecutionTime timeCheckerSleepTime threadsCount) ops
      = some s) :
    (∀ p ∈ s._functions, ∃ isolate, mfind p.1.1 s._convs = some isolate ∧
      ∀ owner f, p.2 = some (owner, f) → owner = isolate) ∧
    ∀ (conv node data : String) (threadId : Nat) (currentTime : Int),
      threadId < s._timing.length →
      ∃ r s' calls, run E s conv node data threadId currentTime = some (r, s') ∧
        s'._convs = s._convs ∧
        s'.v8log = s.v8log ++ calls ∧
        ∀ isolate g x, V8Call.functionCall isolate g x ∈ calls →
          mfind (conv, node) s._functions = some (some (isolate, g)) ∧
          mfind conv s._convs = some isolate := by
  have hc : Consistent s := consistent_steps E ops _ s h (consistent_init E _ _ _ _ _)
  have ho : Owned s := by
    refine owned_steps E ops _ s h ?_
    intro p hp
    simp [init] at hp
  refine ⟨?_, ?_⟩
  · intro p hp
    obtain ⟨isolate, hiso⟩ := Option.isSome_iff_exists.mp (hc.1 p hp)
    refine ⟨isolate, hiso, ?_⟩
    intro owner f hpf
    have := ho p hp owner f hpf
    rw [hiso] at this
    exact (Option.some.inj this).symm
  · intro conv node data threadId currentTime ht
    obtain ⟨r, s', calls, h1, h2, -, h4, h5⟩ :=
      run_of_owned E s conv node data threadId currentTime hc ho ht
    exact ⟨r, s', calls, h1, h2, h4, h5⟩

theorem callables_owned_by_conv_isolate_witness :
    steps sampleV8 (init sampleV8 "/libs" [] 1000 500 2)
        [.compile "c" "n" "f", .compile "d" "m" "g", .compile "c" "k" "bad", .remove "d" "m",
          .run "c" "n" "1" 0 3, .cleanData, .compile "d" "m" "h"]
      = some (sampleAfter [.compile "c" "n" "f", .compile "d" "m" "g", .compile "c" "k" "bad",
          .remove "d" "m", .run "c" "n" "1" 0 3, .cleanData, .compile "d" "m" "h"]) ∧
    (sampleAfter [.compile "c" "n" "f", .compile "d" "m" "g", .compile "c" "k" "bad",
      .remove "d" "m", .run "c" "n" "1" 0 3, .cleanData, .compile "d" "m" "h"])._functions
      = [(("d", "m"), some (1, "h"))] ∧
    ∀ p ∈ (sampleAfter [.compile "c" "n" "f", .compile "d" "m" "g", .compile "c" "k" "bad",
        .remove "d" "m", .run "c" "n" "1" 0 3, .cleanData, .compile "d" "m" "h"])._functions,
      ∃ isolate, mfind p.1.1 (sampleAfter [.compile "c" "n" "f", .compile "d" "m" "g",
        .compile "c" "k" "bad", .remove "d" "m", .run "c" "n" "1" 0 3, .cleanData,
        .compile "d" "m" "h"])._convs = some isolate ∧
      ∀ owner f, p.2 = some (owner, f) → owner = isolate :=
  ⟨rfl, by decide,
    (callables_owned_by_conv_isolate sampleV8 "/libs" [] 1000 500 2
      [.compile "c" "n" "f", .compile "d" "m" "g", .compile "c" "k" "bad", .remove "d" "m",
        .run "c" "n" "1" 0 3, .cleanData, .compile "d" "m" "h"] _ rfl).1⟩

end Ownership

/-! ## The cursor of `getIsolate` -/

section RoundRobin

variable {Val Heap : Type}

/-- The cursor after `k` calls of `getIsolate`: it is at most the number of
isolates and agrees with `k` modulo that number. -/
theorem getIsolate_cursor (s : V8Runner Val Heap) (k : Nat) (hT : 1 ≤ s._isolates.length)
    (hle : s.nextIsolate ≤ s._isolates.length)
    (hmod : s.nextIsolate % s._isolates.length = k % s._isolates.length) :
    (if s.nextIsolate = s._isolates.length then 0 else s.nextIsolate) = k % s._isolates.length ∧
    ∃ isolate, getIsolate s = some (isolate, { s with nextIsolate := k % s._isolates.length + 1 }) ∧
      s._isolates.get? (k % s._isolates.length) = some isolate := by
  have hlt : k % s._isolates.length < s._isolates.length := Nat.mod_lt _ (by omega)
  have hnext : (if s.nextIsolate = s._isolates.length then 0 else s.nextIsolate)
      = k % s._isolates.length := by
    by_cases he : s.nextIsolate = s._isolates.length
    · rw [if_pos he]
      rw [he, Nat.mod_self] at hmod
      exact hmod
    · rw [if_neg he]
      have : s.nextIsolate < s._isolates.length := by omega
      rw [Nat.mod_eq_of_lt this] at hmod
      exact hmod
  obtain ⟨isolate, hiso⟩ : ∃ isolate, s._isolates.get? (k % s._isolates.length) = some isolate :=
    ⟨_, List.get?_eq_get hlt⟩
  refine ⟨hnext, isolate, ?_, hiso⟩
  unfold getIsolate
  simp only [hnext]
  rw [← List.get?_eq_getElem?, hiso]

theorem step_cursor (E : V8 Val Heap) (s s' : V8Runner Val Heap) (op : Op) (k : Nat)
    (h : step E s op = some s') (hT : 1 ≤ s._isolates.length)
    (hle : s.nextIsolate ≤ s._isolates.length)
    (hmod : s.nextIsolate % s._isolates.length = k % s._isolates.length) :
    s'._isolates = s._isolates ∧ s'.nextIsolate ≤ s._isolates.length ∧
    s'.nextIsolate % s._isolates.length
      = (k + (assignment s op).toList.length) % s._isolates.length ∧
    ∀ isolate, assignment s op = some isolate →
      s._isolates.get? (k % s._isolates.length) = some isolate := by
  have hsame : ∀ t : V8Runner Val Heap, t._isolates = s._isolates →
      t.nextIsolate = s.nextIsolate → assignment s op = none →
      t._isolates = s._isolates ∧ t.nextIsolate ≤ s._isolates.length ∧
      t.nextIsolate % s._isolates.length
        = (k + (assignment s op).toList.length) % s._isolates.length ∧
      ∀ isolate, assignment s op = some isolate →
        s._isolates.get? (k % s._isolates.length) = some isolate := by
    intro t h1 h2 h3
    rw [h3, h2]
    exact ⟨h1, hle, by simpa using hmod, fun _ hx => by simp at hx⟩
  cases op with
  | compile conv node src =>
    simp only [step, compile, Option.map_eq_some'] at h
    obtain ⟨⟨r, t⟩, h1, h2⟩ := h
    simp only at h2
    subst h2
    obtain ⟨isolate, s2, heap, hiso, -, h3⟩ := compile_cases E s conv node src r t h1
    have hfr := resetIfPresent_frame s (conv, node)
    have hs' : t._isolates = s2._isolates ∧ t.nextIsolate = s2.nextIsolate := by
      rcases h3 with ⟨msg, -, -, hs⟩ | ⟨-, msg, heap', -, -, hs⟩ | ⟨-, v, heap', -, -, hs⟩ <;>
        rw [hs] <;> exact ⟨rfl, rfl⟩
    rcases isolateForConv_cases _ s2 conv isolate hiso with ⟨hfound, hs2⟩ | ⟨hnone, -, hs2⟩
    · rw [hfr.1] at hfound
      refine hsame t ?_ ?_ ?_
      · rw [hs'.1, hs2, hfr.2.1]
      · rw [hs'.2, hs2, hfr.2.2.2.2.1]
      · simp only [assignment, hfound]
    · rw [hfr.1] at hnone
      have hT1 : 1 ≤ (resetIfPresent s (conv, node))._isolates.length := by rw [hfr.2.1]; exact hT
      obtain ⟨hif, i, hget, hi⟩ := getIsolate_cursor (resetIfPresent s (conv, node)) k hT1
        (by rw [hfr.2.1, hfr.2.2.2.2.1]; exact hle)
        (by rw [hfr.2.1, hfr.2.2.2.2.1]; exact hmod)
      rw [hfr.2.1] at hi
      have hassign : assignment s (.compile conv node src) = some i := by
        simp only [assignment, hnone, hget, Option.map_some']
      have hlt : k % s._isolates.length < s._isolates.length := Nat.mod_lt _ (by omega)
      have hnext : s2.nextIsolate = k % s._isolates.length + 1 := by
        rw [hs2]
        show (if (resetIfPresent s (conv, node)).nextIsolate
            = (resetIfPresent s (conv, node))._isolates.length then 0
          else (resetIfPresent s (conv, node)).nextIsolate) + 1 = _
        rw [hif, hfr.2.1]
      refine ⟨?_, ?_, ?_, ?_⟩
      · rw [hs'.1, hs2, hfr.2.1]
      · rw [hs'.2, hnext]; omega
      · rw [hs'.2, hnext, hassign]
        simp only [Option.toList, List.length_singleton]
        rw [Nat.add_mod, Nat.mod_mod, ← Nat.add_mod]
      · intro isolate' hx
        rw [hassign] at hx
        rw [← Option.some.inj hx]
        exact hi
  | remove conv node =>
    simp only [step, remove, _remove, Option.some.injEq] at h
    subst h
    have hfr := resetIfPresent_frame s (conv, node)
    exact hsame _ hfr.2.1 hfr.2.2.2.2.1 rfl
  | run conv node data threadId currentTime =>
    simp only [step, run, Option.map_eq_some'] at h
    obtain ⟨⟨r, t⟩, h1, h2⟩ := h
    simp only at h2
    subst h2
    obtain ⟨-, -, hi, hn⟩ := run_frame E s conv node data threadId currentTime r t h1
    exact hsame _ hi hn rfl
  | checkCode src data threadId =>
    simp only [step, checkCode, Option.some.injEq] at h
    subst h
    obtain ⟨calls, hc⟩ := checkCode_frame E s src data threadId
    rw [hc]
    exact hsame _ rfl rfl rfl
  | cleanData =>
    simp only [step, cleanData, Option.some.injEq] at h
    subst h
    exact hsame _ rfl rfl rfl

theorem steps_cursor (E : V8 Val Heap) (ops : List Op) (s s' : V8Runner Val Heap) (k : Nat)
    (h : steps E s ops = some s') (hT : 1 ≤ s._isolates.length)
    (hle : s.nextIsolate ≤ s._isolates.length)
    (hmod : s.nextIsolate % s._isolates.length = k % s._isolates.length) :
    s'._isolates = s._isolates ∧ s'.nextIsolate ≤ s._isolates.length ∧
    s'.nextIsolate % s._isolates.length
      = (k + (assignments E s ops).length) % s._isolates.length ∧
    ∀ j isolate, (assignments E s ops).get? j = some isolate →
      s._isolates.get? ((k + j) % s._isolates.length) = some isolate := by
  induction ops generalizing s k with
  | nil =>
    simp only [steps, Option.some.injEq] at h
    subst h
    refine ⟨rfl, hle, by simpa [assignments] using hmod, ?_⟩
    intro j isolate hj
    simp [assignments] at hj
  | cons op ops ih =>
    simp only [steps, Option.bind_eq_some] at h
    obtain ⟨t, h1, h2⟩ := h
    obtain ⟨c1, c2, c3, c4⟩ := step_cursor E s t op k h1 hT hle hmod
    obtain ⟨d1, d2, d3, d4⟩ := ih t (k + (assignment s op).toList.length) h2
      (by rw [c1]; exact hT) (by rw [c1]; exact c2) (by rw [c1]; exact c3)
    rw [c1] at d1 d2 d3 d4
    have hass : assignments E s (op :: ops)
        = (assignment s op).toList ++ assignments E t ops := by
      simp only [assignments, h1]
    rw [hass]
    refine ⟨d1, d2, ?_, ?_⟩
    · rw [d3, List.length_append, Nat.add_assoc]
    · intro j isolate hj
      cases ha : assignment s op with
      | none =>
        rw [ha] at hj d4
        simp only [Option.toList, List.nil_append] at hj
        simpa using d4 j isolate hj
      | some i =>
        rw [ha] at hj d4
        simp only [Option.toList, List.singleton_append] at hj
        cases j with
        | zero =>
          simp only [List.get?_cons_zero, Option.some.injEq] at hj
          rw [← hj]
          simpa using c4 i ha
        | succ j =>
          simp only [List.get?_cons_succ] at hj
          have := d4 j isolate hj
          simp only [Option.toList, List.length_singleton] at this
          rw [show k + (j + 1) = k + 1 + j by omega]
          exact this

/-- When `isolateForConv` yields an isolate whose context can be locked,
`_compile` returns; the cursor and `_convs` are as `isolateForConv` left them,
and the first engine call is `Script::Compile` on that isolate. -/
theorem compile_defined (E : V8 Val Heap) (s s2 : V8Runner Val Heap) (conv node src : String)
    (isolate : Isolate) (heap : Heap)
    (hiso : isolateForConv (resetIfPresent s (conv, node)) conv = some (isolate, s2))
    (hlock : lockedContext s2 isolate = some heap) :
    ∃ r s' calls, _compile E s conv node src = some (r, s') ∧
      s'.nextIsolate = s2.nextIsolate ∧ s'._convs = s2._convs ∧
      s'.v8log = s2.v8log ++ V8Call.scriptCompile isolate src :: calls := by
  unfold _compile
  simp only [hiso, hlock]
  cases h3 : E.scriptCompile src with
  | some msg => exact ⟨_, _, [], rfl, rfl, rfl, rfl⟩
  | none =>
    simp only [logCall]
    cases h4 : E.scriptRun s2._requireCache heap src with
    | threw msg heap' =>
      exact ⟨_, _, [.scriptRun isolate src], rfl, rfl, rfl, by simp [setContext]⟩
    | value v heap' =>
      exact ⟨_, _, [.scriptRun isolate src], rfl, rfl, rfl, by simp [setContext]⟩

/-- C23: with at least one isolate, in every run of operations from the
state the constructor leaves, the calls of `getIsolate` (one for each compile
of a conversation that `_convs` does not hold, counted from 0 through the
whole run, `cleanData` included) yield the isolates in turn: call `k` yields
`_isolates[k mod T]`, and `k mod T < T`. In every state reached, a compile for
a conversation that has no isolate returns and records the isolate at index
`n mod T`, for `n` the number of calls so far; a compile for a conversation
that has an isolate returns, runs on that isolate and leaves the cursor and
`_convs` as they were. -/
theorem getIsolate_round_robin (E : V8 Val Heap) (pathToLibs : String)
    (cache : List (String × String)) (maxExecutionTime timeCheckerSleepTime threadsCount : Nat)
    (ops : List Op) (s : V8Runner Val Heap) (hT : 1 ≤ threadsCount)
    (h : steps E (init E pathToLibs cache maxExecutionTime timeCheckerSleepTime threadsCount) ops
      = some s) :
    (∀ k isolate,
      (assignments E (init E pathToLibs cache maxExecutionTime timeCheckerSleepTime threadsCount)
        ops).get? k = some isolate →
      k % threadsCount < threadsCount ∧
      s._isolates.get? (k % threadsCount) = some isolate ∧ isolate = k % threadsCount + 1) ∧
    (∀ conv node src, mfind conv s._convs = none →
      ∃ r s' isolate calls, compile E s conv node src = some (r, s') ∧
        mfind conv s'._convs = some isolate ∧
        s._isolates.get? ((assignments E
          (init E pathToLibs cache maxExecutionTime timeCheckerSleepTime threadsCount)
          ops).length % threadsCount) = some isolate ∧
        s'.v8log = s.v8log ++ V8Call.scriptCompile isolate src :: calls) ∧
    (∀ conv node src isolate, mfind conv s._convs = some isolate →
      ∃ r s' calls, compile E s conv node src = some (r, s') ∧
        s'.nextIsolate = s.nextIsolate ∧ s'._convs = s._convs ∧
        s'.v8log = s.v8log ++ V8Call.scriptCompile isolate src :: calls) := by
  have hlen : (init E pathToLibs cache maxExecutionTime timeCheckerSleepTime
      threadsCount)._isolates.length = threadsCount := by
    simp [init]
  have hc : Consistent s := consistent_steps E ops _ s h (consistent_init E _ _ _ _ _)
  obtain ⟨c1, c2, c3, c4⟩ := steps_cursor E ops _ s 0 h (by rw [hlen]; exact hT)
    (by simp [init]) (by simp [init])
  rw [hlen] at c2 c3 c4
  have hlen' : s._isolates.length = threadsCount := by rw [c1, hlen]
  refine ⟨?_, ?_, ?_⟩
  · intro k isolate hk
    have hlt : k % threadsCount < threadsCount := Nat.mod_lt _ (by omega)
    have hget := c4 k isolate hk
    rw [Nat.zero_add] at hget
    refine ⟨hlt, by rw [c1]; exact hget, ?_⟩
    simp only [init, List.get?_eq_getElem?, List.getElem?_map, List.getElem?_range hlt,
      Option.map_some', Option.some.injEq] at hget
    exact hget.symm
  · intro conv node src hnone
    have hfr := resetIfPresent_frame s (conv, node)
    obtain ⟨-, i, hget, hi⟩ := getIsolate_cursor (resetIfPresent s (conv, node))
      (assignments E (init E pathToLibs cache maxExecutionTime timeCheckerSleepTime threadsCount)
        ops).length
      (by rw [hfr.2.1, hlen']; exact hT)
      (by rw [hfr.2.1, hfr.2.2.2.2.1, hlen']; exact c2)
      (by rw [hfr.2.1, hfr.2.2.2.2.1, hlen']; simpa using c3)
    rw [hfr.2.1, hlen'] at hi
    have hmem : i ∈ s._isolates := List.get?_mem hi
    obtain ⟨hnn, hdata⟩ := hc.2.2 i hmem
    obtain ⟨heap, hheap⟩ := Option.isSome_iff_exists.mp hdata
    have hiso : isolateForConv (resetIfPresent s (conv, node)) conv
        = some (i, { (resetIfPresent s (conv, node)) with
            nextIsolate := (assignments E (init E pathToLibs cache maxExecutionTime
              timeCheckerSleepTime threadsCount) ops).length
                % (resetIfPresent s (conv, node))._isolates.length + 1
            _convs := massign conv i (resetIfPresent s (conv, node))._convs }) := by
      have hnone' : mfind conv (resetIfPresent s (conv, node))._convs = none := by
        rw [hfr.1]; exact hnone
      unfold isolateForConv
      simp only [hnone', hget]
    have hlock : lockedContext { (resetIfPresent s (conv, node)) with
            nextIsolate := (assignments E (init E pathToLibs cache maxExecutionTime
              timeCheckerSleepTime threadsCount) ops).length
                % (resetIfPresent s (conv, node))._isolates.length + 1
            _convs := massign conv i (resetIfPresent s (conv, node))._convs } i
        = some heap := by
      unfold lockedContext
      rw [if_neg hnn]
      show mfind i (resetIfPresent s (conv, node))._isolatesData = some heap
      rw [hfr.2.2.1]
      exact hheap
    obtain ⟨r, s', calls, k1, -, k3, k4⟩ :=
      compile_defined E s _ conv node src i heap hiso hlock
    refine ⟨r, s', i, calls, k1, ?_, hi, ?_⟩
    · rw [k3]
      exact mfind_massign_self _ _ _
    · rw [k4]
      show (resetIfPresent s (conv, node)).v8log ++ _ = _
      rw [hfr.2.2.2.2.2.1]
  · intro conv node src isolate hfound
    have hfr := resetIfPresent_frame s (conv, node)
    obtain ⟨hnn, hdata⟩ := hc.2.1 _ (mfind_mem hfound)
    obtain ⟨heap, hheap⟩ := Option.isSome_iff_exists.mp hdata
    have hiso : isolateForConv (resetIfPresent s (conv, node)) conv
        = some (isolate, resetIfPresent s (conv, node)) := by
      unfold isolateForConv
      rw [hfr.1, hfound]
    have hlock : lockedContext (resetIfPresent s (conv, node)) isolate = some heap := by
      unfold lockedContext
      rw [if_neg hnn, hfr.2.2.1]
      exact hheap
    obtain ⟨r, s', calls, k1, k2, k3, k4⟩ :=
      compile_defined E s _ conv node src isolate heap hiso hlock
    exact ⟨r, s', calls, k1, by rw [k2, hfr.2.2.2.2.1], by rw [k3, hfr.1],
      by rw [k4, hfr.2.2.2.2.2.1]⟩

theorem getIsolate_round_robin_witness :
    1 ≤ 2 ∧
    steps sampleV8 (init sampleV8 "/libs" [] 1000 500 2)
        [.compile "a" "n" "f", .compile "b" "n" "f", .compile "a" "m" "g", .cleanData,
          .compile "c" "n" "f", .compile "a" "n" "f"]
      = some (sampleAfter [.compile "a" "n" "f", .compile "b" "n" "f", .compile "a" "m" "g",
          .cleanData, .compile "c" "n" "f", .compile "a" "n" "f"]) ∧
    assignments sampleV8 (init sampleV8 "/libs" [] 1000 500 2)
        [.compile "a" "n" "f", .compile "b" "n" "f", .compile "a" "m" "g", .cleanData,
          .compile "c" "n" "f", .compile "a" "n" "f"] = [1, 2, 1, 2] ∧
    ∀ k isolate,
      (assignments sampleV8 (init sampleV8 "/libs" [] 1000 500 2)
        [.compile "a" "n" "f", .compile "b" "n" "f", .compile "a" "m" "g", .cleanData,
          .compile "c" "n" "f", .compile "a" "n" "f"]).get? k = some isolate →
      k % 2 < 2 ∧
      (sampleAfter [.compile "a" "n" "f", .compile "b" "n" "f", .compile "a" "m" "g",
        .cleanData, .compile "c" "n" "f", .compile "a" "n" "f"])._isolates.get? (k % 2)
        = some isolate ∧ isolate = k % 2 + 1 :=
  ⟨by decide, rfl, by decide,
    (getIsolate_round_robin sampleV8 "/libs" [] 1000 500 2
      [.compile "a" "n" "f", .compile "b" "n" "f", .compile "a" "m" "g", .cleanData,
        .compile "c" "n" "f", .compile "a" "n" "f"] _ (by decide) rfl).1⟩

end RoundRobin

/-! ## `loadLibs` -/

section LoadLibs

variable {Val Heap : Type}

theorem splitAux_ne_nil_of_cur (separator : Char) (cur cs : List Char) (h : cur ≠ []) :
    1 ≤ (splitAux separator cur cs).length := by
  induction cs generalizing cur with
  | nil => simp [splitAux, h]
  | cons c cs ih =>
    unfold splitAux
    split
    · simp
    · exact ih (c :: cur) (by simp)

theorem splitAux_ne_nil (separator : Char) (cur cs : List Char) (h : cs ≠ []) :
    1 ≤ (splitAux separator cur cs).length := by
  cases cs with
  | nil => exact absurd rfl h
  | cons d ds =>
    unfold splitAux
    split
    · simp
    · exact splitAux_ne_nil_of_cur separator (d :: cur) ds (by simp)

/-- A text with a separator whose last character is not the separator splits
into at least two pieces. -/
theorem splitAux_two_pieces (separator : Char) (cur cs : List Char) (c : Char)
    (hmem : separator ∈ cs) (hlast : cs.getLast? = some c) (hc : c ≠ separator) :
    2 ≤ (splitAux separator cur cs).length := by
  induction cs generalizing cur with
  | nil => simp at hmem
  | cons d ds ih =>
    have hds : ds ≠ [] := by
      intro hnil
      rw [hnil] at hlast hmem
      simp only [List.getLast?_singleton, Option.some.injEq] at hlast
      simp only [List.mem_singleton] at hmem
      exact hc (by rw [← hlast, hmem])
    have hlast' : ds.getLast? = some c := by
      rw [← hlast]
      cases ds with
      | nil => exact absurd rfl hds
      | cons x xs => simp [List.getLast?_cons_cons]
    unfold splitAux
    by_cases hd : d = separator
    · rw [if_pos hd]
      have := splitAux_ne_nil separator [] ds hds
      simp only [List.length_cons]
      omega
    · rw [if_neg hd]
      have hmem' : separator ∈ ds := by
        rcases List.mem_cons.mp hmem with h | h
        · exact absurd h.symm hd
        · exact h
      exact ih (d :: cur) hmem' hlast'

/-- A path whose extension is `.js` does not end with the separator. -/
theorem last_of_extension (path : String) (h : extension path = ".js".toList) :
    ∃ c, path.toList.getLast? = some c ∧ c ≠ '/' := by
  unfold extension at h
  cases hr : path.toList.reverse with
  | nil =>
    simp only [hr, List.takeWhile_nil, List.reverse_nil] at h
    simp at h
  | cons c rest =>
    by_cases hc : c = '/'
    · simp only [hr, hc, List.takeWhile_cons, ne_eq, not_true_eq_false, decide_False,
        Bool.false_eq_true, if_false, List.reverse_nil] at h
      exact absurd h (by decide)
    · refine ⟨c, ?_, hc⟩
      rw [List.getLast?_eq_head?_reverse, hr]
      rfl

/-- The index arithmetic of `loadLibs` stays in range: a path that holds a
separator and has the extension `.js` has at least two pieces, and its key is
made of the last two. -/
theorem libPath_defined (path : String) (hsep : '/' ∈ path.toList)
    (hext : extension path = ".js".toList) :
    2 ≤ (splitString path '/').length ∧
    ∃ dir file, (splitString path '/').get? ((splitString path '/').length - 2) = some dir ∧
      (splitString path '/').get? ((splitString path '/').length - 1) = some file ∧
      libPath path = some (dir ++ "/" ++ file) := by
  obtain ⟨c, hlast, hc⟩ := last_of_extension path hext
  have h2 : 2 ≤ (splitString path '/').length :=
    splitAux_two_pieces '/' [] path.toList c hsep hlast hc
  have hd : (splitString path '/').length - 2 < (splitString path '/').length := by omega
  have hf : (splitString path '/').length - 1 < (splitString path '/').length := by omega
  refine ⟨h2, _, _, List.get?_eq_get hd, List.get?_eq_get hf, ?_⟩
  unfold libPath
  simp only [Nat.not_lt.mpr h2, if_false, List.get?_eq_get hd, List.get?_eq_get hf]

theorem loadEntry_keeps_key (readFile : String → Except String String)
    (cache cache' : List (String × String)) (e : DirEntry) (k : String)
    (h : loadEntry readFile cache e = some cache') (hk : (mfind k cache).isSome = true) :
    (mfind k cache').isSome = true := by
  unfold loadEntry at h
  by_cases hc : e.isDirectory = false ∧ extension e.path = ".js".toList
  · rw [if_pos hc] at h
    by_cases hr : (_getRequireFile readFile e.path).1 ≠ STATUS.NO_ERR
    · rw [if_pos hr] at h
      simp only [Option.some.injEq] at h
      rw [← h]; exact hk
    · rw [if_neg hr] at h
      cases hl : libPath e.path with
      | none => simp [hl] at h
      | some key =>
        simp only [hl, Option.some.injEq] at h
        rw [← h]
        exact mfind_isSome_massign _ _ _ _ hk
  · rw [if_neg hc] at h
    simp only [Option.some.injEq] at h
    rw [← h]; exact hk

theorem loadEntries_keep_key (readFile : String → Except String String)
    (entries : List DirEntry) (cache cache' : List (String × String)) (k : String)
    (h : entries.foldlM (loadEntry readFile) cache = some cache')
    (hk : (mfind k cache).isSome = true) : (mfind k cache').isSome = true := by
  induction entries generalizing cache with
  | nil =>
    simp only [List.foldlM_nil, pure, Option.some.injEq] at h
    rw [← h]; exact hk
  | cons e es ih =>
    simp only [List.foldlM_cons, bind, Option.bind_eq_some] at h
    obtain ⟨c1, h1, h2⟩ := h
    exact ih c1 h2 (loadEntry_keeps_key readFile cache c1 e k h1 hk)

/-- What the body of the loop of `loadLibs` does with a script it can read. -/
theorem loadEntry_of_script (readFile : String → Except String String)
    (cache : List (String × String)) (e : DirEntry) (content key : String)
    (hdir : e.isDirectory = false) (hext : extension e.path = ".js".toList)
    (hread : readFile e.path = .ok content) (hkey : libPath e.path = some key) :
    loadEntry readFile cache e = some (massign key content cache) := by
  unfold loadEntry
  simp only [hdir, hext, and_self, if_true, _getRequireFile, hread, ne_eq, not_true_eq_false,
    if_false, hkey]

/-- Where an entry of the cache after the body of the loop comes from. -/
theorem loadEntry_mem (readFile : String → Except String String)
    (cache cache' : List (String × String)) (e : DirEntry) (kv : String × String)
    (h : loadEntry readFile cache e = some cache') (hkv : kv ∈ cache') :
    kv ∈ cache ∨ (e.isDirectory = false ∧ extension e.path = ".js".toList ∧
      readFile e.path = .ok kv.2 ∧ libPath e.path = some kv.1) := by
  unfold loadEntry at h
  by_cases hc : e.isDirectory = false ∧ extension e.path = ".js".toList
  · rw [if_pos hc] at h
    cases hread : readFile e.path with
    | error what =>
      simp only [_getRequireFile, hread, ne_eq, reduceCtorEq, not_false_eq_true, if_true,
        Option.some.injEq] at h
      rw [← h] at hkv
      exact Or.inl hkv
    | ok content =>
      simp only [_getRequireFile, hread, ne_eq, not_true_eq_false, if_false] at h
      cases hl : libPath e.path with
      | none => simp [hl] at h
      | some key =>
        simp only [hl, Option.some.injEq] at h
        rw [← h] at hkv
        rcases mem_massign hkv with hnew | hold
        · right
          rw [hnew]
          exact ⟨hc.1, hc.2, rfl, rfl⟩
        · exact Or.inl hold
  · rw [if_neg hc] at h
    simp only [Option.some.injEq] at h
    rw [← h] at hkv
    exact Or.inl hkv

theorem loadEntries_mem (readFile : String → Except String String)
    (entries : List DirEntry) (cache cache' : List (String × String)) (kv : String × String)
    (h : entries.foldlM (loadEntry readFile) cache = some cache') (hkv : kv ∈ cache') :
    kv ∈ cache ∨ ∃ e ∈ entries, e.isDirectory = false ∧ extension e.path = ".js".toList ∧
      readFile e.path = .ok kv.2 ∧ libPath e.path = some kv.1 := by
  induction entries generalizing cache with
  | nil =>
    simp only [List.foldlM_nil, pure, Option.some.injEq] at h
    rw [← h] at hkv
    exact Or.inl hkv
  | cons e es ih =>
    simp only [List.foldlM_cons, bind, Option.bind_eq_some] at h
    obtain ⟨c1, h1, h2⟩ := h
    rcases ih c1 h2 with hin | ⟨x, hx, hrest⟩
    · rcases loadEntry_mem readFile cache c1 e kv h1 hin with hold | hnew
      · exact Or.inl hold
      · exact Or.inr ⟨e, List.mem_cons_self _ _, hnew⟩
    · exact Or.inr ⟨x, List.mem_cons_of_mem _ hx, hrest⟩

theorem loadEntries_has_key (readFile : String → Except String String)
    (entries : List DirEntry) (cache cache' : List (String × String)) (e : DirEntry)
    (content key : String)
    (h : entries.foldlM (loadEntry readFile) cache = some cache') (he : e ∈ entries)
    (hdir : e.isDirectory = false) (hext : extension e.path = ".js".toList)
    (hread : readFile e.path = .ok content) (hkey : libPath e.path = some key) :
    (mfind key cache').isSome = true := by
  induction entries generalizing cache with
  | nil => simp at he
  | cons x xs ih =>
    simp only [List.foldlM_cons, bind, Option.bind_eq_some] at h
    obtain ⟨c1, h1, h2⟩ := h
    rcases List.mem_cons.mp he with hx | hx
    · rw [← hx, loadEntry_of_script readFile cache e content key hdir hext hread hkey] at h1
      simp only [Option.some.injEq] at h1
      refine loadEntries_keep_key readFile xs c1 cache' key h2 ?_
      rw [← h1, mfind_massign_self]
      rfl
    · exact ih c1 h2 hx

theorem loadEntries_defined (readFile : String → Except String String)
    (entries : List DirEntry) (cache : List (String × String))
    (hsep : ∀ e ∈ entries, '/' ∈ e.path.toList) :
    ∃ cache', entries.foldlM (loadEntry readFile) cache = some cache' := by
  induction entries generalizing cache with
  | nil => exact ⟨cache, rfl⟩
  | cons e es ih =>
    have hone : ∃ c1, loadEntry readFile cache e = some c1 := by
      unfold loadEntry
      by_cases hc : e.isDirectory = false ∧ extension e.path = ".js".toList
      · rw [if_pos hc]
        obtain ⟨-, dir, file, -, -, hkey⟩ :=
          libPath_defined e.path (hsep e (List.mem_cons_self _ _)) hc.2
        simp only [hkey]
        split
        · exact ⟨_, rfl⟩
        · exact ⟨_, rfl⟩
      · rw [if_neg hc]
        exact ⟨_, rfl⟩
    obtain ⟨c1, h1⟩ := hone
    obtain ⟨c2, h2⟩ := ih c1 (fun x hx => hsep x (List.mem_cons_of_mem _ hx))
    exact ⟨c2, by simp only [List.foldlM_cons, bind, h1, Option.some_bind, h2]⟩

/-- C26: `loadLibs`, run on an empty cache over the entries the directory
iterator yields (each path holds a separator), returns, and afterwards: for
every entry that is not a directory, has the extension `.js` and can be read,
the cache holds the key made of the last two pieces of its path joined by the
separator; every pair of the cache is such a key with the content of such a
file, so that entries with another extension, directories and unreadable files
add nothing; and the indices `partsLen - 2` and `partsLen - 1` are in range
for every path with a separator and the extension `.js`. -/
theorem loadLibs_cache (readFile : String → Except String String) (entries : List DirEntry)
    (s : V8Runner Val Heap) (hempty : s._requireCache = [])
    (hsep : ∀ e ∈ entries, '/' ∈ e.path.toList) :
    ∃ s', loadLibs readFile entries s = some s' ∧
      (∀ e ∈ entries, e.isDirectory = false → extension e.path = ".js".toList →
        ∀ content, readFile e.path = .ok content →
          ∃ dir file,
            (splitString e.path '/').get? ((splitString e.path '/').length - 2) = some dir ∧
            (splitString e.path '/').get? ((splitString e.path '/').length - 1) = some file ∧
            (mfind (dir ++ "/" ++ file) s'._requireCache).isSome = true) ∧
      (∀ kv ∈ s'._requireCache, ∃ e ∈ entries, e.isDirectory = false ∧
        extension e.path = ".js".toList ∧ readFile e.path = .ok kv.2 ∧
        libPath e.path = some kv.1) ∧
      (∀ path, '/' ∈ path.toList → extension path = ".js".toList →
        2 ≤ (splitString path '/').length ∧ (libPath path).isSome = true) := by
  obtain ⟨cache', hfold⟩ := loadEntries_defined readFile entries s._requireCache hsep
  refine ⟨{ s with _requireCache := cache' }, ?_, ?_, ?_, ?_⟩
  · simp only [loadLibs, hfold, Option.map_some']
  · intro e he hdir hext content hread
    obtain ⟨-, dir, file, hd, hf, hkey⟩ := libPath_defined e.path (hsep e he) hext
    exact ⟨dir, file, hd, hf,
      loadEntries_has_key readFile entries _ cache' e content _ hfold he hdir hext hread hkey⟩
  · intro kv hkv
    rcases loadEntries_mem readFile entries _ cache' kv hfold hkv with hold | hnew
    · rw [hempty] at hold
      simp at hold
    · exact hnew
  · intro path hp hext
    obtain ⟨h2, dir, file, -, -, hkey⟩ := libPath_defined path hp hext
    exact ⟨h2, by rw [hkey]; rfl⟩

theorem loadLibs_cache_witness :
    sampleRunner._requireCache = [] ∧
    (∀ e ∈ nestedEntries, '/' ∈ e.path.toList) ∧
    ∃ s', loadLibs nestedFiles nestedEntries sampleRunner = some s' ∧
      s'._requireCache = [("b/c.js", "x")] :=
  ⟨rfl, by decide,
    (loadLibs_cache nestedFiles nestedEntries sampleRunner rfl (by decide)).elim fun s' hs =>
      ⟨s', hs.1, by
        have h := hs.1
        have h2 : loadLibs nestedFiles nestedEntries sampleRunner
            = some { sampleRunner with _requireCache := [("b/c.js", "x")] } := rfl
        rw [h2] at h
        rw [← Option.some.inj h]⟩⟩

end LoadLibs

/-! ## The counters of the pool in every state -/

section PoolCounts

open concurrent concurrent.ThreadPool concurrent.Threads

variable {F : Type}

theorem sum_set_of_get (l : List Int) (t : Nat) (x v : Int) (h : l.get? t = some x) :
    (l.set t v).sum = l.sum - x + v := by
  induction l generalizing t with
  | nil => simp at h
  | cons a rest ih =>
    cases t with
    | zero =>
      simp only [List.get?_cons_zero, Option.some.injEq] at h
      subst h
      simp only [List.set_cons_zero, List.sum_cons]
      omega
    | succ t =>
      simp only [List.get?_cons_succ] at h
      have := ih t h
      simp only [List.set_cons_succ, List.sum_cons]
      omega

theorem le_sum_of_get (l : List Int) (t : Nat) (x : Int) (hnn : ∀ y ∈ l, 0 ≤ y)
    (h : l.get? t = some x) : x ≤ l.sum := by
  induction l generalizing t with
  | nil => simp at h
  | cons a rest ih =>
    have ha : 0 ≤ a := hnn a (List.mem_cons_self _ _)
    have hrest : 0 ≤ rest.sum := List.sum_nonneg fun y hy => hnn y (List.mem_cons_of_mem _ hy)
    cases t with
    | zero =>
      simp only [List.get?_cons_zero, Option.some.injEq] at h
      subst h
      simp only [List.sum_cons]
      omega
    | succ t =>
      simp only [List.get?_cons_succ] at h
      have := ih t (fun y hy => hnn y (List.mem_cons_of_mem _ hy)) h
      simp only [List.sum_cons]
      omega

theorem counts_busy (threadCount maxQueueSize n : Nat) (s s' : Threads F) (t : Nat)
    (hinv : Counts threadCount maxQueueSize n s) (h : Threads.act s (.busy t) = some s') :
    Counts threadCount maxQueueSize n s' := by
  simp only [Threads.act] at h
  split at h
  · rename_i job hget
    simp only [Option.some.injEq] at h
    subst h
    have c := fun p => countP_set_of_get p s.workers t (.taken job) (.running job) hget
    have c1 := c Worker.holds
    have c2 := c Worker.holdsNoop
    have c3 := c Worker.executing
    have c4 := c Worker.returned
    have c5 := c Worker.pendingNoop
    have c6 := c Worker.uncounted
    have c7 := c Worker.uncountedNoop
    have c8 := c Worker.alive
    have c9 := filterMap_set_perm Worker.toRun s.workers t (.taken job) (.running job) hget
    cases job <;>
    simp only [Worker.holds, Worker.holdsNoop, Worker.executing, Worker.returned,
      Worker.pendingNoop, Worker.uncounted, Worker.uncountedNoop, Worker.alive, Worker.toRun,
      if_true, Bool.false_eq_true, if_false] at c1 c2 c3 c4 c5 c6 c7 c8 c9
    all_goals
      refine ⟨?_, hinv.cap, hinv.heap, ?_, ?_, ?_, ?_, ?_, ?_, ?_, hinv.unstopped, ?_⟩
      · dsimp only
        rw [List.length_set]
        exact hinv.size
      · dsimp only [beginJob]
        have hp := hinv.perm
        rw [← Multiset.coe_eq_coe] at *
        simp only [← Multiset.coe_add, Option.toList, Multiset.coe_nil, add_zero] at *
        first
          | (rw [add_right_cancel c9]; exact hp)
          | (rw [c9]; exact hp)
      · dsimp only [beginJob]
        rw [hinv.left]; congr 1; omega
      · intro hs
        have hb := hinv.bound hs
        dsimp only [beginJob]
        omega
      · dsimp only [beginJob]
        rw [hinv.busy, toInt_toInt_add]; congr 1; omega
      · dsimp only [beginJob]
        rw [hinv.done]; congr 1; omega
      · dsimp only [beginJob]
        rw [hinv.tally]; congr 1; omega
      · dsimp only [beginJob]
        intro hlt
        have he := hinv.exact (by omega)
        exact ⟨he.1, by rw [he.2]; omega⟩
      · intro hj
        have := hinv.joined hj
        dsimp only
        omega
  · simp at h

theorem counts_unbusy (threadCount maxQueueSize n : Nat) (s s' : Threads F) (t : Nat)
    (hinv : Counts threadCount maxQueueSize n s) (h : Threads.act s (.unbusy t) = some s') :
    Counts threadCount maxQueueSize n s' := by
  simp only [Threads.act] at h
  split at h
  · rename_i job hget
    simp only [Option.some.injEq] at h
    subst h
    have c := fun p => countP_set_of_get p s.workers t (.ran job) (.unbusied job) hget
    have c1 := c Worker.holds
    have c2 := c Worker.holdsNoop
    have c3 := c Worker.executing
    have c4 := c Worker.returned
    have c5 := c Worker.pendingNoop
    have c6 := c Worker.uncounted
    have c7 := c Worker.uncountedNoop
    have c8 := c Worker.alive
    have c9 := filterMap_set_perm Worker.toRun s.workers t (.ran job) (.unbusied job) hget
    cases job <;>
    simp only [Worker.holds, Worker.holdsNoop, Worker.executing, Worker.returned,
      Worker.pendingNoop, Worker.uncounted, Worker.uncountedNoop, Worker.alive, Worker.toRun,
      if_true, Bool.false_eq_true, if_false] at c1 c2 c3 c4 c5 c6 c7 c8 c9
    all_goals
      refine ⟨?_, hinv.cap, hinv.heap, ?_, ?_, ?_, ?_, ?_, ?_, ?_, hinv.unstopped, ?_⟩
      · dsimp only
        rw [List.length_set]
        exact hinv.size
      · dsimp only [beginJob]
        have hp := hinv.perm
        rw [← Multiset.coe_eq_coe] at *
        simp only [← Multiset.coe_add, Option.toList, Multiset.coe_nil, add_zero] at *
        rw [c9]; exact hp
      · dsimp only [beginJob]
        rw [hinv.left]; congr 1; omega
      · intro hs
        have hb := hinv.bound hs
        dsimp only [beginJob]
        omega
      · dsimp only [beginJob]
        rw [hinv.busy, toInt_toInt_sub]; congr 1; omega
      · dsimp only [beginJob]
        rw [hinv.done]; congr 1; omega
      · dsimp only [beginJob]
        rw [hinv.tally]; congr 1; omega
      · dsimp only [beginJob]
        intro hlt
        have he := hinv.exact (by omega)
        exact ⟨he.1, by rw [he.2]; omega⟩
      · intro hj
        have := hinv.joined hj
        dsimp only
        omega
  · simp at h

theorem counts_call (threadCount maxQueueSize n : Nat) (s s' : Threads F) (t : Nat)
    (hinv : Counts threadCount maxQueueSize n s) (h : Threads.act s (.call t) = some s') :
    Counts threadCount maxQueueSize n s' := by
  simp only [Threads.act] at h
  split at h
  · rename_i job hget
    simp only [Option.some.injEq] at h
    subst h
    have c := fun p => countP_set_of_get p s.workers t (.running job) (.ran job) hget
    have c1 := c Worker.holds
    have c2 := c Worker.holdsNoop
    have c3 := c Worker.executing
    have c4 := c Worker.returned
    have c5 := c Worker.pendingNoop
    have c6 := c Worker.uncounted
    have c7 := c Worker.uncountedNoop
    have c8 := c Worker.alive
    have c9 := filterMap_set_perm Worker.toRun s.workers t (.running job) (.ran job) hget
    cases job <;>
    simp only [Worker.holds, Worker.holdsNoop, Worker.executing, Worker.returned,
      Worker.pendingNoop, Worker.uncounted, Worker.uncountedNoop, Worker.alive, Worker.toRun,
      if_true, Bool.false_eq_true, if_false] at c1 c2 c3 c4 c5 c6 c7 c8 c9
    all_goals
      refine ⟨?_, hinv.cap, hinv.heap, ?_, ?_, ?_, ?_, ?_, ?_, ?_, hinv.unstopped, ?_⟩
      · dsimp only
        rw [List.length_set]
        exact hinv.size
      · dsimp only [beginJob]
        have hp := hinv.perm
        rw [← Multiset.coe_eq_coe] at *
        simp only [← Multiset.coe_add, Option.toList, Multiset.coe_nil, add_zero] at *
        first
          | (rw [c9]; exact hp)
          | (rw [hp, ← c9]; abel)
      · dsimp only [beginJob]
        rw [hinv.left]; congr 1; omega
      · intro hs
        have hb := hinv.bound hs
        dsimp only [beginJob]
        omega
      · dsimp only [beginJob]
        rw [hinv.busy]; congr 1; omega
      · dsimp only [beginJob]
        simp only [List.length_append, Option.toList, List.length_singleton, List.length_nil]
        rw [hinv.done]; congr 1; push_cast; omega
      · dsimp only [beginJob]
        simp only [List.length_append, Option.toList, List.length_singleton, List.length_nil]
        rw [hinv.tally]; congr 1; push_cast; omega
      · dsimp only [beginJob]
        simp only [List.length_append, Option.toList, List.length_singleton, List.length_nil]
        intro hlt
        have he := hinv.exact (by push_cast at hlt; omega)
        exact ⟨he.1, by rw [he.2]; push_cast; omega⟩
      · intro hj
        have := hinv.joined hj
        dsimp only
        omega
  · simp at h

theorem counts_leave (threadCount maxQueueSize n : Nat) (s s' : Threads F) (t : Nat)
    (hinv : Counts threadCount maxQueueSize n s) (h : Threads.act s (.leave t) = some s') :
    Counts threadCount maxQueueSize n s' := by
  simp only [Threads.act] at h
  split at h
  · rename_i job hget
    simp only [Option.some.injEq] at h
    subst h
    have c := fun p => countP_set_of_get p s.workers t (.counted job) (.left job) hget
    have c1 := c Worker.holds
    have c2 := c Worker.holdsNoop
    have c3 := c Worker.executing
    have c4 := c Worker.returned
    have c5 := c Worker.pendingNoop
    have c6 := c Worker.uncounted
    have c7 := c Worker.uncountedNoop
    have c8 := c Worker.alive
    have c9 := filterMap_set_perm Worker.toRun s.workers t (.counted job) (.left job) hget
    cases job <;>
    simp only [Worker.holds, Worker.holdsNoop, Worker.executing, Worker.returned,
      Worker.pendingNoop, Worker.uncounted, Worker.uncountedNoop, Worker.alive, Worker.toRun,
      if_true, Bool.false_eq_true, if_false] at c1 c2 c3 c4 c5 c6 c7 c8 c9
    all_goals
      refine ⟨?_, hinv.cap, hinv.heap, ?_, ?_, ?_, ?_, ?_, ?_, ?_, hinv.unstopped, ?_⟩
      · dsimp only
        rw [List.length_set]
        exact hinv.size
      · dsimp only [beginJob]
        have hp := hinv.perm
        rw [← Multiset.coe_eq_coe] at *
        simp only [← Multiset.coe_add, Option.toList, Multiset.coe_nil, add_zero] at *
        rw [c9]; exact hp
      · dsimp only [beginJob]
        rw [hinv.left, toInt_toInt_sub]; congr 1; omega
      · intro hs
        have hb := hinv.bound hs
        dsimp only [beginJob]
        omega
      · dsimp only [beginJob]
        rw [hinv.busy]; congr 1; omega
      · dsimp only [beginJob]
        rw [hinv.done]; congr 1; omega
      · dsimp only [beginJob]
        rw [hinv.tally]; congr 1; omega
      · dsimp only [beginJob]
        intro hlt
        have he := hinv.exact (by omega)
        exact ⟨he.1, by rw [he.2]; omega⟩
      · intro hj
        have := hinv.joined hj
        dsimp only
        omega
  · simp at h

theorem counts_account (threadCount maxQueueSize n : Nat) (s s' : Threads F) (t : Nat)
    (hinv : Counts threadCount maxQueueSize n s) (h : Threads.act s (.account t) = some s') :
    Counts threadCount maxQueueSize n s' := by
  simp only [Threads.act] at h
  split at h
  · rename_i job hget
    simp only [Option.some.injEq] at h
    subst h
    have c := fun p => countP_set_of_get p s.workers t (.left job) .loopHead hget
    have c1 := c Worker.holds
    have c2 := c Worker.holdsNoop
    have c3 := c Worker.executing
    have c4 := c Worker.returned
    have c5 := c Worker.pendingNoop
    have c6 := c Worker.uncounted
    have c7 := c Worker.uncountedNoop
    have c8 := c Worker.alive
    have c9 := filterMap_set_perm Worker.toRun s.workers t (.left job) .loopHead hget
    cases job <;>
    simp only [Worker.holds, Worker.holdsNoop, Worker.executing, Worker.returned,
      Worker.pendingNoop, Worker.uncounted, Worker.uncountedNoop, Worker.alive, Worker.toRun,
      if_true, Bool.false_eq_true, if_false] at c1 c2 c3 c4 c5 c6 c7 c8 c9
    all_goals
      refine ⟨?_, hinv.cap, hinv.heap, ?_, ?_, ?_, ?_, ?_, ?_, ?_, hinv.unstopped, ?_⟩
      · dsimp only
        rw [List.length_set]
        exact hinv.size
      · dsimp only [beginJob]
        have hp := hinv.perm
        rw [← Multiset.coe_eq_coe] at *
        simp only [← Multiset.coe_add, Option.toList, Multiset.coe_nil, add_zero] at *
        rw [c9]; exact hp
      · dsimp only [beginJob]
        rw [hinv.left]; congr 1; omega
      · intro hs
        have hb := hinv.bound hs
        dsimp only [beginJob]
        omega
      · dsimp only [beginJob]
        rw [hinv.busy]; congr 1; omega
      · dsimp only [beginJob]
        rw [hinv.done, toInt_toInt_add]; congr 1; omega
      · dsimp only [beginJob]
        rw [hinv.tally]; congr 1; omega
      · dsimp only [beginJob]
        intro hlt
        have he := hinv.exact (by omega)
        exact ⟨he.1, by rw [he.2]; omega⟩
      · intro hj
        have := hinv.joined hj
        dsimp only
        omega
  · simp at h

theorem counts_count (threadCount maxQueueSize n : Nat) (s s' : Threads F) (t : Nat)
    (hinv : Counts threadCount maxQueueSize n s) (h : Threads.act s (.count t) = some s') :
    Counts threadCount maxQueueSize n s' := by
  simp only [Threads.act] at h
  split at h
  · rename_i job hget
    split at h
    swap
    · simp at h
    rename_i x hx
    simp only [Option.some.injEq] at h
    subst h
    have c := fun p => countP_set_of_get p s.workers t (.unbusied job) (.counted job) hget
    have c1 := c Worker.holds
    have c2 := c Worker.holdsNoop
    have c3 := c Worker.executing
    have c4 := c Worker.returned
    have c5 := c Worker.pendingNoop
    have c6 := c Worker.uncounted
    have c7 := c Worker.uncountedNoop
    have c8 := c Worker.alive
    have c9 := filterMap_set_perm Worker.toRun s.workers t (.unbusied job) (.counted job) hget
    cases job <;>
    simp only [Worker.holds, Worker.holdsNoop, Worker.executing, Worker.returned,
      Worker.pendingNoop, Worker.uncounted, Worker.uncountedNoop, Worker.alive, Worker.toRun,
      if_true, Bool.false_eq_true, if_false] at c1 c2 c3 c4 c5 c6 c7 c8 c9
    all_goals
      refine ⟨?_, hinv.cap, hinv.heap, ?_, ?_, ?_, ?_, ?_, ?_, ?_, hinv.unstopped, ?_⟩
      · dsimp only
        rw [List.length_set]
        exact hinv.size
      · dsimp only [beginJob]
        have hp := hinv.perm
        rw [← Multiset.coe_eq_coe] at *
        simp only [← Multiset.coe_add, Option.toList, Multiset.coe_nil, add_zero] at *
        rw [c9]; exact hp
      · dsimp only [beginJob]
        rw [hinv.left]; congr 1; omega
      · intro hs
        have hb := hinv.bound hs
        dsimp only [beginJob]
        omega
      · dsimp only [beginJob]
        rw [hinv.busy]; congr 1; omega
      · dsimp only [beginJob]
        rw [hinv.done]; congr 1; omega
      · dsimp only [beginJob]
        rw [sum_set_of_get _ t x _ hx]
        have ht := hinv.tally
        unfold toInt at ht ⊢
        omega
      · dsimp only [beginJob]
        intro hlt
        have he := hinv.exact (by omega)
        have hx0 : 0 ≤ x := he.1 x (List.get?_mem hx)
        have hxs : x ≤ s.pool.jobsPerThread.sum := le_sum_of_get _ t x he.1 hx
        have hx1 : toInt (x + 1) = x + 1 := toInt_of_range (by omega) (by omega)
        rw [sum_set_of_get _ t x _ hx, hx1]
        refine ⟨?_, by omega⟩
        intro y hy
        rcases List.mem_or_eq_of_mem_set hy with hm | hm
        · exact he.1 y hm
        · omega
      · intro hj
        have := hinv.joined hj
        dsimp only
        omega
  · simp at h

theorem counts_set_idle (threadCount maxQueueSize n : Nat) (s : Threads F) (t : Nat)
    (w w' : Worker F) (hinv : Counts threadCount maxQueueSize n s)
    (hget : s.workers.get? t = some w) (ha : w.alive = true)
    (h1 : w.holds = false) (h2 : w.holdsNoop = false) (h3 : w.executing = false)
    (h4 : w.returned = false) (h5 : w.pendingNoop = false) (h6 : w.uncounted = false)
    (h7 : w.uncountedNoop = false) (h9 : w.toRun = none)
    (k1 : w'.holds = false) (k2 : w'.holdsNoop = false) (k3 : w'.executing = false)
    (k4 : w'.returned = false) (k5 : w'.pendingNoop = false) (k6 : w'.uncounted = false)
    (k7 : w'.uncountedNoop = false) (k9 : w'.toRun = none) :
    Counts threadCount maxQueueSize n { s with workers := s.workers.set t w' } := by
  have c := fun p => countP_set_of_get p s.workers t w w' hget
  have c1 := c Worker.holds
  have c2 := c Worker.holdsNoop
  have c3 := c Worker.executing
  have c4 := c Worker.returned
  have c5 := c Worker.pendingNoop
  have c6 := c Worker.uncounted
  have c7 := c Worker.uncountedNoop
  have c8 := c Worker.alive
  have c9 := filterMap_set_perm Worker.toRun s.workers t w w' hget
  simp only [ha, h1, h2, h3, h4, h5, h6, h7, h9, k1, k2, k3, k4, k5, k6, k7, k9, if_true,
    Bool.false_eq_true, if_false, Option.toList, List.append_nil] at c1 c2 c3 c4 c5 c6 c7 c8 c9
  refine ⟨?_, hinv.cap, hinv.heap, ?_, ?_, ?_, ?_, ?_, ?_, ?_, hinv.unstopped, ?_⟩
  · dsimp only
    rw [List.length_set]
    exact hinv.size
  · exact hinv.perm.trans ((c9.symm.append_left _).append_right _)
  · dsimp only
    rw [hinv.left]; congr 1; omega
  · intro hs
    have hb := hinv.bound hs
    dsimp only
    omega
  · dsimp only
    rw [hinv.busy]; congr 1; omega
  · dsimp only
    rw [hinv.done]; congr 1; omega
  · dsimp only
    rw [hinv.tally]; congr 1; omega
  · dsimp only
    intro hlt
    have he := hinv.exact (by omega)
    exact ⟨he.1, by rw [he.2]; omega⟩
  · intro hj
    have := hinv.joined hj
    have hle : (if w'.alive = true then 1 else 0) ≤ 1 := by split <;> omega
    dsimp only
    omega

theorem counts_test (threadCount maxQueueSize n : Nat) (s s' : Threads F) (t : Nat)
    (hinv : Counts threadCount maxQueueSize n s) (h : Threads.act s (.test t) = some s') :
    Counts threadCount maxQueueSize n s' := by
  simp only [Threads.act] at h
  split at h
  · rename_i hget
    simp only [Option.some.injEq] at h
    subst h
    split
    · exact counts_set_idle _ _ _ s t .loopHead .exited hinv hget rfl rfl rfl rfl rfl rfl rfl rfl
        rfl rfl rfl rfl rfl rfl rfl rfl rfl
    · exact counts_set_idle _ _ _ s t .loopHead .waiting hinv hget rfl rfl rfl rfl rfl rfl rfl rfl
        rfl rfl rfl rfl rfl rfl rfl rfl rfl
  · simp at h

theorem counts_nextJob (threadCount maxQueueSize n : Nat) (s s' : Threads F) (t : Nat)
    (hinv : Counts threadCount maxQueueSize n s) (h : Threads.act s (.nextJob t) = some s') :
    Counts threadCount maxQueueSize (n + injects s (.nextJob t)) s' := by
  simp only [Threads.act] at h
  split at h
  · rename_i hget
    split at h
    swap
    · simp at h
    rename_i job p hnext
    simp only [Option.some.injEq] at h
    subst h
    have c := fun q => countP_set_of_get q s.workers t .waiting (.taken job) hget
    have c1 := c Worker.holds
    have c2 := c Worker.holdsNoop
    have c3 := c Worker.executing
    have c4 := c Worker.returned
    have c5 := c Worker.pendingNoop
    have c6 := c Worker.uncounted
    have c7 := c Worker.uncountedNoop
    have c8 := c Worker.alive
    have c9 := filterMap_set_perm Worker.toRun s.workers t .waiting (.taken job) hget
    unfold next_job at hnext
    by_cases hs : s.pool.stop = false
    · rw [if_pos hs] at hnext
      have hinj : injects s (.nextJob t) = 0 := by simp [injects, hs]
      rw [hinj, Nat.add_zero]
      cases htop : s.pool.jobs.head? with
      | none => rw [htop] at hnext; simp at hnext
      | some top =>
        rw [htop] at hnext
        simp only [Option.some.injEq, Prod.mk.injEq] at hnext
        obtain ⟨hjob, hp⟩ := hnext
        subst hjob
        subst hp
        simp only [Worker.holds, Worker.holdsNoop, Worker.executing, Worker.returned,
          Worker.pendingNoop, Worker.uncounted, Worker.uncountedNoop, Worker.alive, Worker.toRun,
          if_true, Bool.false_eq_true, if_false] at c1 c2 c3 c4 c5 c6 c7 c8 c9
        have hlen := pop_length s.pool.jobs
        have hpos : 0 < s.pool.jobs.length := by
          cases hj : s.pool.jobs with
          | nil => rw [hj] at htop; simp at htop
          | cons a rest => simp
        have hpop : List.Perm ([top.2] ++ (pop s.pool.jobs).map Prod.snd)
            (s.pool.jobs.map Prod.snd) :=
          (pop_perm s.pool.jobs top hinv.heap htop).map Prod.snd
        refine ⟨?_, hinv.cap, pop_isHeap _ hinv.heap, ?_, ?_, ?_, ?_, ?_, ?_, ?_, hinv.unstopped,
          ?_⟩
        · dsimp only
          rw [List.length_set]
          exact hinv.size
        · dsimp only
          have hp := hinv.perm
          rw [← Multiset.coe_eq_coe] at *
          simp only [← Multiset.coe_add, Option.toList, Multiset.coe_nil, add_zero] at *
          rw [hp, c9, ← hpop]
          abel
        · dsimp only
          rw [hinv.left]; congr 1; omega
        · intro hsm
          have hb := hinv.bound hsm
          dsimp only
          omega
        · dsimp only
          rw [hinv.busy]; congr 1; omega
        · dsimp only
          rw [hinv.done]; congr 1; omega
        · dsimp only
          rw [hinv.tally]; congr 1; omega
        · dsimp only
          intro hlt
          have he := hinv.exact (by omega)
          exact ⟨he.1, by rw [he.2]; omega⟩
        · intro hj
          have := hinv.joined hj
          dsimp only
          omega
    · rw [if_neg hs] at hnext
      have hst : s.pool.stop = true := by
        cases hb : s.pool.stop with
        | true => rfl
        | false => exact absurd hb hs
      have hinj : injects s (.nextJob t) = 1 := by simp [injects, hst]
      rw [hinj]
      simp only [Option.some.injEq, Prod.mk.injEq] at hnext
      obtain ⟨hjob, hp⟩ := hnext
      subst hjob
      subst hp
      simp only [Worker.holds, Worker.holdsNoop, Worker.executing, Worker.returned,
        Worker.pendingNoop, Worker.uncounted, Worker.uncountedNoop, Worker.alive, Worker.toRun,
        if_true, Bool.false_eq_true, if_false] at c1 c2 c3 c4 c5 c6 c7 c8 c9
      refine ⟨?_, hinv.cap, hinv.heap, ?_, ?_, ?_, ?_, ?_, ?_, ?_, ?_, ?_⟩
      · dsimp only
        rw [List.length_set]
        exact hinv.size
      · dsimp only
        have hp := hinv.perm
        rw [← Multiset.coe_eq_coe] at *
        simp only [← Multiset.coe_add, Option.toList, Multiset.coe_nil, add_zero] at *
        rw [c9]; exact hp
      · dsimp only
        rw [hinv.left, toInt_toInt_add]; congr 1; omega
      · intro hsm
        have hb := hinv.bound hsm
        dsimp only
        omega
      · dsimp only
        rw [hinv.busy]; congr 1; omega
      · dsimp only
        rw [hinv.done, toInt_toInt_sub]; congr 1; omega
      · dsimp only
        rw [hinv.tally]; congr 1; push_cast; omega
      · dsimp only
        intro hlt
        have he := hinv.exact (by push_cast at hlt; omega)
        exact ⟨he.1, by rw [he.2]; push_cast; omega⟩
      · intro hfalse
        dsimp only at hfalse
        rw [hst] at hfalse
        exact absurd hfalse (by decide)
      · intro hj
        have := hinv.joined hj
        dsimp only
        omega
  · simp at h

theorem counts_addJob (threadCount maxQueueSize n : Nat) (s s' : Threads F) (priority : Int)
    (job : F) (hinv : Counts threadCount maxQueueSize n s)
    (h : Threads.act s (.addJob priority job) = some s') :
    Counts threadCount maxQueueSize n s' := by
  simp only [Threads.act, Option.some.injEq] at h
  subst h
  unfold addJob
  by_cases hfull : toInt s.pool.maxQueueSize ≤ s.pool.jobsLeft
  · simp only [if_pos hfull, Bool.false_eq_true, if_false]
    exact ⟨hinv.size, hinv.cap, hinv.heap, hinv.perm, hinv.left, hinv.bound, hinv.busy,
      hinv.done, hinv.tally, hinv.exact, hinv.unstopped, hinv.joined⟩
  · simp only [if_neg hfull, if_true]
    have hlen : (push s.pool.jobs (priority, job)).length = s.pool.jobs.length + 1 :=
      (push_perm s.pool.jobs (priority, job)).length_eq
    have hpush : List.Perm ((push s.pool.jobs (priority, job)).map Prod.snd)
        ([job] ++ s.pool.jobs.map Prod.snd) :=
      (push_perm s.pool.jobs (priority, job)).map Prod.snd
    refine ⟨hinv.size, hinv.cap, push_isHeap _ _ hinv.heap, ?_, ?_, ?_, hinv.busy, hinv.done,
      hinv.tally, hinv.exact, hinv.unstopped, hinv.joined⟩
    · dsimp only
      have hp := hinv.perm
      rw [← Multiset.coe_eq_coe] at *
      simp only [← Multiset.coe_add] at *
      rw [hp, hpush]
      abel
    · dsimp only
      rw [hinv.left, toInt_toInt_add, hlen]; congr 1; omega
    · intro hsm
      have hb := hinv.bound hsm
      have hn : s.workers.countP Worker.holdsNoop ≤ s.workers.length := List.countP_le_length _
      have hsize := hinv.size
      have hcap := hinv.cap
      have hleft := hinv.left
      rw [toInt_of_range (by omega) (by omega)] at hleft
      rw [hcap, toInt_of_range (by omega) (by omega), hleft] at hfull
      dsimp only
      rw [hlen]
      omega

theorem counts_waitAll (threadCount maxQueueSize n : Nat) (s s' : Threads F)
    (hinv : Counts threadCount maxQueueSize n s) (h : Threads.act s .waitAll = some s') :
    Counts threadCount maxQueueSize n s' := by
  simp only [Threads.act] at h
  split at h
  swap
  · simp at h
  simp only [Option.some.injEq] at h
  subst h
  refine ⟨hinv.size, hinv.cap, hinv.heap, hinv.perm, hinv.left, hinv.bound, hinv.busy,
    hinv.done, hinv.tally, hinv.exact, hinv.unstopped, ?_⟩
  intro hj
  obtain ⟨b, hb⟩ := hj
  simp at hb

theorem counts_setStop (threadCount maxQueueSize n : Nat) (s s' : Threads F)
    (hinv : Counts threadCount maxQueueSize n s) (h : Threads.act s .setStop = some s') :
    Counts threadCount maxQueueSize n s' := by
  simp only [Threads.act] at h
  split at h
  swap
  · simp at h
  simp only [Option.some.injEq] at h
  subst h
  refine ⟨hinv.size, hinv.cap, hinv.heap, hinv.perm, hinv.left, hinv.bound, hinv.busy,
    hinv.done, hinv.tally, hinv.exact, ?_, ?_⟩
  · intro hfalse
    simp at hfalse
  · intro hj
    obtain ⟨b, hb⟩ := hj
    simp at hb

theorem counts_join (threadCount maxQueueSize n : Nat) (s s' : Threads F)
    (hinv : Counts threadCount maxQueueSize n s) (h : Threads.act s .join = some s') :
    Counts threadCount maxQueueSize n s' := by
  simp only [Threads.act] at h
  split at h
  swap
  · simp at h
  split at h
  swap
  · simp at h
  rename_i hall
  simp only [Option.some.injEq] at h
  subst h
  refine ⟨hinv.size, hinv.cap, hinv.heap, hinv.perm, hinv.left, hinv.bound, hinv.busy,
    hinv.done, hinv.tally, hinv.exact, hinv.unstopped, ?_⟩
  intro _
  dsimp only
  rw [List.countP_eq_zero]
  intro w hw
  have := List.all_eq_true.mp hall w hw
  simpa using this

theorem counts_act (threadCount maxQueueSize n : Nat) (s s' : Threads F) (a : Action F)
    (hinv : Counts threadCount maxQueueSize n s) (h : Threads.act s a = some s') :
    Counts threadCount maxQueueSize (n + injects s a) s' := by
  cases a with
  | addJob priority job => exact counts_addJob _ _ _ s s' priority job hinv h
  | test t => exact counts_test _ _ _ s s' t hinv h
  | nextJob t => exact counts_nextJob _ _ _ s s' t hinv h
  | busy t => exact counts_busy _ _ _ s s' t hinv h
  | call t => exact counts_call _ _ _ s s' t hinv h
  | unbusy t => exact counts_unbusy _ _ _ s s' t hinv h
  | count t => exact counts_count _ _ _ s s' t hinv h
  | leave t => exact counts_leave _ _ _ s s' t hinv h
  | account t => exact counts_account _ _ _ s s' t hinv h
  | waitAll => exact counts_waitAll _ _ _ s s' hinv h
  | setStop => exact counts_setStop _ _ _ s s' hinv h
  | join => exact counts_join _ _ _ s s' hinv h

theorem counts_run (threadCount maxQueueSize n : Nat) (acts : List (Action F))
    (s s' : Threads F) (hinv : Counts threadCount maxQueueSize n s)
    (h : Threads.run s acts = some s') :
    Counts threadCount maxQueueSize (n + injected s acts) s' := by
  induction acts generalizing s n with
  | nil =>
    simp only [Threads.run, Option.some.injEq] at h
    subst h
    exact hinv
  | cons a rest ih =>
    simp only [Threads.run] at h
    cases ha : Threads.act s a with
    | none => rw [ha] at h; simp at h
    | some s1 =>
      rw [ha] at h
      have := ih (n + injects s a) s1 (counts_act _ _ n s s1 a hinv ha) h
      simp only [injected, ha]
      rw [← Nat.add_assoc]
      exact this

theorem counts_start (threadCount maxQueueSize : Nat) :
    Counts threadCount maxQueueSize 0 (Threads.start threadCount maxQueueSize : Threads F) := by
  have hz : ∀ (p : Worker F → Bool), p .loopHead = false →
      (Threads.start threadCount maxQueueSize : Threads F).workers.countP p = 0 :=
    fun p hp => countP_replicate_loopHead threadCount p hp
  have hsum : (List.replicate threadCount (0 : Int)).sum = 0 := by simp
  refine ⟨?_, rfl, ?_, ?_, ?_, ?_, ?_, ?_, ?_, ?_, fun _ => rfl, ?_⟩
  · simp [Threads.start]
  · intro i _ hlt
    simp [Threads.start, ThreadPool.new] at hlt
  · simp only [Threads.start, ThreadPool.new, filterMap_replicate_loopHead]
    exact List.Perm.refl _
  · rw [hz _ rfl]
    simp [Threads.start, ThreadPool.new, toInt]
  · intro _
    rw [hz Worker.holds rfl]
    simp [Threads.start, ThreadPool.new]
  · rw [hz _ rfl]
    simp [Threads.start, ThreadPool.new, toInt]
  · rw [hz Worker.returned rfl, hz Worker.pendingNoop rfl]
    simp [Threads.start, ThreadPool.new, toInt]
  · rw [hz Worker.uncounted rfl, hz Worker.uncountedNoop rfl]
    simp [Threads.start, ThreadPool.new, toInt]
  · intro _
    rw [hz Worker.uncounted rfl, hz Worker.uncountedNoop rfl]
    refine ⟨?_, ?_⟩
    · intro x hx
      simp only [Threads.start, ThreadPool.new] at hx
      rw [List.eq_of_mem_replicate hx]
    · simp [Threads.start, ThreadPool.new]
  · intro hj
    obtain ⟨b, hb⟩ := hj
    simp [Threads.start] at hb

end PoolCounts

/-! ## The counters of the pool: the claims -/

section PoolClaims

open concurrent concurrent.ThreadPool concurrent.Threads

variable {F : Type}

theorem toInt_le_self (n : Nat) : toInt (n : Int) ≤ n := by
  unfold toInt
  omega

theorem countP_le_countP_of_imp (p q : Worker F → Bool) (hpq : ∀ w, p w = true → q w = true)
    (l : List (Worker F)) : l.countP p ≤ l.countP q :=
  List.countP_mono_left fun w _ hw => hpq w hw

theorem executing_holds (w : Worker F) (h : w.executing = true) : w.holds = true := by
  cases w <;> first | rfl | simp [Worker.executing] at h

theorem holds_alive (w : Worker F) (h : w.holds = true) : w.alive = true := by
  cases w <;> first | rfl | simp [Worker.holds] at h

theorem holds_inFlight (w : Worker F) (h : w.holds = true) : w.inFlight = true := by
  cases w <;> first | rfl | simp [Worker.holds] at h

theorem returned_inFlight (w : Worker F) (h : w.returned = true) : w.inFlight = true := by
  cases w <;> first | rfl | simp [Worker.returned] at h

theorem pendingNoop_inFlight (w : Worker F) (h : w.pendingNoop = true) :
    w.inFlight = true := by
  cases w <;> first | rfl | simp [Worker.pendingNoop] at h

theorem uncounted_inFlight (w : Worker F) (h : w.uncounted = true) : w.inFlight = true := by
  cases w <;> first | rfl | simp [Worker.uncounted] at h

theorem uncountedNoop_inFlight (w : Worker F) (h : w.uncountedNoop = true) :
    w.inFlight = true := by
  cases w <;> first | rfl | simp [Worker.uncountedNoop] at h

/-- C30: in every state the threads of a new pool reach, by any actions in any
order, `getJobsLeft()` is, as an `int`, the size of the queue plus the number
of workers that hold a value `next_job` returned to them (a job or the
injected empty lambda) and have not yet run `jobsLeft -= 1` for it;
`getBusyThreads()` is at most that number of workers, which is at most the
number of threads; these are the workers with a job in flight whenever no
worker stands between `jobsLeft -= 1` and `jobsDone += 1`. When `maxQueueSize + threadCount` fits `int` the sum does
not wrap, so `getJobsLeft()` is the size of the queue exactly when no worker
holds such a value. After `joinAll(false)` has returned no worker holds one,
and the queue holds the accepted jobs that were not run. -/
theorem jobsLeft_counts_held_jobs (threadCount maxQueueSize : Nat) (acts : List (Action F))
    (s : Threads F) (hrun : Threads.run (Threads.start threadCount maxQueueSize) acts = some s) :
    s.pool.getJobsLeft
      = toInt ((s.pool.jobs.length + s.workers.countP Worker.holds : Nat) : Int) ∧
    s.pool.getBusyThreads ≤ (s.workers.countP Worker.holds : Nat) ∧
    s.workers.countP Worker.holds ≤ threadCount ∧
    ((∀ w ∈ s.workers, ∀ job, w ≠ Worker.left job) →
      s.workers.countP Worker.holds = s.workers.countP Worker.inFlight) ∧
    (maxQueueSize + threadCount < 2 ^ 31 →
      s.pool.getJobsLeft = ((s.pool.jobs.length + s.workers.countP Worker.holds : Nat) : Int) ∧
      (s.pool.getJobsLeft = (s.pool.jobs.length : Int) ↔ s.workers.countP Worker.holds = 0)) ∧
    (s.joiner = .joined false →
      s.workers.countP Worker.holds = 0 ∧
      List.Perm s.accepted (s.pool.jobs.map Prod.snd ++ s.executed) ∧
      (maxQueueSize + threadCount < 2 ^ 31 → s.pool.getJobsLeft = (s.pool.jobs.length : Int))) := by
  have hinv := counts_run threadCount maxQueueSize 0 acts _ s
    (counts_start threadCount maxQueueSize) hrun
  have hH : s.workers.countP Worker.holds ≤ threadCount := by
    rw [← hinv.size]
    exact List.countP_le_length _
  have hN : s.workers.countP Worker.holdsNoop ≤ threadCount := by
    rw [← hinv.size]
    exact List.countP_le_length _
  have hE : s.workers.countP Worker.executing ≤ s.workers.countP Worker.holds :=
    countP_le_countP_of_imp _ _ executing_holds _
  have hexact : maxQueueSize + threadCount < 2 ^ 31 →
      s.pool.jobsLeft = ((s.pool.jobs.length + s.workers.countP Worker.holds : Nat) : Int) := by
    intro hs
    have hb := hinv.bound hs
    rw [hinv.left]
    exact toInt_of_range (by omega) (by omega)
  refine ⟨hinv.left, ?_, hH, ?_, ?_, ?_⟩
  · unfold getBusyThreads
    rw [hinv.busy]
    have := toInt_le_self (s.workers.countP Worker.executing)
    omega
  · intro hleft
    apply List.countP_congr
    intro w hw
    cases w with
    | left job => exact absurd rfl (hleft _ hw job)
    | _ => simp [Worker.holds, Worker.inFlight]
  · intro hs
    have he := hexact hs
    unfold getJobsLeft
    refine ⟨he, ?_⟩
    rw [he]
    omega
  · intro hj
    have halive := hinv.joined ⟨false, hj⟩
    have hzero : s.workers.countP Worker.holds = 0 := by
      have := countP_le_countP_of_imp _ _ (holds_alive (F := F)) s.workers
      omega
    refine ⟨hzero, ?_, ?_⟩
    · have hp := hinv.perm
      rw [filterMap_toRun_of_exited _ halive, List.append_nil] at hp
      exact hp
    · intro hs
      unfold getJobsLeft
      rw [hexact hs, hzero]
      rfl

theorem jobsLeft_counts_held_jobs_witness :
    Threads.run (Threads.start 2 8) sampleRunningActs = some sampleRunning ∧
    sampleRunning.pool.getJobsLeft = 2 ∧ sampleRunning.pool.jobs.length = 1 ∧
    sampleRunning.pool.getJobsLeft
      = toInt ((sampleRunning.pool.jobs.length
          + sampleRunning.workers.countP Worker.holds : Nat) : Int) ∧
    sampleRunning.pool.getBusyThreads ≤ (sampleRunning.workers.countP Worker.holds : Nat) ∧
    sampleRunning.workers.countP Worker.holds ≤ 2 :=
  ⟨rfl, by decide, by decide,
    (jobsLeft_counts_held_jobs 2 8 sampleRunningActs sampleRunning rfl).1,
    (jobsLeft_counts_held_jobs 2 8 sampleRunningActs sampleRunning rfl).2.1,
    (jobsLeft_counts_held_jobs 2 8 sampleRunningActs sampleRunning rfl).2.2.1⟩

/-- After `joinAll(false)` with a job left in the queue, `getJobsLeft()` is 1:
the job that was accepted and never run. -/
theorem jobsLeft_after_joinAll_false :
    Threads.run (Threads.start 2 8) sampleAbandonActs = some sampleAbandoned ∧
    sampleAbandoned.joiner = .joined false ∧
    sampleAbandoned.pool.getJobsLeft = 1 ∧
    sampleAbandoned.pool.jobs.map Prod.snd = ["b"] ∧
    sampleAbandoned.accepted = ["a", "b"] ∧ sampleAbandoned.executed = ["a"] :=
  ⟨rfl, by decide, by decide, by decide, by decide, by decide⟩

/-- C24, as the code has it: in every state the threads of a new pool reach
(the sum `maxQueueSize + threadCount` fitting `int`), `getBusyThreads()` is
from 0 to the number of threads, and `getJobsLeft()` is the size of the queue
in every state in which no worker holds a value `next_job` returned to it
without having run `jobsLeft -= 1` for it, in particular when no job is in
flight. -/
theorem busy_bounded_pending_when_idle (threadCount maxQueueSize : Nat)
    (acts : List (Action F)) (s : Threads F)
    (hsmall : maxQueueSize + threadCount < 2 ^ 31)
    (hrun : Threads.run (Threads.start threadCount maxQueueSize) acts = some s) :
    0 ≤ s.pool.getBusyThreads ∧ s.pool.getBusyThreads ≤ threadCount ∧
    (s.workers.countP Worker.holds = 0 → s.pool.getJobsLeft = (s.pool.jobs.length : Int)) ∧
    (s.workers.countP Worker.inFlight = 0 →
      s.pool.getJobsLeft = (s.pool.jobs.length : Int)) := by
  have hinv := counts_run threadCount maxQueueSize 0 acts _ s
    (counts_start threadCount maxQueueSize) hrun
  have hE : s.workers.countP Worker.executing ≤ threadCount := by
    rw [← hinv.size]
    exact List.countP_le_length _
  have hN : s.workers.countP Worker.holdsNoop ≤ threadCount := by
    rw [← hinv.size]
    exact List.countP_le_length _
  have hb := hinv.bound hsmall
  have hbusy : s.pool.busyThreads = (s.workers.countP Worker.executing : Nat) := by
    rw [hinv.busy]
    exact toInt_of_range (by omega) (by omega)
  have hleft : s.pool.jobsLeft
      = ((s.pool.jobs.length + s.workers.countP Worker.holds : Nat) : Int) := by
    rw [hinv.left]
    exact toInt_of_range (by omega) (by omega)
  have hzero : s.workers.countP Worker.holds = 0 →
      s.pool.getJobsLeft = (s.pool.jobs.length : Int) := by
    intro hz
    unfold getJobsLeft
    rw [hleft, hz]
    rfl
  refine ⟨?_, ?_, hzero, ?_⟩
  · unfold getBusyThreads
    rw [hbusy]
    omega
  · unfold getBusyThreads
    rw [hbusy]
    omega
  · intro hidle
    apply hzero
    have := countP_le_countP_of_imp _ _ (holds_inFlight (F := F)) s.workers
    omega

theorem busy_bounded_pending_when_idle_witness :
    8 + 2 < 2 ^ 31 ∧
    Threads.run (Threads.start 2 8) sampleRunningActs = some sampleRunning ∧
    0 ≤ sampleRunning.pool.getBusyThreads ∧ sampleRunning.pool.getBusyThreads ≤ (2 : Nat) ∧
    (sampleRunning.workers.countP Worker.holds = 0 →
      sampleRunning.pool.getJobsLeft = (sampleRunning.pool.jobs.length : Int)) ∧
    (sampleRunning.workers.countP Worker.inFlight = 0 →
      sampleRunning.pool.getJobsLeft = (sampleRunning.pool.jobs.length : Int)) :=
  ⟨by decide, rfl,
    busy_bounded_pending_when_idle 2 8 sampleRunningActs sampleRunning (by decide) rfl⟩

/-- C24 as stated fails: after one job was submitted and thread 0 has taken
it out of the queue, `getJobsLeft()` is 1 and the queue is empty. -/
theorem pending_exceeds_queue_while_job_held :
    sampleTaken.map (fun s => (s.pool.getJobsLeft, s.pool.jobs.length, s.pool.getBusyThreads))
      = some (1, 0, 0) := by
  decide

/-- What the counters of completed jobs come to: in every state the threads
of a new pool reach in which no job is in flight, the sum of
`getJobsPerThread()` is
`getAmountOfDoneJobs()` plus the number of empty lambdas injected so far, as
`int` values, and exactly so when the number of jobs run plus that number of
injections fits `int`; `getAmountOfDoneJobs()` is then the number of jobs run.
No empty lambda is injected while `stop` is not set, so until then the two
counts are equal. -/
theorem jobsPerThread_sum (threadCount maxQueueSize : Nat) (acts : List (Action F))
    (s : Threads F)
    (hrun : Threads.run (Threads.start threadCount maxQueueSize) acts = some s)
    (hidle : s.workers.countP Worker.inFlight = 0) :
    toInt s.pool.getJobsPerThread.sum
      = toInt (s.pool.getAmountOfDoneJobs
          + injected (Threads.start threadCount maxQueueSize) acts) ∧
    (s.executed.length + injected (Threads.start threadCount maxQueueSize) acts < 2 ^ 31 →
      s.pool.getJobsPerThread.sum
        = s.pool.getAmountOfDoneJobs + injected (Threads.start threadCount maxQueueSize) acts ∧
      s.pool.getAmountOfDoneJobs = s.executed.length) ∧
    (s.pool.stop = false → injected (Threads.start threadCount maxQueueSize) acts = 0) := by
  have hinv := counts_run threadCount maxQueueSize 0 acts _ s
    (counts_start threadCount maxQueueSize) hrun
  rw [Nat.zero_add] at hinv
  have h1 : s.workers.countP Worker.returned = 0 := by
    have := countP_le_countP_of_imp _ _ (returned_inFlight (F := F)) s.workers
    omega
  have h2 : s.workers.countP Worker.pendingNoop = 0 := by
    have := countP_le_countP_of_imp _ _ (pendingNoop_inFlight (F := F)) s.workers
    omega
  have h3 : s.workers.countP Worker.uncounted = 0 := by
    have := countP_le_countP_of_imp _ _ (uncounted_inFlight (F := F)) s.workers
    omega
  have h4 : s.workers.countP Worker.uncountedNoop = 0 := by
    have := countP_le_countP_of_imp _ _ (uncountedNoop_inFlight (F := F)) s.workers
    omega
  have hdone := hinv.done
  have htally := hinv.tally
  have hexact := hinv.exact
  rw [h1, h2] at hdone
  rw [h3, h4] at htally hexact
  simp only [Nat.cast_zero, sub_zero] at hdone htally hexact
  refine ⟨?_, ?_, hinv.unstopped⟩
  · unfold getJobsPerThread getAmountOfDoneJobs
    rw [htally, hdone, toInt_toInt_add]
  · intro hlt
    have he := hexact (by exact_mod_cast hlt)
    have hd : s.pool.jobsDone = s.executed.length := by
      rw [hdone]
      exact toInt_of_range (by omega) (by omega)
    unfold getJobsPerThread getAmountOfDoneJobs
    exact ⟨by rw [he.2, hd], hd⟩

theorem jobsPerThread_sum_witness :
    Threads.run (Threads.start 3 10) (sampleSubmits ++ .waitAll :: sampleShutdown)
      = some sampleJoined ∧
    sampleJoined.workers.countP Worker.inFlight = 0 ∧
    injected (Threads.start 3 10) (sampleSubmits ++ .waitAll :: sampleShutdown) = 2 ∧
    toInt sampleJoined.pool.getJobsPerThread.sum
      = toInt (sampleJoined.pool.getAmountOfDoneJobs
          + injected (Threads.start 3 10) (sampleSubmits ++ .waitAll :: sampleShutdown)) :=
  ⟨rfl, by decide, by decide,
    (jobsPerThread_sum 3 10 (sampleSubmits ++ .waitAll :: sampleShutdown) sampleJoined rfl
      (by decide)).1⟩

/-- C25, evaluated: in the sample run of three threads, two jobs are accepted
and run, and `joinAll(true)` returns after the threads 0 and 2 have each run
one injected empty lambda. Every thread has left `process`, so no job is in
flight. `next_job` has taken the two empty lambdas back out of `jobsLeft`
(it is 0) and out of `jobsDone` (it is 2, the number of jobs), but
`process` has counted them in `jobsPerThread`: its entries are 2, 1 and 1,
with the sum 4. -/
theorem jobsPerThread_counts_empty_lambdas :
    sampleJoined.workers.countP Worker.inFlight = 0 ∧
    sampleJoined.workers.countP Worker.alive = 0 ∧
    sampleJoined.accepted.length = 2 ∧
    sampleJoined.pool.getJobsLeft = 0 ∧
    sampleJoined.pool.getAmountOfDoneJobs = 2 ∧
    sampleJoined.pool.getJobsPerThread = [2, 1, 1] ∧
    sampleJoined.pool.getJobsPerThread.sum = 4 := by
  decide

end PoolClaims

end pb
